import Mathlib

/-!
# Mean-of-squares server: embedding and verification

Shallow embedding of `ServerApplication.cpp` and of the codec lines of
`ClientApplication.cpp`.

* Machine integers are `Int`/`Nat` with explicit wrapping to 32 bits.
* A 4-byte buffer is `Bytes4`; the byte order of a host is a parameter, and `htonl`/`ntohl`
  are a byte swap on a little-endian host and the identity on a big-endian one.
* `double` and `float` values are finite binary floating-point numbers `Fp`; every arithmetic
  operation and conversion is the exact result rounded to nearest, ties to even (IEEE-754
  binary64 and binary32).
* `std::set<int>` is the list of its members in iteration (ascending) order.
* The completion handlers of a session are functions of the shared set and of the completion;
  they return the new set, the operation the session then waits for, and their effects in
  program order. The bytes handed to `async_write` are taken to be the bytes sent. All handlers
  run on the thread that calls `io_context.run()`, so the server is a step function on the
  completions delivered to it.
* `dump_thread_func` is a machine that consumes the successive values read from `stop_flag_`.
* For the mutex, calls of `add_number` and copies of `create_dump` are threads that step
  statement by statement under an arbitrary schedule.
* Two machines are written from the words of the specification, not from the code, and the code
  is compared with them: `Protocol` (the session state machine of section 4.3, with the
  host-independent big-endian codec) and `Atomic` (the aggregate whose `observe` and `snapshot`
  are indivisible).
-/

namespace MeanServer

/-! ## Machine integers and byte order -/

/-- Conversion to `int` / `int32_t`: two's-complement wrap to 32 bits. -/
def toInt32 (z : Int) : Int := (z + 2147483648) % 4294967296 - 2147483648

/-- Conversion to `u_long` / `uint32_t`: reduction modulo `2^32`. -/
def toUInt32 (z : Int) : Nat := (z % 4294967296).toNat

/-- Byte order of a host. -/
inductive Endian where
  | little
  | big
deriving DecidableEq, Repr

/-- Four bytes at increasing addresses (or in transmission order). -/
structure Bytes4 where
  b0 : Fin 256
  b1 : Fin 256
  b2 : Fin 256
  b3 : Fin 256
deriving DecidableEq, Repr

/-- The low byte of a natural number. -/
def byte (x : Nat) : Fin 256 := ⟨x % 256, Nat.mod_lt x (by decide)⟩

/-- The bytes of a `Bytes4` in order. -/
def Bytes4.toList (b : Bytes4) : List (Fin 256) := [b.b0, b.b1, b.b2, b.b3]

/-- Object representation of the 32-bit word `x` in the memory of a host. -/
def to_memory (h : Endian) (x : Nat) : Bytes4 :=
  match h with
  | .little => ⟨byte x, byte (x / 256), byte (x / 65536), byte (x / 16777216)⟩
  | .big => ⟨byte (x / 16777216), byte (x / 65536), byte (x / 256), byte x⟩

/-- The 32-bit word whose object representation on host `h` is `b`. -/
def of_memory (h : Endian) (b : Bytes4) : Nat :=
  match h with
  | .little => b.b0.val + b.b1.val * 256 + b.b2.val * 65536 + b.b3.val * 16777216
  | .big => b.b3.val + b.b2.val * 256 + b.b1.val * 65536 + b.b0.val * 16777216

/-- Byte swap of a 32-bit word. -/
def bswap32 (x : Nat) : Nat :=
  (x % 256) * 16777216 + (x / 256 % 256) * 65536 + (x / 65536 % 256) * 256 + x / 16777216 % 256

/-- The library function `htonl`: a byte swap on a little-endian host, the identity on a
big-endian one. -/
def htonl (h : Endian) (x : Nat) : Nat :=
  match h with
  | .little => bswap32 x
  | .big => x

/-- The library function `ntohl`. -/
def ntohl (h : Endian) (x : Nat) : Nat :=
  match h with
  | .little => bswap32 x
  | .big => x

/-! ## Binary floating point -/

/-- An exact rational `num / den`, the unrounded result of an operation. -/
structure Frac where
  num : Int
  den : Nat
deriving DecidableEq, Repr

/-- A finite binary floating-point value `(-1)^neg * m * 2^e`. -/
structure Fp where
  neg : Bool
  m : Nat
  e : Int
deriving DecidableEq, Repr

/-- The rational value of a fraction. -/
def Frac.toRat (x : Frac) : ℚ := (x.num : ℚ) / (x.den : ℚ)

/-- The rational value of a floating-point number. -/
def Fp.toRat (x : Fp) : ℚ := (if x.neg then -1 else 1) * (x.m : ℚ) * (2 : ℚ) ^ x.e

/-- A floating-point value as an exact fraction. -/
def Fp.exact (x : Fp) : Frac :=
  let s : Int := if x.neg then -(x.m : Int) else (x.m : Int)
  if x.m = 0 then ⟨0, 1⟩
  else if 0 ≤ x.e then ⟨s * ((2 ^ x.e.toNat : Nat) : Int), 1⟩
  else ⟨s, 2 ^ (-x.e).toNat⟩

/-- Exact sum of two fractions. -/
def Frac.add (a b : Frac) : Frac :=
  ⟨a.num * (b.den : Int) + b.num * (a.den : Int), a.den * b.den⟩

/-- Exact quotient of two fractions (the divisor is non-zero wherever this is used). -/
def Frac.div (a b : Frac) : Frac :=
  if 0 ≤ b.num then ⟨a.num * (b.den : Int), a.den * b.num.natAbs⟩
  else ⟨-(a.num * (b.den : Int)), a.den * b.num.natAbs⟩

/-- Binary logarithm rounded down, by repeated halving. -/
def log2Fuel : Nat → Nat → Nat
  | 0, _ => 0
  | fuel + 1, n => if n < 2 then 0 else log2Fuel fuel (n / 2) + 1

/-- Position of the leading bit of `n`. -/
def log2 (n : Nat) : Nat := log2Fuel n n

/-- The integer `k` with `2^k ≤ n / d < 2^(k+1)`, for positive `n` and `d`. -/
def floorLog2 (n d : Nat) : Int :=
  let k : Int := (log2 n : Int) - (log2 d : Int)
  if 0 ≤ k then (if d * 2 ^ k.toNat ≤ n then k else k - 1)
  else (if d ≤ n * 2 ^ (-k).toNat then k else k - 1)

/-- Nearest integer to `n / d`, ties to even. -/
def roundHalfEven (n d : Nat) : Nat :=
  let q := n / d
  let r := n % d
  if 2 * r < d then q else if d < 2 * r then q + 1 else if q % 2 = 0 then q else q + 1

/-- Exponent of the unit in the last place of `n / d` for precision `p`, not below `emin`
(gradual underflow). -/
def ulpExp (p : Nat) (emin : Int) (n d : Nat) : Int :=
  max (floorLog2 n d - ((p : Int) - 1)) emin

/-- The fraction `(n / d) / 2^e` as numerator and denominator. -/
def scale (n d : Nat) (e : Int) : Nat × Nat :=
  if 0 ≤ e then (n, d * 2 ^ e.toNat) else (n * 2 ^ (-e).toNat, d)

/-- Rounding of an exact result to the nearest floating-point number of precision `p`, ties to
even, with `emin` the exponent of the smallest subnormal. Overflow to infinity is not
represented: every magnitude computed by the server is below `2^64`. -/
def roundTo (p : Nat) (emin : Int) (x : Frac) : Fp :=
  if x.num = 0 ∨ x.den = 0 then ⟨false, 0, emin⟩ else
  let n := x.num.natAbs
  let e := ulpExp p emin n x.den
  let m := roundHalfEven (scale n x.den e).1 (scale n x.den e).2
  if m = 2 ^ p then ⟨decide (x.num < 0), 2 ^ (p - 1), e + 1⟩ else ⟨decide (x.num < 0), m, e⟩

/-- Rounding to `double` (binary64). -/
def roundDouble (x : Frac) : Fp := roundTo 53 (-1074) x

/-- Rounding to `float` (binary32). -/
def roundFloat (x : Frac) : Fp := roundTo 24 (-149) x

/-- The bit pattern of a `float` value: sign, biased exponent, fraction. -/
def float_bits (x : Fp) : Nat :=
  (if x.neg then 2147483648 else 0) + ((x.e + 149).toNat * 8388608 + x.m)

/-- The value of a finite IEEE-754 single-precision bit pattern: sign bit, eight bits of biased
exponent, twenty-three bits of fraction; a zero exponent field is a subnormal. -/
def float_value (bits : Nat) : ℚ :=
  (if bits / 2147483648 % 2 = 1 then -1 else 1) *
    (if bits / 8388608 % 256 = 0 then ((bits % 8388608 : Nat) : ℚ) * (2 : ℚ) ^ (-149 : Int)
     else ((8388608 + bits % 8388608 : Nat) : ℚ)
       * (2 : ℚ) ^ (((bits / 8388608 % 256 : Nat) : Int) - 150))

/-! ## The aggregate: `Server::add_number` -/

/-- The call `std::set<int>::insert` on the ascending list of members. -/
def set_insert (v : Int) : List Int → List Int
  | [] => [v]
  | x :: xs => if v < x then v :: x :: xs else if v = x then x :: xs else x :: set_insert v xs

/-- One iteration of the loop of `add_number`:
`sum_of_squares += static_cast<double>(num * num)`. -/
def accumulate (sum_of_squares : Fp) (num : Int) : Fp :=
  roundDouble (Frac.add sum_of_squares.exact (roundDouble ⟨toInt32 (num * num), 1⟩).exact)

/-- The loop of `add_number` over the members in iteration order, from
`double sum_of_squares = 0`. -/
def sum_of_squares (numbers_ : List Int) : Fp :=
  numbers_.foldl accumulate (roundDouble ⟨0, 1⟩)

/-- The expression `numbers_.empty() ? 0 : sum_of_squares / numbers_.size()`. -/
def mean_from (sum_of_squares : Fp) (numbers_ : List Int) : Fp :=
  if numbers_.isEmpty then roundDouble ⟨0, 1⟩
  else roundDouble
    (Frac.div sum_of_squares.exact (roundDouble ⟨(numbers_.length : Int), 1⟩).exact)

/-- The value `add_number` computes on the set `numbers_`: the loop, then the return
expression. -/
def mean_of_squares (numbers_ : List Int) : Fp :=
  mean_from (sum_of_squares numbers_) numbers_

/-- The method `Server::add_number`: the set after the call and the returned value. -/
def add_number (numbers_ : List Int) (number : Int) : List Int × Fp :=
  let numbers' := set_insert number numbers_
  (numbers', mean_of_squares numbers')

/-- The invariant of the set in the reachable states of the server: the members are in
strictly ascending order (as in every `std::set`) and lie in `[0, 1023]`. -/
def Valid (numbers_ : List Int) : Prop :=
  numbers_.Sorted (· < ·) ∧ ∀ v ∈ numbers_, 0 ≤ v ∧ v ≤ 1023

/-- The set after the numbers `vs` have been passed to `add_number` one after another. -/
def feed (numbers_ : List Int) : List Int → List Int
  | [] => numbers_
  | v :: vs => feed (add_number numbers_ v).1 vs

/-- The values returned by `add_number` when the numbers `vs` are passed to it one after
another. -/
def returned_values (numbers_ : List Int) : List Int → List Fp
  | [] => []
  | v :: vs => (add_number numbers_ v).2 :: returned_values (add_number numbers_ v).1 vs

/-- The sum of the squares of the members of a list, as an integer. -/
def sumsq (l : List Int) : Int := (l.map (fun v => v * v)).sum

/-- Mean of the squares of the distinct values of a sequence, as an exact rational: the sum of
`v * v` over the distinct values divided by their number. -/
def distinct_mean (vs : List Int) : ℚ :=
  (∑ v in vs.toFinset, (v : ℚ) * (v : ℚ)) / (vs.toFinset.card : ℚ)

/-! ## The codec of the client: `Client::send_random_number`, `Client::receive_result` -/

/-- Lines 65 and 70 of the client: `int32_t network_number = htonl(random_number)`, whose four
bytes are sent. -/
def encode_request (h : Endian) (random_number : Int) : Bytes4 :=
  let network_number := toInt32 (htonl h (toUInt32 random_number))
  to_memory h (toUInt32 network_number)

/-- Lines 83-88 of the client: the four bytes received are stored in the `int32_t result_`,
`host_result = ntohl(result_)`, and the bits of `host_result` are read as a `float`. The value is
that bit pattern. -/
def decode_response (h : Endian) (buf : Bytes4) : Nat :=
  let result_ := toInt32 (of_memory h buf)
  let host_result := toInt32 (ntohl h (toUInt32 result_))
  toUInt32 host_result

/-! ## The session: `Server::ClientSession` -/

/-- Lines 103-106 of the read handler: the bits of the `float` are read as an `int32_t`, passed
through `htonl`, and the four bytes of `network_result` are handed to `async_write`. -/
def encode_float_bits (h : Endian) (bits : Nat) : Bytes4 :=
  let result_bits := toInt32 (bits : Int)
  let network_result := toInt32 (htonl h (toUInt32 result_bits))
  to_memory h (toUInt32 network_result)

/-- Lines 102-106 of the read handler: the mean is converted to `float` and its bits are
encoded. -/
def encode_response (h : Endian) (mean : Fp) : Bytes4 :=
  let result := roundFloat mean.exact
  encode_float_bits h (float_bits result)

/-- Line 93: `int received_num = ntohl(number_)`, where the four bytes read from the socket have
been stored in the `int32_t number_`. -/
def decode_request (h : Endian) (buf : Bytes4) : Int :=
  let number_ := toInt32 (of_memory h buf)
  toInt32 (ntohl h (toUInt32 number_))

/-- The asynchronous operation a session is waiting for; `closed` when none is outstanding (the
session object is then released). -/
inductive Pending where
  | read
  | write (data : Bytes4)
  | closed
deriving DecidableEq, Repr

/-- What a handler does, in program order. -/
inductive Effect where
  | add_number (number : Int) (mean : Fp)
  | async_write (data : Bytes4)
  | read_number
  | handle_error
deriving DecidableEq, Repr

/-- The completion handler of `async_read` in `ClientSession::read_number` (lines 90-123);
`ec` is true when the read failed. -/
def read_handler (h : Endian) (numbers_ : List Int) (ec : Bool) (buf : Bytes4) :
    List Int × Pending × List Effect :=
  if !ec then
    let received_num := decode_request h buf
    if 0 ≤ received_num ∧ received_num ≤ 1023 then
      let r := add_number numbers_ received_num
      let data := encode_response h r.2
      (r.1, Pending.write data, [Effect.add_number received_num r.2, Effect.async_write data])
    else
      (numbers_, Pending.read, [Effect.read_number])
  else
    (numbers_, Pending.closed, [Effect.handle_error])

/-- The completion handler of `async_write` (lines 107-114). -/
def write_handler (ec : Bool) : Pending × List Effect :=
  if !ec then (Pending.read, [Effect.read_number]) else (Pending.closed, [Effect.handle_error])

/-- The state of the server as seen by the completion handlers, which all run on the one thread
that calls `io_context.run()`: the shared set and the pending operation of every session. -/
structure Server where
  numbers_ : List Int
  sessions : List Pending
deriving DecidableEq, Repr

/-- A completion delivered to the server. -/
inductive Event where
  | accept (error : Bool)
  | read_done (sid : Nat) (ec : Bool) (buf : Bytes4)
  | write_done (sid : Nat) (ec : Bool)
deriving DecidableEq, Repr

/-- The server after one completion, and the effects of the handler with the session they belong
to. A completion for an operation that is not outstanding does not occur; it runs no handler. -/
def Server.step (h : Endian) (s : Server) : Event → Server × List (Nat × Effect)
  | Event.accept error =>
    if !error then
      (⟨s.numbers_, s.sessions ++ [Pending.read]⟩, [(s.sessions.length, Effect.read_number)])
    else (s, [])
  | Event.read_done sid ec buf =>
    match s.sessions[sid]? with
    | some Pending.read =>
      let r := read_handler h s.numbers_ ec buf
      (⟨r.1, s.sessions.set sid r.2.1⟩, r.2.2.map (fun e => (sid, e)))
    | _ => (s, [])
  | Event.write_done sid ec =>
    match s.sessions[sid]? with
    | some (Pending.write _) =>
      let r := write_handler ec
      (⟨s.numbers_, s.sessions.set sid r.1⟩, r.2.map (fun e => (sid, e)))
    | _ => (s, [])

/-- A call of `add_number` recorded in the effects is within the bounds: the argument is in
`[0, 1023]`, the returned `double` and the `float` sent are in `[0, 1046529]`. -/
def Effect.bounded : Effect → Prop
  | Effect.add_number number mean =>
    0 ≤ number ∧ number ≤ 1023 ∧ 0 ≤ mean.toRat ∧ mean.toRat ≤ 1046529 ∧
      0 ≤ (roundFloat mean.exact).toRat ∧ (roundFloat mean.exact).toRat ≤ 1046529
  | _ => True

/-- The server started with an empty set and no session. -/
def Server.init : Server := ⟨[], []⟩

/-- The server after a sequence of completions, with all the effects in order. -/
def Server.run (h : Endian) (s : Server) : List Event → Server × List (Nat × Effect)
  | [] => (s, [])
  | ev :: evs =>
    let r := Server.step h s ev
    let r' := Server.run h r.1 evs
    (r'.1, r.2 ++ r'.2)

/-- The responses handed to `async_write` among the effects of the server, with their session. -/
def written : List (Nat × Effect) → List (Nat × Bytes4)
  | [] => []
  | (sid, Effect.async_write data) :: t => (sid, data) :: written t
  | _ :: t => written t

/-- The big-endian signed 32-bit decoding of four bytes. -/
def be_int32 (buf : Bytes4) : Int := toInt32 (of_memory Endian.big buf)

/-- Whether a completion runs a handler: that of an accept always does, that of a read or of a
write does when the session is waiting for it (see `Server.step`). -/
def Server.handles (s : Server) : Event → Bool
  | Event.accept _ => true
  | Event.read_done sid _ _ =>
    match s.sessions[sid]? with
    | some Pending.read => true
    | _ => false
  | Event.write_done sid _ =>
    match s.sessions[sid]? with
    | some (Pending.write _) => true
    | _ => false

/-- The completions that ran a handler, in order. -/
def Server.handled (h : Endian) (s : Server) : List Event → List Event
  | [] => []
  | ev :: evs =>
    if s.handles ev then ev :: Server.handled h (Server.step h s ev).1 evs
    else Server.handled h (Server.step h s ev).1 evs

/-! ## The protocol of the specification -/

/-- The response the specification describes for a mean: the IEEE-754 single-precision bit
pattern of its conversion to `float`, most significant byte first, on every host. -/
def spec_response (mean : Fp) : Bytes4 :=
  to_memory Endian.big (float_bits (roundFloat mean.exact))

/-- The four bytes `data`, read as a big-endian IEEE-754 single-precision number, are a `float`
nearest to `mean`: no number `M * 2^E` with a significand of 24 bits and an exponent of the
`float` range is closer to it. -/
def is_response_to (mean : Fp) (data : Bytes4) : Prop :=
  ∀ M E : Int, |M| < 2 ^ 24 → -149 ≤ E →
    |float_value (of_memory Endian.big data) - mean.toRat| ≤ |(M : ℚ) * 2 ^ E - mean.toRat|

/-- The session state machine of section 4.3 of the specification, for all the sessions of a
server that share one aggregate. `AwaitRequest` is `Pending.read`, `Sending` is
`Pending.write`, `Closed` is `Pending.closed`. The listener puts a new session in
`AwaitRequest`. A session in `AwaitRequest` that has read four bytes decodes them as a big-endian
signed integer (`Validating`); outside `[0, 1023]` it returns to `AwaitRequest` and the aggregate
is not touched; otherwise it calls `observe` on the aggregate (`Updating`), encodes the mean it
obtains and writes it (`Sending`); when the write has succeeded it returns to `AwaitRequest`. A
failed read or write closes the session. -/
def Protocol.step (s : Server) : Event → Server × List (Nat × Effect)
  | Event.accept error =>
    if error then (s, [])
    else (⟨s.numbers_, s.sessions ++ [Pending.read]⟩, [(s.sessions.length, Effect.read_number)])
  | Event.read_done sid ec buf =>
    match s.sessions[sid]? with
    | some Pending.read =>
      if ec then (⟨s.numbers_, s.sessions.set sid Pending.closed⟩, [(sid, Effect.handle_error)])
      else if 0 ≤ be_int32 buf ∧ be_int32 buf ≤ 1023 then
        (⟨(add_number s.numbers_ (be_int32 buf)).1,
            s.sessions.set sid
              (Pending.write (spec_response (add_number s.numbers_ (be_int32 buf)).2))⟩,
          [(sid, Effect.add_number (be_int32 buf) (add_number s.numbers_ (be_int32 buf)).2),
            (sid, Effect.async_write (spec_response (add_number s.numbers_ (be_int32 buf)).2))])
      else (s, [(sid, Effect.read_number)])
    | _ => (s, [])
  | Event.write_done sid ec =>
    match s.sessions[sid]? with
    | some (Pending.write _) =>
      if ec then (⟨s.numbers_, s.sessions.set sid Pending.closed⟩, [(sid, Effect.handle_error)])
      else (⟨s.numbers_, s.sessions.set sid Pending.read⟩, [(sid, Effect.read_number)])
    | _ => (s, [])

/-- The state machine of the specification after a sequence of completions, with all the effects
in order. -/
def Protocol.run (s : Server) : List Event → Server × List (Nat × Effect)
  | [] => (s, [])
  | ev :: evs =>
    ((Protocol.run (Protocol.step s ev).1 evs).1,
      (Protocol.step s ev).2 ++ (Protocol.run (Protocol.step s ev).1 evs).2)

/-- The completions that make the state machine of the specification move or that it answers,
in order. -/
def Protocol.handled (s : Server) : List Event → List Event
  | [] => []
  | ev :: evs =>
    if s.handles ev then ev :: Protocol.handled (Protocol.step s ev).1 evs
    else Protocol.handled (Protocol.step s ev).1 evs

/-- Where a session is in its cycle: not yet accepted, waiting for a request, having called
`add_number` and obtained `mean` but not yet written, waiting for the completion of its write,
or closed. -/
inductive Phase where
  | absent
  | await_request
  | computed (mean : Fp)
  | sending
  | closed

/-- The phase of a session waiting for the operation `p`; `none` is a session that does not
exist yet. -/
def phase_of : Option Pending → Phase
  | none => Phase.absent
  | some Pending.read => Phase.await_request
  | some (Pending.write _) => Phase.sending
  | some Pending.closed => Phase.closed

/-- The effects of one session are strictly ordered from the phase `p` on: a read is started
only by a new session, after an out-of-range request, or after the completion of a write; a call
`add_number v` has `v` in `[0, 1023]` and is immediately followed by one write, of a response to
the mean the call returned; nothing follows a write but the next read or the closing of the
session, and nothing follows the closing. -/
def ordered : Phase → List Effect → Prop
  | Phase.computed _, [] => False
  | _, [] => True
  | p, e :: t =>
    match p, e with
    | Phase.absent, Effect.read_number => ordered Phase.await_request t
    | Phase.await_request, Effect.read_number => ordered Phase.await_request t
    | Phase.await_request, Effect.add_number v mean =>
      (0 ≤ v ∧ v ≤ 1023) ∧ ordered (Phase.computed mean) t
    | Phase.await_request, Effect.handle_error => ordered Phase.closed t
    | Phase.computed mean, Effect.async_write data =>
      (is_response_to mean data ∧ data = spec_response mean) ∧ ordered Phase.sending t
    | Phase.sending, Effect.read_number => ordered Phase.await_request t
    | Phase.sending, Effect.handle_error => ordered Phase.closed t
    | _, _ => False

/-- The effects of the session `sid` among the effects of the server, in order. -/
def session_effects (sid : Nat) (effects : List (Nat × Effect)) : List Effect :=
  effects.filterMap (fun x => if x.1 = sid then some x.2 else none)

/-- Every call of `add_number` among the effects of the server, of whatever session, returned
the value of `add_number` on the shared set as the calls before it left it, `numbers_` being the
set before the first. -/
def means_ok : List Int → List (Nat × Effect) → Prop
  | _, [] => True
  | numbers_, (_, Effect.add_number v mean) :: t =>
    mean = (add_number numbers_ v).2 ∧ means_ok (add_number numbers_ v).1 t
  | numbers_, _ :: t => means_ok numbers_ t

/-- The requests read without I/O error by the session `sid` among the completions. -/
def requests_of (sid : Nat) : List Event → List Bytes4
  | [] => []
  | Event.read_done sid' false buf :: evs =>
    if sid' = sid then buf :: requests_of sid evs else requests_of sid evs
  | _ :: evs => requests_of sid evs

/-- The responses written to the session `sid` among the effects of the server, in order. -/
def responses_of (sid : Nat) (effects : List (Nat × Effect)) : List Bytes4 :=
  (written effects).filterMap (fun x => if x.1 = sid then some x.2 else none)

/-- The calls of `add_number` made by the session `sid` among the effects of the server, in
order: the argument and the value returned. -/
def calls_of (sid : Nat) : List (Nat × Effect) → List (Int × Fp)
  | [] => []
  | (sid', Effect.add_number v mean) :: t =>
    if sid' = sid then (v, mean) :: calls_of sid t else calls_of sid t
  | _ :: t => calls_of sid t

/-- The in-range values among the requests, in order. -/
def in_range_values : List Bytes4 → List Int
  | [] => []
  | buf :: reqs =>
    if 0 ≤ be_int32 buf ∧ be_int32 buf ≤ 1023 then be_int32 buf :: in_range_values reqs
    else in_range_values reqs

/-- The responses of a session as the specification words them for one connection, the set
being touched by the requests of that connection only: the `k`-th is the response to the result
of `add_number` applied to the `k`-th value on the set left by the previous values of the same
sequence. -/
def expected_responses : List Int → List Int → List Bytes4
  | _, [] => []
  | numbers_, v :: vs =>
    spec_response (add_number numbers_ v).2 :: expected_responses (add_number numbers_ v).1 vs

/-- The completions of a session, numbered `sid`, that reads the requests `reqs` one after
another without I/O error, each write it starts completing before the next request arrives. -/
def session_events (sid : Nat) : List Bytes4 → List Event
  | [] => []
  | buf :: reqs =>
    if 0 ≤ be_int32 buf ∧ be_int32 buf ≤ 1023 then
      Event.read_done sid false buf :: Event.write_done sid false :: session_events sid reqs
    else Event.read_done sid false buf :: session_events sid reqs

/-- Two sessions on one server: session 0 sends `1`, session 1 sends `2`, then session 0 sends
`1` again; every read and every write succeeds. -/
def two_sessions : List Event :=
  [Event.accept false, Event.accept false,
    Event.read_done 0 false (to_memory Endian.big 1), Event.write_done 0 false,
    Event.read_done 1 false (to_memory Endian.big 2), Event.write_done 1 false,
    Event.read_done 0 false (to_memory Endian.big 1), Event.write_done 0 false]

/-! ## Snapshots: `Server::create_dump` and `Server::dump_thread_func` -/

/-- The entries of a dump, each four bytes decoded as a big-endian signed 32-bit integer. -/
def decode_entries : List (Fin 256) → List Int
  | b0 :: b1 :: b2 :: b3 :: rest => be_int32 ⟨b0, b1, b2, b3⟩ :: decode_entries rest
  | _ => []

/-- Lines 188-189 of `create_dump`: `int32_t count = static_cast<int32_t>(numbers_copy.size())`,
whose four bytes are written to the file as they are in memory. -/
def dump_count (h : Endian) (size : Nat) : Bytes4 :=
  let count := toInt32 (size : Int)
  to_memory h (toUInt32 count)

/-- Lines 192-193 of `create_dump`: `int32_t network_num = htonl(num)`, whose four bytes are
written to the file. -/
def dump_entry (h : Endian) (num : Int) : Bytes4 :=
  let network_num := toInt32 (htonl h (toUInt32 num))
  to_memory h (toUInt32 network_num)

/-- The bytes `Server::create_dump` writes to the dump file when it opens (`file_ok`), none
otherwise. `numbers_copy` is the set in iteration order; `count` is written from its object
representation, each member after `htonl`. -/
def create_dump (h : Endian) (numbers_ : List Int) (file_ok : Bool) : Option (List (Fin 256)) :=
  let numbers_copy := numbers_
  if file_ok then
    some ((dump_count h numbers_copy.length).toList ++
      (numbers_copy.map (fun num => (dump_entry h num).toList)).flatten)
  else none

/-- Where `dump_thread_func` is about to read `stop_flag_`: the condition of the `while`, the
condition of the `for` with the value of `i` (read only if `i < dump_interval_seconds_`), the
`if` before `create_dump`; or the function has returned. -/
inductive Loc where
  | while_cond
  | for_cond (i : Int)
  | if_stop
  | returned
deriving DecidableEq, Repr

/-- What the dump thread does: a read of `stop_flag_` with the value read, a one-second sleep, a
call of `create_dump`. -/
inductive Obs where
  | read_flag (b : Bool)
  | sleep
  | create_dump
deriving DecidableEq, Repr

/-- Evaluation of `i < dump_interval_seconds_ && ...`: the flag is read only if `i` is below the
interval, otherwise the `for` is left for the `if`. -/
def enter_for (dump_interval_seconds_ : Int) (i : Int) : Loc :=
  if i < dump_interval_seconds_ then Loc.for_cond i else Loc.if_stop

/-- Execution of `dump_thread_func` up to and including its next read of `stop_flag_`, which
returns `flag`, and what follows until the read after it. -/
def dump_step (dump_interval_seconds_ : Int) (flag : Bool) : Loc → Loc × List Obs
  | Loc.while_cond =>
    if !flag then (enter_for dump_interval_seconds_ 0, [Obs.read_flag flag])
    else (Loc.returned, [Obs.read_flag flag])
  | Loc.for_cond i =>
    if !flag then (enter_for dump_interval_seconds_ (i + 1), [Obs.read_flag flag, Obs.sleep])
    else (Loc.if_stop, [Obs.read_flag flag])
  | Loc.if_stop =>
    if flag then (Loc.returned, [Obs.read_flag flag])
    else (Loc.while_cond, [Obs.read_flag flag, Obs.create_dump])
  | Loc.returned => (Loc.returned, [])

/-- Run of the dump thread from location `loc`, where the `t`-th read of `stop_flag_` returns
`stop_flag_ t`: the trace if the function returns within `fuel` reads. -/
def dump_run (dump_interval_seconds_ : Int) (stop_flag_ : Nat → Bool) :
    Nat → Nat → Loc → Option (List Obs)
  | _, _, Loc.returned => some []
  | 0, _, _ => none
  | fuel + 1, t, loc =>
    let r := dump_step dump_interval_seconds_ (stop_flag_ t) loc
    (dump_run dump_interval_seconds_ stop_flag_ fuel (t + 1) r.1).map (fun tr => r.2 ++ tr)

/-- The function `Server::dump_thread_func`, started at the `while`. -/
def dump_thread_func (dump_interval_seconds_ : Int) (stop_flag_ : Nat → Bool) (fuel : Nat) :
    Option (List Obs) :=
  dump_run dump_interval_seconds_ stop_flag_ fuel 0 Loc.while_cond

/-! ## Threads and the mutex -/

/-- Where a thread is in `Server::add_number`, with its local variable: before the
`lock_guard`, before `numbers_.insert`, in the loop before the test of the iterator at position
`i`, before the `return`, or returned with its result. -/
inductive AddPc where
  | at_lock
  | at_insert
  | at_loop (i : Nat) (sum_of_squares : Fp)
  | at_return (sum_of_squares : Fp)
  | returned (result : Fp)
deriving DecidableEq, Repr

/-- Where a thread is in the block of `Server::create_dump` that copies the set, with its local
variable: before the `lock_guard`, in `assign` before the copy of the member at position `i`, at
the end of the block, or after it. -/
inductive CopyPc where
  | at_lock
  | at_copy (i : Nat) (numbers_copy : List Int)
  | at_unlock (numbers_copy : List Int)
  | copied (numbers_copy : List Int)
deriving DecidableEq, Repr

/-- A thread: a call of `add_number(number)` or the copy of `create_dump`. -/
inductive Thread where
  | add_number (number : Int) (pc : AddPc)
  | create_dump (pc : CopyPc)
deriving DecidableEq, Repr

/-- The shared state: the set, the owner of `mutex_` if it is locked, and the threads. -/
structure Shared where
  numbers_ : List Int
  mutex_ : Option Nat
  threads : Nat → Thread

/-- One step of thread `t`. A thread at a `lock_guard` takes the mutex if it is free and does
not move otherwise; the other statements are executed as written, with no check of the mutex:
the loop and `assign` read the shared set member by member, the `return` reads its size and
releases the mutex. -/
def Shared.step (s : Shared) (t : Nat) : Shared :=
  match s.threads t with
  | Thread.add_number number AddPc.at_lock =>
    if s.mutex_ = none then
      ⟨s.numbers_, some t, Function.update s.threads t (Thread.add_number number AddPc.at_insert)⟩
    else s
  | Thread.add_number number AddPc.at_insert =>
    ⟨set_insert number s.numbers_, s.mutex_, Function.update s.threads t
      (Thread.add_number number (AddPc.at_loop 0 (roundDouble ⟨0, 1⟩)))⟩
  | Thread.add_number number (AddPc.at_loop i sum_of_squares) =>
    match s.numbers_[i]? with
    | some num =>
      ⟨s.numbers_, s.mutex_, Function.update s.threads t
        (Thread.add_number number (AddPc.at_loop (i + 1) (accumulate sum_of_squares num)))⟩
    | none =>
      ⟨s.numbers_, s.mutex_, Function.update s.threads t
        (Thread.add_number number (AddPc.at_return sum_of_squares))⟩
  | Thread.add_number number (AddPc.at_return sum_of_squares) =>
    ⟨s.numbers_, none, Function.update s.threads t
      (Thread.add_number number (AddPc.returned (mean_from sum_of_squares s.numbers_)))⟩
  | Thread.add_number _ (AddPc.returned _) => s
  | Thread.create_dump CopyPc.at_lock =>
    if s.mutex_ = none then
      ⟨s.numbers_, some t, Function.update s.threads t
        (Thread.create_dump (CopyPc.at_copy 0 []))⟩
    else s
  | Thread.create_dump (CopyPc.at_copy i numbers_copy) =>
    match s.numbers_[i]? with
    | some num =>
      ⟨s.numbers_, s.mutex_, Function.update s.threads t
        (Thread.create_dump (CopyPc.at_copy (i + 1) (numbers_copy ++ [num])))⟩
    | none =>
      ⟨s.numbers_, s.mutex_, Function.update s.threads t
        (Thread.create_dump (CopyPc.at_unlock numbers_copy))⟩
  | Thread.create_dump (CopyPc.at_unlock numbers_copy) =>
    ⟨s.numbers_, none, Function.update s.threads t
      (Thread.create_dump (CopyPc.copied numbers_copy))⟩
  | Thread.create_dump (CopyPc.copied _) => s

/-- The threads at their start: thread `t` calls `add_number(v)` if `jobs t = some v` and copies
the set for a dump otherwise. The mutex is free. -/
def Shared.init (numbers_ : List Int) (jobs : Nat → Option Int) : Shared :=
  ⟨numbers_, none, fun t =>
    match jobs t with
    | some v => Thread.add_number v AddPc.at_lock
    | none => Thread.create_dump CopyPc.at_lock⟩

/-- An interleaving: the threads step in the order of the schedule. -/
def Shared.run (s : Shared) (schedule : List Nat) : Shared :=
  schedule.foldl Shared.step s

/-- A thread between its `lock_guard` and the release of the mutex. -/
def Thread.critical : Thread → Bool
  | Thread.add_number _ AddPc.at_insert => true
  | Thread.add_number _ (AddPc.at_loop _ _) => true
  | Thread.add_number _ (AddPc.at_return _) => true
  | Thread.create_dump (CopyPc.at_copy _ _) => true
  | Thread.create_dump (CopyPc.at_unlock _) => true
  | _ => false

/-- A thread that has returned from `add_number`, or has left the block of the copy. -/
def Thread.finished : Thread → Bool
  | Thread.add_number _ (AddPc.returned _) => true
  | Thread.create_dump (CopyPc.copied _) => true
  | _ => false

/-- What a thread was started for: `some v` for `add_number(v)`, `none` for a copy. -/
def Thread.job : Thread → Option Int
  | Thread.add_number number _ => some number
  | Thread.create_dump _ => none

/-- The outcome of an operation in the atomic reading of the specification: not yet done, or
done with the value returned by `observe`, or done with the copy taken by `snapshot`. -/
inductive Outcome where
  | pending
  | returned (result : Fp)
  | copied (numbers_copy : List Int)
deriving DecidableEq, Repr

/-- The state of the atomic reading of the specification: the set, and the outcome of every
operation. -/
structure Atomic where
  numbers_ : List Int
  outcome : Nat → Outcome

/-- The specification of the aggregate: operation `t` takes effect in one indivisible step. An
`observe(v)` inserts `v` and returns the mean of squares of the set after the insertion, which is
the function `add_number` run alone; a `snapshot` returns the set as it is. An operation that
has taken effect does nothing more. -/
def Atomic.step (jobs : Nat → Option Int) (a : Atomic) (t : Nat) : Atomic :=
  match a.outcome t, jobs t with
  | Outcome.pending, some v =>
    ⟨(add_number a.numbers_ v).1,
      Function.update a.outcome t (Outcome.returned (add_number a.numbers_ v).2)⟩
  | Outcome.pending, none =>
    ⟨a.numbers_, Function.update a.outcome t (Outcome.copied a.numbers_)⟩
  | _, _ => a

/-- The atomic state at the start: no operation has taken effect. -/
def Atomic.init (numbers_ : List Int) : Atomic := ⟨numbers_, fun _ => Outcome.pending⟩

/-- The operations `ops` taking effect one after another, each in one step. -/
def Atomic.run (jobs : Nat → Option Int) (a : Atomic) (ops : List Nat) : Atomic :=
  ops.foldl (Atomic.step jobs) a

/-- The outcome a thread has reached when the shared set is `numbers_`: none before its
insertion (before it owns the mutex, for a copy); from then on, until it has returned, the value
the sequential function computes on the shared set as it is now, or that set for a copy; once
returned, the value it did return, or the copy it did take. -/
def Thread.outcome (numbers_ : List Int) : Thread → Outcome
  | Thread.add_number _ AddPc.at_lock => Outcome.pending
  | Thread.add_number _ AddPc.at_insert => Outcome.pending
  | Thread.add_number _ (AddPc.at_loop _ _) => Outcome.returned (mean_of_squares numbers_)
  | Thread.add_number _ (AddPc.at_return _) => Outcome.returned (mean_of_squares numbers_)
  | Thread.add_number _ (AddPc.returned result) => Outcome.returned result
  | Thread.create_dump CopyPc.at_lock => Outcome.pending
  | Thread.create_dump (CopyPc.at_copy _ _) => Outcome.copied numbers_
  | Thread.create_dump (CopyPc.at_unlock _) => Outcome.copied numbers_
  | Thread.create_dump (CopyPc.copied numbers_copy) => Outcome.copied numbers_copy

/-- The atomic state a state of the threads stands for. -/
def Shared.abs (s : Shared) : Atomic :=
  ⟨s.numbers_, fun t => (s.threads t).outcome s.numbers_⟩

/-- What holds of the local variable of a thread inside its critical section when the shared set
is `numbers_`: the sum and the copy are those of the members visited so far. -/
def Thread.ok (numbers_ : List Int) : Thread → Prop
  | Thread.add_number _ (AddPc.at_loop i sum_of_squares) =>
    sum_of_squares = (numbers_.take i).foldl accumulate (roundDouble ⟨0, 1⟩)
  | Thread.add_number _ (AddPc.at_return sum_of_squares) =>
    sum_of_squares = MeanServer.sum_of_squares numbers_
  | Thread.create_dump (CopyPc.at_copy i numbers_copy) => numbers_copy = numbers_.take i
  | Thread.create_dump (CopyPc.at_unlock numbers_copy) => numbers_copy = numbers_
  | _ => True

/-- The invariant of the interleavings: the threads in a critical section are exactly the owner
of the mutex, the local variables are `ok`, and a thread keeps the job it was started for. -/
def Shared.Inv (jobs : Nat → Option Int) (s : Shared) : Prop :=
  (∀ t, (s.threads t).critical = true ↔ s.mutex_ = some t) ∧
  (∀ t, (s.threads t).ok s.numbers_) ∧
  (∀ t, (s.threads t).job = jobs t)

/-- An upper bound of the number of steps a thread in its critical section still takes before
it has released the mutex. -/
def Thread.remaining (numbers_ : List Int) : Thread → Nat
  | Thread.add_number _ AddPc.at_insert => numbers_.length + 5
  | Thread.add_number _ (AddPc.at_loop i _) => (numbers_.length - i) + 2
  | Thread.add_number _ (AddPc.at_return _) => 1
  | Thread.create_dump (CopyPc.at_copy i _) => (numbers_.length - i) + 2
  | Thread.create_dump (CopyPc.at_unlock _) => 1
  | _ => 0

/-! ## Lemmas on binary floating point -/

theorem log2Fuel_spec (fuel : Nat) : ∀ n : Nat, 0 < n → n ≤ fuel →
    2 ^ log2Fuel fuel n ≤ n ∧ n < 2 ^ (log2Fuel fuel n + 1) := by
  induction fuel with
  | zero => intro n h1 h2; omega
  | succ fuel ih =>
    intro n h1 h2
    unfold log2Fuel
    split_ifs with h
    · constructor <;> simp <;> omega
    · have h3 := ih (n / 2) (by omega) (by omega)
      obtain ⟨h4, h5⟩ := h3
      rw [pow_succ] at h5 ⊢
      constructor
      · omega
      · rw [pow_succ]; omega

theorem log2_spec (n : Nat) (h : 0 < n) : 2 ^ log2 n ≤ n ∧ n < 2 ^ (log2 n + 1) :=
  log2Fuel_spec n n h le_rfl

theorem two_zpow_of_nonneg (e : Int) (h : 0 ≤ e) : (2 : ℚ) ^ e = ((2 ^ e.toNat : Nat) : ℚ) := by
  have h1 : e = (e.toNat : Int) := (Int.toNat_of_nonneg h).symm
  conv_lhs => rw [h1]
  rw [zpow_natCast]; push_cast; rfl

theorem two_zpow_of_neg (e : Int) (h : e < 0) :
    (2 : ℚ) ^ e = 1 / ((2 ^ (-e).toNat : Nat) : ℚ) := by
  have h1 : e = -((-e).toNat : Int) := by
    rw [Int.toNat_of_nonneg (by omega)]; ring
  conv_lhs => rw [h1]
  rw [zpow_neg, zpow_natCast]; push_cast; simp

theorem two_zpow_pos (e : Int) : (0 : ℚ) < 2 ^ e := by positivity

theorem scale_den_pos (n d : Nat) (e : Int) (hd : 0 < d) : 0 < (scale n d e).2 := by
  unfold scale
  split_ifs
  · simp; exact hd
  · exact hd

theorem scale_spec (n d : Nat) (e : Int) (hd : 0 < d) :
    ((scale n d e).1 : ℚ) / ((scale n d e).2 : ℚ) = ((n : ℚ) / d) / 2 ^ e := by
  have hd' : (d : ℚ) ≠ 0 := by exact_mod_cast hd.ne'
  unfold scale
  split_ifs with h
  · rw [two_zpow_of_nonneg e h]
    simp only [Nat.cast_mul]
    rw [div_div]
  · rw [two_zpow_of_neg e (by omega)]
    simp only [Nat.cast_mul]
    field_simp

theorem floorLog2_spec (n d : Nat) (hn : 0 < n) (hd : 0 < d) :
    (2 : ℚ) ^ floorLog2 n d ≤ (n : ℚ) / d ∧ (n : ℚ) / d < 2 ^ (floorLog2 n d + 1) := by
  have hd' : (0 : ℚ) < d := by exact_mod_cast hd
  obtain ⟨hn1, hn2⟩ := log2_spec n hn
  obtain ⟨hd1, hd2⟩ := log2_spec d hd
  have hn1' : (2 : ℚ) ^ (log2 n : Int) ≤ n := by
    rw [zpow_natCast]; exact_mod_cast hn1
  have hn2' : (n : ℚ) < 2 ^ ((log2 n : Int) + 1) := by
    have : ((log2 n : Int) + 1) = ((log2 n + 1 : Nat) : Int) := by push_cast; ring
    rw [this, zpow_natCast]; exact_mod_cast hn2
  have hd1' : (2 : ℚ) ^ (log2 d : Int) ≤ d := by
    rw [zpow_natCast]; exact_mod_cast hd1
  have hd2' : (d : ℚ) < 2 ^ ((log2 d : Int) + 1) := by
    have : ((log2 d : Int) + 1) = ((log2 d + 1 : Nat) : Int) := by push_cast; ring
    rw [this, zpow_natCast]; exact_mod_cast hd2
  -- the quotient lies strictly between 2^(k-1) and 2^(k+1)
  have hlow : (2 : ℚ) ^ ((log2 n : Int) - (log2 d : Int) - 1) ≤ (n : ℚ) / d := by
    rw [le_div_iff₀ hd']
    calc (2 : ℚ) ^ ((log2 n : Int) - (log2 d : Int) - 1) * d
        ≤ (2 : ℚ) ^ ((log2 n : Int) - (log2 d : Int) - 1) * 2 ^ ((log2 d : Int) + 1) := by
          apply mul_le_mul_of_nonneg_left hd2'.le (two_zpow_pos _).le
      _ = (2 : ℚ) ^ (log2 n : Int) := by
          rw [← zpow_add₀ (by norm_num : (2 : ℚ) ≠ 0)]; congr 1; ring
      _ ≤ n := hn1'
  have hhigh : (n : ℚ) / d < 2 ^ ((log2 n : Int) - (log2 d : Int) + 1) := by
    rw [div_lt_iff₀ hd']
    calc (n : ℚ) < 2 ^ ((log2 n : Int) + 1) := hn2'
      _ = (2 : ℚ) ^ ((log2 n : Int) - (log2 d : Int) + 1) * 2 ^ (log2 d : Int) := by
          rw [← zpow_add₀ (by norm_num : (2 : ℚ) ≠ 0)]; congr 1; ring
      _ ≤ (2 : ℚ) ^ ((log2 n : Int) - (log2 d : Int) + 1) * d := by
          apply mul_le_mul_of_nonneg_left hd1' (two_zpow_pos _).le
  unfold floorLog2
  simp only
  split_ifs with hk ht ht
  · refine ⟨?_, hhigh⟩
    rw [two_zpow_of_nonneg _ hk, le_div_iff₀ hd']
    have : (2 ^ ((log2 n : Int) - (log2 d : Int)).toNat : Nat) * d ≤ n := by
      rw [Nat.mul_comm]; exact ht
    exact_mod_cast this
  · refine ⟨hlow, ?_⟩
    rw [sub_add_cancel, two_zpow_of_nonneg _ hk, div_lt_iff₀ hd']
    have : n < (2 ^ ((log2 n : Int) - (log2 d : Int)).toNat : Nat) * d := by
      rw [Nat.mul_comm]; omega
    exact_mod_cast this
  · refine ⟨?_, hhigh⟩
    rw [two_zpow_of_neg _ (by omega), le_div_iff₀ hd', div_mul_eq_mul_div, one_mul,
      div_le_iff₀ (by positivity)]
    exact_mod_cast ht
  · refine ⟨hlow, ?_⟩
    rw [sub_add_cancel, two_zpow_of_neg _ (by omega), div_lt_iff₀ hd', div_mul_eq_mul_div, one_mul,
      lt_div_iff₀ (by positivity)]
    have : n * 2 ^ (-((log2 n : Int) - (log2 d : Int))).toNat < d := by omega
    exact_mod_cast this

theorem roundHalfEven_cases (N D : Nat) :
    roundHalfEven N D = N / D ∧ 2 * (N % D) ≤ D ∨ roundHalfEven N D = N / D + 1 ∧ D ≤ 2 * (N % D) := by
  unfold roundHalfEven
  simp only
  split_ifs <;> omega

theorem roundHalfEven_le (N D K : Nat) (hD : 0 < D) (h : N ≤ K * D) : roundHalfEven N D ≤ K := by
  have hq : N / D ≤ K := by
    calc N / D ≤ K * D / D := Nat.div_le_div_right h
      _ = K := Nat.mul_div_cancel K hD
  have hdm := Nat.div_add_mod N D
  rcases roundHalfEven_cases N D with ⟨h1, _⟩ | ⟨h1, h2⟩
  · omega
  · rw [h1]
    by_contra hc
    have hK : K = N / D := by omega
    have : N % D = 0 := by
      have h3 : D * (N / D) + N % D ≤ (N / D) * D := by rw [hdm]; rw [hK] at h; exact h
      have h4 : D * (N / D) = (N / D) * D := Nat.mul_comm _ _
      omega
    omega

theorem roundHalfEven_ge (N D K : Nat) (hD : 0 < D) (h : K * D ≤ N) : K ≤ roundHalfEven N D := by
  have hq : K ≤ N / D := (Nat.le_div_iff_mul_le hD).mpr h
  rcases roundHalfEven_cases N D with ⟨h1, _⟩ | ⟨h1, _⟩ <;> omega

theorem roundHalfEven_le_q (N D K : Nat) (hD : 0 < D) (h : (N : ℚ) / D ≤ K) :
    (roundHalfEven N D : ℚ) ≤ K := by
  have hD' : (0 : ℚ) < D := by exact_mod_cast hD
  rw [div_le_iff₀ hD'] at h
  have h' : N ≤ K * D := by exact_mod_cast h
  exact_mod_cast roundHalfEven_le N D K hD h'

theorem roundHalfEven_ge_q (N D K : Nat) (hD : 0 < D) (h : (K : ℚ) ≤ (N : ℚ) / D) :
    (K : ℚ) ≤ roundHalfEven N D := by
  have hD' : (0 : ℚ) < D := by exact_mod_cast hD
  rw [le_div_iff₀ hD'] at h
  have h' : K * D ≤ N := by exact_mod_cast h
  exact_mod_cast roundHalfEven_ge N D K hD h'

theorem roundHalfEven_err_q (N D : Nat) (hD : 0 < D) :
    |(roundHalfEven N D : ℚ) - (N : ℚ) / D| ≤ 1 / 2 := by
  have hD' : (0 : ℚ) < D := by exact_mod_cast hD
  have hdm : (N : ℚ) = D * (N / D : Nat) + (N % D : Nat) := by
    exact_mod_cast (Nat.div_add_mod N D).symm
  have hlt : N % D < D := Nat.mod_lt N hD
  have hND : (N : ℚ) / D = (N / D : Nat) + ((N % D : Nat) : ℚ) / D := by
    rw [hdm]; field_simp; ring
  have hr0 : (0 : ℚ) ≤ ((N % D : Nat) : ℚ) / D := by positivity
  rw [abs_le]
  rcases roundHalfEven_cases N D with ⟨h1, h2⟩ | ⟨h1, h2⟩
  · have h3 : ((N % D : Nat) : ℚ) / D ≤ 1 / 2 := by
      rw [div_le_iff₀ hD']
      have : ((2 * (N % D) : Nat) : ℚ) ≤ D := by exact_mod_cast h2
      push_cast at this; linarith
    rw [h1, hND]; constructor <;> linarith
  · have h3 : 1 / 2 ≤ ((N % D : Nat) : ℚ) / D := by
      rw [le_div_iff₀ hD']
      have : (D : ℚ) ≤ ((2 * (N % D) : Nat) : ℚ) := by exact_mod_cast h2
      push_cast at this; linarith
    have h4 : ((N % D : Nat) : ℚ) / D ≤ 1 := by
      rw [div_le_iff₀ hD']
      have : ((N % D : Nat) : ℚ) ≤ D := by exact_mod_cast hlt.le
      linarith
    rw [h1, hND]; push_cast; constructor <;> linarith

/-- The value of a rounded positive fraction: the rounded significand times the unit in the last
place. -/
theorem roundTo_toRat_pos (p : Nat) (emin : Int) (x : Frac) (hp : 0 < p) (hn : 0 < x.num)
    (hd : 0 < x.den) :
    (roundTo p emin x).toRat =
      (roundHalfEven (scale x.num.natAbs x.den (ulpExp p emin x.num.natAbs x.den)).1
        (scale x.num.natAbs x.den (ulpExp p emin x.num.natAbs x.den)).2 : ℚ)
        * 2 ^ ulpExp p emin x.num.natAbs x.den := by
  unfold roundTo
  have h1 : ¬ (x.num = 0 ∨ x.den = 0) := by omega
  have h2 : ¬ (x.num < 0) := by omega
  simp only [h1, if_false, h2, decide_False]
  split_ifs with hm
  · rw [hm]
    simp only [Fp.toRat, Bool.false_eq_true, if_false, one_mul]
    rw [zpow_add₀ (by norm_num : (2 : ℚ) ≠ 0)]
    push_cast
    have : (2 : ℚ) ^ p = 2 ^ (p - 1) * 2 := by
      rw [← pow_succ]; congr 1; omega
    rw [this]; simp; ring
  · simp only [Fp.toRat, Bool.false_eq_true, if_false, one_mul]

theorem Frac.toRat_natAbs (x : Frac) (hn : 0 ≤ x.num) :
    ((x.num.natAbs : Nat) : ℚ) / x.den = x.toRat := by
  unfold Frac.toRat
  have : ((x.num.natAbs : Nat) : Int) = x.num := Int.natAbs_of_nonneg hn
  have h2 : ((x.num.natAbs : Nat) : ℚ) = ((x.num : Int) : ℚ) := by
    rw [Nat.cast_natAbs, abs_of_nonneg hn]
  rw [h2]

/-- Characterisation of the rounding of a positive fraction: the result is `m * 2^e` where `e`
is the exponent of the unit in the last place of `x` and `m` is `x / 2^e` rounded to an
integer. -/
theorem roundTo_char (p : Nat) (emin : Int) (x : Frac) (hp : 0 < p) (hn : 0 < x.num)
    (hd : 0 < x.den) :
    ∃ (fl e : Int) (m : Nat), (roundTo p emin x).toRat = (m : ℚ) * 2 ^ e ∧
      e = max (fl - ((p : Int) - 1)) emin ∧
      (2 : ℚ) ^ fl ≤ x.toRat ∧ x.toRat < 2 ^ (fl + 1) ∧
      |(m : ℚ) - x.toRat / 2 ^ e| ≤ 1 / 2 ∧
      (∀ K : Nat, x.toRat / 2 ^ e ≤ K → (m : ℚ) ≤ K) ∧
      (∀ K : Nat, (K : ℚ) ≤ x.toRat / 2 ^ e → (K : ℚ) ≤ m) := by
  have hnat : 0 < x.num.natAbs := by omega
  have hq := Frac.toRat_natAbs x hn.le
  have hs := scale_spec x.num.natAbs x.den (ulpExp p emin x.num.natAbs x.den) hd
  have hsd := scale_den_pos x.num.natAbs x.den (ulpExp p emin x.num.natAbs x.den) hd
  have hfl := floorLog2_spec x.num.natAbs x.den hnat hd
  rw [hq] at hs hfl
  refine ⟨floorLog2 x.num.natAbs x.den, ulpExp p emin x.num.natAbs x.den, _,
    roundTo_toRat_pos p emin x hp hn hd, rfl, hfl.1, hfl.2, ?_, ?_, ?_⟩
  · rw [← hs]; exact roundHalfEven_err_q _ _ hsd
  · intro K hK; rw [← hs] at hK; exact roundHalfEven_le_q _ _ K hsd hK
  · intro K hK; rw [← hs] at hK; exact roundHalfEven_ge_q _ _ K hsd hK

theorem roundTo_zero (p : Nat) (emin : Int) (x : Frac) (h : x.num = 0) :
    (roundTo p emin x).toRat = 0 := by
  unfold roundTo
  simp [h, Fp.toRat]

theorem roundTo_nonneg (p : Nat) (emin : Int) (x : Frac) (h : 0 ≤ x.num) :
    0 ≤ (roundTo p emin x).toRat := by
  unfold roundTo
  have h2 : ¬ (x.num < 0) := by omega
  simp only [h2, decide_False]
  split_ifs <;> simp only [Fp.toRat, Bool.false_eq_true, if_false, one_mul] <;> positivity

/-- Rounding does not exceed a natural number below `2^p` that bounds the exact value. -/
theorem roundTo_le (p : Nat) (emin : Int) (x : Frac) (B : Nat) (hp : 0 < p) (hn : 0 ≤ x.num)
    (hd : 0 < x.den) (hemin : emin ≤ 0) (hB : B < 2 ^ p) (hx : x.toRat ≤ B) :
    (roundTo p emin x).toRat ≤ B := by
  rcases hn.eq_or_lt with h0 | hpos
  · rw [roundTo_zero p emin x h0.symm]; positivity
  obtain ⟨fl, e, m, hval, he, hfl1, _, _, hle, _⟩ := roundTo_char p emin x hp hpos hd
  have hfl : fl < p := by
    have h1 : (2 : ℚ) ^ fl < 2 ^ (p : Int) := by
      calc (2 : ℚ) ^ fl ≤ x.toRat := hfl1
        _ ≤ B := hx
        _ < 2 ^ (p : Int) := by rw [zpow_natCast]; exact_mod_cast hB
    exact (zpow_lt_zpow_iff_right₀ (by norm_num : (1 : ℚ) < 2)).mp h1
  have he0 : e ≤ 0 := by rw [he]; exact max_le (by omega) hemin
  have hpow : ((2 ^ (-e).toNat : Nat) : ℚ) = 2 ^ (-e) := (two_zpow_of_nonneg (-e) (by omega)).symm
  have hK : x.toRat / 2 ^ e ≤ ((B * 2 ^ (-e).toNat : Nat) : ℚ) := by
    rw [Nat.cast_mul, hpow, zpow_neg, div_eq_mul_inv]
    exact mul_le_mul_of_nonneg_right hx (by positivity)
  have hm := hle _ hK
  rw [hval]
  calc (m : ℚ) * 2 ^ e ≤ ((B * 2 ^ (-e).toNat : Nat) : ℚ) * 2 ^ e :=
        mul_le_mul_of_nonneg_right hm (by positivity)
    _ = B := by
        rw [Nat.cast_mul, hpow, mul_assoc, ← zpow_add₀ (by norm_num : (2 : ℚ) ≠ 0)]
        simp

/-- Rounding is exact on a value `M * 2^E` with `M < 2^p` and `emin ≤ E`. -/
theorem roundTo_exact (p : Nat) (emin : Int) (x : Frac) (M : Nat) (E : Int) (hp : 0 < p)
    (hd : 0 < x.den) (hM : M < 2 ^ p) (hE : emin ≤ E) (hx : x.toRat = (M : ℚ) * 2 ^ E) :
    (roundTo p emin x).toRat = x.toRat := by
  have hd' : (0 : ℚ) < x.den := by exact_mod_cast hd
  have hnum : 0 ≤ x.num := by
    have h1 : (0 : ℚ) ≤ x.toRat := by rw [hx]; positivity
    unfold Frac.toRat at h1
    rw [le_div_iff₀ hd', zero_mul] at h1
    exact_mod_cast h1
  rcases hnum.eq_or_lt with h0 | hpos
  · rw [roundTo_zero p emin x h0.symm]; unfold Frac.toRat; rw [← h0]; simp
  obtain ⟨fl, e, m, hval, he, hfl1, _, _, hle, hge⟩ := roundTo_char p emin x hp hpos hd
  have hfl : fl < p + E := by
    have h1 : (2 : ℚ) ^ fl < 2 ^ ((p : Int) + E) := by
      calc (2 : ℚ) ^ fl ≤ x.toRat := hfl1
        _ = (M : ℚ) * 2 ^ E := hx
        _ < 2 ^ (p : Int) * 2 ^ E := by
            apply mul_lt_mul_of_pos_right _ (two_zpow_pos E)
            rw [zpow_natCast]; exact_mod_cast hM
        _ = 2 ^ ((p : Int) + E) := by rw [zpow_add₀ (by norm_num : (2 : ℚ) ≠ 0)]
    exact (zpow_lt_zpow_iff_right₀ (by norm_num : (1 : ℚ) < 2)).mp h1
  have heE : e ≤ E := by rw [he]; exact max_le (by omega) hE
  have hpow : ((2 ^ (E - e).toNat : Nat) : ℚ) = 2 ^ (E - e) :=
    (two_zpow_of_nonneg (E - e) (by omega)).symm
  have hK : x.toRat / 2 ^ e = ((M * 2 ^ (E - e).toNat : Nat) : ℚ) := by
    rw [Nat.cast_mul, hpow, hx, zpow_sub₀ (by norm_num : (2 : ℚ) ≠ 0)]
    field_simp
  have hm : (m : ℚ) = ((M * 2 ^ (E - e).toNat : Nat) : ℚ) :=
    le_antisymm (hle _ hK.le) (hge _ hK.ge)
  rw [hval, hm, ← hK]
  field_simp

/-- Rounding error of a positive fraction in the normal range: at most half a unit in the last
place, that is a relative error of `2^(-p)`. -/
theorem roundTo_error (p : Nat) (emin : Int) (x : Frac) (hp : 0 < p) (hn : 0 < x.num)
    (hd : 0 < x.den) (hnormal : (2 : ℚ) ^ (emin + (p : Int) - 1) ≤ x.toRat) :
    |(roundTo p emin x).toRat - x.toRat| ≤ x.toRat / 2 ^ p := by
  obtain ⟨fl, e, m, hval, he, hfl1, hfl2, herr, _, _⟩ := roundTo_char p emin x hp hn hd
  have hfl : emin + (p : Int) - 1 < fl + 1 :=
    (zpow_lt_zpow_iff_right₀ (by norm_num : (1 : ℚ) < 2)).mp (lt_of_le_of_lt hnormal hfl2)
  have he' : e = fl - ((p : Int) - 1) := by rw [he]; exact max_eq_left (by omega)
  have h2e : (0 : ℚ) < 2 ^ e := two_zpow_pos e
  have h1 : (roundTo p emin x).toRat - x.toRat = ((m : ℚ) - x.toRat / 2 ^ e) * 2 ^ e := by
    rw [hval]; field_simp
  rw [h1, abs_mul, abs_of_pos h2e]
  calc |(m : ℚ) - x.toRat / 2 ^ e| * 2 ^ e ≤ 1 / 2 * 2 ^ e :=
        mul_le_mul_of_nonneg_right herr h2e.le
    _ = 2 ^ fl / 2 ^ p := by
        rw [he', show fl - ((p : Int) - 1) = fl + 1 - p by ring,
          zpow_sub₀ (by norm_num : (2 : ℚ) ≠ 0), zpow_add₀ (by norm_num : (2 : ℚ) ≠ 0),
          zpow_natCast]
        field_simp
    _ ≤ x.toRat / 2 ^ p := by
        apply div_le_div_of_nonneg_right hfl1 (by positivity)

/-- The result of a rounding is a floating-point number of the format: its significand is
below `2^p` and its exponent is at least `emin`. -/
theorem roundTo_repr (p : Nat) (emin : Int) (x : Frac) (hp : 0 < p) :
    (roundTo p emin x).m < 2 ^ p ∧ emin ≤ (roundTo p emin x).e := by
  unfold roundTo
  by_cases h0 : x.num = 0 ∨ x.den = 0
  · rw [if_pos h0]
    exact ⟨by positivity, le_rfl⟩
  · rw [if_neg h0]
    have hn : 0 < x.num.natAbs := by omega
    have hd : 0 < x.den := by omega
    have he : emin ≤ ulpExp p emin x.num.natAbs x.den := le_max_right _ _
    have hfl := floorLog2_spec x.num.natAbs x.den hn hd
    have hs := scale_spec x.num.natAbs x.den (ulpExp p emin x.num.natAbs x.den) hd
    have hsd := scale_den_pos x.num.natAbs x.den (ulpExp p emin x.num.natAbs x.den) hd
    have he2 : floorLog2 x.num.natAbs x.den - ((p : Int) - 1)
        ≤ ulpExp p emin x.num.natAbs x.den := le_max_left _ _
    have hm : roundHalfEven (scale x.num.natAbs x.den (ulpExp p emin x.num.natAbs x.den)).1
        (scale x.num.natAbs x.den (ulpExp p emin x.num.natAbs x.den)).2 ≤ 2 ^ p := by
      have hq : ((scale x.num.natAbs x.den (ulpExp p emin x.num.natAbs x.den)).1 : ℚ)
          / ((scale x.num.natAbs x.den (ulpExp p emin x.num.natAbs x.den)).2 : ℚ)
          ≤ ((2 ^ p : Nat) : ℚ) := by
        rw [hs, div_le_iff₀ (two_zpow_pos _)]
        push_cast
        rw [← zpow_natCast, ← zpow_add₀ (by norm_num : (2 : ℚ) ≠ 0)]
        refine le_trans hfl.2.le ?_
        apply zpow_le_zpow_right₀ (by norm_num)
        omega
      exact_mod_cast roundHalfEven_le_q _ _ (2 ^ p) hsd hq
    simp only
    split_ifs with hmp
    · exact ⟨Nat.pow_lt_pow_right (by norm_num) (by omega), by simp only; omega⟩
    · exact ⟨lt_of_le_of_ne hm hmp, he⟩

/-- Rounding is to nearest: no floating-point number `M * 2^E` of the format (`M < 2^p`,
`emin ≤ E`) is closer to a positive fraction than its rounding. -/
theorem roundTo_nearest_pos (p : Nat) (emin : Int) (x : Frac) (hp : 0 < p) (hn : 0 < x.num)
    (hd : 0 < x.den) (M : Nat) (E : Int) (hM : M < 2 ^ p) (hE : emin ≤ E) :
    |(roundTo p emin x).toRat - x.toRat| ≤ |(M : ℚ) * 2 ^ E - x.toRat| := by
  obtain ⟨fl, e, m, hval, he, hfl1, hfl2, herr, _, _⟩ := roundTo_char p emin x hp hn hd
  have h2e : (0 : ℚ) < 2 ^ e := two_zpow_pos e
  have h1 : (roundTo p emin x).toRat - x.toRat = ((m : ℚ) - x.toRat / 2 ^ e) * 2 ^ e := by
    rw [hval]; field_simp
  rw [h1, abs_mul, abs_of_pos h2e]
  by_cases heE : e ≤ E
  · -- the candidate is an integer multiple of the unit in the last place
    have hpow : ((2 ^ (E - e).toNat : Nat) : ℚ) = 2 ^ (E - e) :=
      (two_zpow_of_nonneg (E - e) (by omega)).symm
    have hK : (M : ℚ) * 2 ^ E - x.toRat
        = (((M * 2 ^ (E - e).toNat : Nat) : ℚ) - x.toRat / 2 ^ e) * 2 ^ e := by
      rw [Nat.cast_mul, hpow, zpow_sub₀ (by norm_num : (2 : ℚ) ≠ 0)]
      field_simp
    rw [hK, abs_mul, abs_of_pos h2e]
    apply mul_le_mul_of_nonneg_right _ h2e.le
    by_cases hmK : m = M * 2 ^ (E - e).toNat
    · rw [hmK]
    · have hdist : (1 : ℚ) ≤ |((M * 2 ^ (E - e).toNat : Nat) : ℚ) - (m : ℚ)| := by
        rcases Nat.lt_or_gt_of_ne hmK with hlt | hgt
        · have : (m : ℚ) + 1 ≤ ((M * 2 ^ (E - e).toNat : Nat) : ℚ) := by exact_mod_cast hlt
          rw [abs_of_nonneg (by linarith)]; linarith
        · have : ((M * 2 ^ (E - e).toNat : Nat) : ℚ) + 1 ≤ (m : ℚ) := by exact_mod_cast hgt
          rw [abs_of_nonpos (by linarith)]; linarith
      have htri : |((M * 2 ^ (E - e).toNat : Nat) : ℚ) - (m : ℚ)|
          ≤ |((M * 2 ^ (E - e).toNat : Nat) : ℚ) - x.toRat / 2 ^ e|
            + |(m : ℚ) - x.toRat / 2 ^ e| := by
        have := abs_sub_le ((M * 2 ^ (E - e).toNat : Nat) : ℚ) (x.toRat / 2 ^ e) (m : ℚ)
        rwa [abs_sub_comm (x.toRat / 2 ^ e) (m : ℚ)] at this
      linarith
  · -- the candidate has a finer unit, so it lies below the binade of `x`
    have he' : e = fl - ((p : Int) - 1) := by
      rw [he]
      apply max_eq_left
      by_contra hc
      have : e = emin := by rw [he]; exact max_eq_right (by omega)
      omega
    have hMle : (M : ℚ) ≤ 2 ^ p - 1 := by
      have : M + 1 ≤ 2 ^ p := hM
      have h3 : ((M + 1 : Nat) : ℚ) ≤ ((2 ^ p : Nat) : ℚ) := by exact_mod_cast this
      push_cast at h3; linarith
    have hEe : (2 : ℚ) ^ E ≤ 2 ^ (e - 1) := zpow_le_zpow_right₀ (by norm_num) (by omega)
    have hhalf : (2 : ℚ) ^ (e - 1) * 2 = 2 ^ e := by
      rw [zpow_sub₀ (by norm_num : (2 : ℚ) ≠ 0)]; field_simp
    have hfl' : (2 : ℚ) ^ fl = 2 ^ p * 2 ^ (e - 1) := by
      rw [← zpow_natCast, ← zpow_add₀ (by norm_num : (2 : ℚ) ≠ 0)]
      congr 1; omega
    have hp1 : (1 : ℚ) ≤ 2 ^ p := one_le_pow₀ (by norm_num)
    have hd1 : (M : ℚ) * 2 ^ E ≤ 2 ^ fl - 2 ^ (e - 1) := by
      calc (M : ℚ) * 2 ^ E ≤ (2 ^ p - 1) * 2 ^ (e - 1) :=
            mul_le_mul hMle hEe (two_zpow_pos E).le (by linarith)
        _ = 2 ^ fl - 2 ^ (e - 1) := by rw [hfl']; ring
    have hgap : (2 : ℚ) ^ (e - 1) ≤ x.toRat - (M : ℚ) * 2 ^ E := by linarith
    have hpos : (0 : ℚ) < 2 ^ (e - 1) := two_zpow_pos _
    have habs : |(M : ℚ) * 2 ^ E - x.toRat| = -((M : ℚ) * 2 ^ E - x.toRat) :=
      abs_of_nonpos (by linarith)
    rw [habs]
    calc |(m : ℚ) - x.toRat / 2 ^ e| * 2 ^ e ≤ 1 / 2 * 2 ^ e :=
          mul_le_mul_of_nonneg_right herr h2e.le
      _ = 2 ^ (e - 1) := by rw [← hhalf]; ring
      _ ≤ -((M : ℚ) * 2 ^ E - x.toRat) := by linarith

/-- Rounding of a non-negative fraction is to nearest among all the floating-point numbers of
the format, of either sign. -/
theorem roundTo_nearest (p : Nat) (emin : Int) (x : Frac) (hp : 0 < p) (hn : 0 ≤ x.num)
    (hd : 0 < x.den) (M E : Int) (hM : |M| < 2 ^ p) (hE : emin ≤ E) :
    |(roundTo p emin x).toRat - x.toRat| ≤ |(M : ℚ) * 2 ^ E - x.toRat| := by
  have hd' : (0 : ℚ) < x.den := by exact_mod_cast hd
  rcases hn.eq_or_lt with h0 | hpos
  · have hx : x.toRat = 0 := by unfold Frac.toRat; rw [← h0]; simp
    rw [roundTo_zero p emin x h0.symm, hx]
    simp
  · have hq : 0 < x.toRat := by
      unfold Frac.toRat
      apply div_pos _ hd'
      exact_mod_cast hpos
    rcases le_or_lt 0 M with hM0 | hM0
    · have hMn : ((M.toNat : Nat) : Int) = M := Int.toNat_of_nonneg hM0
      have hMq : ((M.toNat : Nat) : ℚ) = (M : ℚ) := by
        exact_mod_cast congrArg (Int.cast (R := ℚ)) hMn
      have hlt : M.toNat < 2 ^ p := by
        rw [abs_of_nonneg hM0] at hM
        have : ((M.toNat : Nat) : Int) < ((2 ^ p : Nat) : Int) := by rw [hMn]; exact_mod_cast hM
        exact_mod_cast this
      have := roundTo_nearest_pos p emin x hp hpos hd M.toNat E hlt hE
      rwa [hMq] at this
    · have h0' := roundTo_nearest_pos p emin x hp hpos hd 0 E (by positivity) hE
      simp only [Nat.cast_zero, zero_mul, zero_sub, abs_neg] at h0'
      have hneg : (M : ℚ) * 2 ^ E < 0 := by
        apply mul_neg_of_neg_of_pos _ (two_zpow_pos E)
        exact_mod_cast hM0
      rw [abs_of_neg (by linarith : (M : ℚ) * 2 ^ E - x.toRat < 0)]
      rw [abs_of_pos hq] at h0'
      linarith

theorem roundTo_neg (p : Nat) (emin : Int) (x : Frac) (hn : 0 ≤ x.num) :
    (roundTo p emin x).neg = false := by
  unfold roundTo
  have h2 : ¬ (x.num < 0) := by omega
  simp only [h2, decide_False]
  split_ifs <;> rfl

/-- The result of a rounding is normalised: its significand has the full `p` bits unless its
exponent is the smallest one. -/
theorem roundTo_canonical (p : Nat) (emin : Int) (x : Frac) (hp : 0 < p) :
    (roundTo p emin x).e = emin ∨ 2 ^ (p - 1) ≤ (roundTo p emin x).m := by
  unfold roundTo
  by_cases h0 : x.num = 0 ∨ x.den = 0
  · rw [if_pos h0]; exact Or.inl rfl
  · rw [if_neg h0]
    have hn : 0 < x.num.natAbs := by omega
    have hd : 0 < x.den := by omega
    have hfl := floorLog2_spec x.num.natAbs x.den hn hd
    have hs := scale_spec x.num.natAbs x.den (ulpExp p emin x.num.natAbs x.den) hd
    have hsd := scale_den_pos x.num.natAbs x.den (ulpExp p emin x.num.natAbs x.den) hd
    simp only
    split_ifs with hmp
    · exact Or.inr le_rfl
    · by_cases hclamp : ulpExp p emin x.num.natAbs x.den = emin
      · exact Or.inl hclamp
      · right
        have he : ulpExp p emin x.num.natAbs x.den
            = floorLog2 x.num.natAbs x.den - ((p : Int) - 1) := by
          unfold ulpExp at hclamp ⊢
          rcases max_choice (floorLog2 x.num.natAbs x.den - ((p : Int) - 1)) emin with h | h
          · exact h
          · exact absurd h hclamp
        have hq : ((2 ^ (p - 1) : Nat) : ℚ)
            ≤ ((scale x.num.natAbs x.den (ulpExp p emin x.num.natAbs x.den)).1 : ℚ)
              / ((scale x.num.natAbs x.den (ulpExp p emin x.num.natAbs x.den)).2 : ℚ) := by
          rw [hs, le_div_iff₀ (two_zpow_pos _), he]
          push_cast
          rw [← zpow_natCast, ← zpow_add₀ (by norm_num : (2 : ℚ) ≠ 0)]
          refine le_trans ?_ hfl.1
          apply zpow_le_zpow_right₀ (by norm_num)
          have : ((p - 1 : Nat) : Int) = (p : Int) - 1 := by omega
          omega
        exact_mod_cast roundHalfEven_ge_q _ _ (2 ^ (p - 1)) hsd hq

/-- The bit pattern of a normalised non-negative `float` below `2^105` decodes to its value. -/
theorem float_value_float_bits (r : Fp) (hneg : r.neg = false) (hm : r.m < 16777216)
    (hcan : r.e = -149 ∨ 8388608 ≤ r.m) (he0 : -149 ≤ r.e) (he1 : r.e ≤ 104) :
    float_value (float_bits r) = r.toRat ∧ float_bits r < 4294967296 := by
  obtain ⟨neg, m, e⟩ := r
  simp only at hneg hm hcan he0 he1
  subst hneg
  have hk : ((e + 149).toNat : Int) = e + 149 := Int.toNat_of_nonneg (by omega)
  generalize hkdef : (e + 149).toNat = k at hk
  have hk1 : k ≤ 253 := by omega
  simp only [float_bits, Bool.false_eq_true, if_false, Fp.toRat, zero_add, one_mul, hkdef]
  refine ⟨?_, by omega⟩
  unfold float_value
  have hsign : (k * 8388608 + m) / 2147483648 % 2 = 0 := by omega
  rw [if_neg (by omega)]
  by_cases hsmall : m < 8388608
  · have hk0 : k = 0 := by omega
    have hE : (k * 8388608 + m) / 8388608 % 256 = 0 := by omega
    have hf : (k * 8388608 + m) % 8388608 = m := by omega
    have he : e = -149 := by omega
    rw [if_pos hE, hf, he]; ring
  · have hE : (k * 8388608 + m) / 8388608 % 256 = k + 1 := by omega
    have hf : 8388608 + (k * 8388608 + m) % 8388608 = m := by omega
    rw [if_neg (by omega), hE, hf]
    have hexp : (((k + 1 : Nat) : Int) - 150) = e := by push_cast; omega
    rw [hexp]; ring

theorem Fp.exact_den_pos (x : Fp) : 0 < x.exact.den := by
  unfold Fp.exact
  simp only
  split_ifs <;> simp

theorem Fp.exact_toRat (x : Fp) : x.exact.toRat = x.toRat := by
  obtain ⟨neg, m, e⟩ := x
  unfold Fp.exact Fp.toRat Frac.toRat
  simp only
  by_cases h1 : m = 0
  · simp [h1]
  · rw [if_neg h1]
    by_cases h2 : 0 ≤ e
    · rw [if_pos h2, two_zpow_of_nonneg _ h2]
      cases neg <;> simp
    · rw [if_neg h2, two_zpow_of_neg _ (by omega)]
      cases neg <;> simp <;> ring

theorem Frac.add_den_pos (a b : Frac) (ha : 0 < a.den) (hb : 0 < b.den) : 0 < (a.add b).den :=
  Nat.mul_pos ha hb

theorem Frac.add_toRat (a b : Frac) (ha : 0 < a.den) (hb : 0 < b.den) :
    (a.add b).toRat = a.toRat + b.toRat := by
  have ha' : (a.den : ℚ) ≠ 0 := by exact_mod_cast ha.ne'
  have hb' : (b.den : ℚ) ≠ 0 := by exact_mod_cast hb.ne'
  unfold Frac.add Frac.toRat
  push_cast
  field_simp

theorem Frac.div_den_pos (a b : Frac) (ha : 0 < a.den) (hb : b.num ≠ 0) : 0 < (a.div b).den := by
  unfold Frac.div
  split_ifs <;> exact Nat.mul_pos ha (by omega)

theorem Frac.div_toRat (a b : Frac) (ha : 0 < a.den) (hb : 0 < b.den) (hn : 0 < b.num) :
    (a.div b).toRat = a.toRat / b.toRat := by
  have ha' : (a.den : ℚ) ≠ 0 := by exact_mod_cast ha.ne'
  have hb' : (b.den : ℚ) ≠ 0 := by exact_mod_cast hb.ne'
  have hn' : ((b.num : Int) : ℚ) ≠ 0 := by exact_mod_cast hn.ne'
  unfold Frac.div Frac.toRat
  rw [if_pos hn.le]
  simp only
  rw [Nat.cast_mul, Nat.cast_natAbs, abs_of_pos hn]
  push_cast
  field_simp

/-- Conversion of an integer of magnitude below `2^53` to `double` is exact. -/
theorem roundDouble_of_nat (z : Int) (h0 : 0 ≤ z) (h1 : z < 2 ^ 53) :
    (roundDouble ⟨z, 1⟩).toRat = z := by
  have hz : ((z.toNat : Nat) : Int) = z := Int.toNat_of_nonneg h0
  have hx : (Frac.mk z 1).toRat = ((z.toNat : Nat) : ℚ) * 2 ^ (0 : Int) := by
    unfold Frac.toRat
    have : ((z.toNat : Nat) : ℚ) = ((z : Int) : ℚ) := by exact_mod_cast congrArg (Int.cast (R := ℚ)) hz
    simp [this]
  have hM : z.toNat < 2 ^ 53 := by omega
  have := roundTo_exact 53 (-1074) ⟨z, 1⟩ z.toNat 0 (by norm_num) (by simp) hM (by norm_num) hx
  unfold roundDouble
  rw [this]; simp [Frac.toRat]

/-- One iteration of the loop is exact as long as the sum stays below `2^53` and the square does
not overflow. -/
theorem accumulate_exact (acc : Fp) (num A : Int) (hA0 : 0 ≤ A) (hacc : acc.toRat = A)
    (hn0 : 0 ≤ num) (hn1 : num ≤ 1023) (hsum : A + num * num < 2 ^ 53) :
    (accumulate acc num).toRat = ((A + num * num : Int) : ℚ) := by
  have hsq0 : 0 ≤ num * num := mul_nonneg hn0 hn0
  have hsq1 : num * num ≤ 1046529 := by nlinarith
  have hwrap : toInt32 (num * num) = num * num := by unfold toInt32; omega
  have hx := roundDouble_of_nat (num * num) hsq0 (by norm_num; omega)
  unfold accumulate
  rw [hwrap]
  have hadd : (Frac.add acc.exact (roundDouble ⟨num * num, 1⟩).exact).toRat
      = ((A + num * num : Int) : ℚ) := by
    rw [Frac.add_toRat _ _ (Fp.exact_den_pos _) (Fp.exact_den_pos _), Fp.exact_toRat,
      Fp.exact_toRat, hacc, hx]
    push_cast; ring
  have hden := Frac.add_den_pos _ _ (Fp.exact_den_pos acc)
    (Fp.exact_den_pos (roundDouble ⟨num * num, 1⟩))
  have hz : (((A + num * num).toNat : Nat) : Int) = A + num * num :=
    Int.toNat_of_nonneg (by omega)
  have hx2 : (Frac.add acc.exact (roundDouble ⟨num * num, 1⟩).exact).toRat
      = (((A + num * num).toNat : Nat) : ℚ) * 2 ^ (0 : Int) := by
    rw [hadd]
    have : (((A + num * num).toNat : Nat) : ℚ) = ((A + num * num : Int) : ℚ) := by
      exact_mod_cast congrArg (Int.cast (R := ℚ)) hz
    rw [this]; simp
  have hM : (A + num * num).toNat < 2 ^ 53 := by omega
  unfold roundDouble at hadd hden hx2 ⊢
  rw [roundTo_exact 53 (-1074) _ _ 0 (by norm_num) hden hM (by norm_num) hx2, hadd]

/-! ## Lemmas on the set and on `add_number` -/

theorem mem_set_insert (v x : Int) (l : List Int) : x ∈ set_insert v l ↔ x = v ∨ x ∈ l := by
  induction l with
  | nil => simp [set_insert]
  | cons a l ih =>
    unfold set_insert
    split_ifs with h1 h2
    · simp
    · subst h2; simp
    · simp only [List.mem_cons, ih]; tauto

theorem set_insert_sorted (v : Int) (l : List Int) (h : l.Sorted (· < ·)) :
    (set_insert v l).Sorted (· < ·) := by
  induction l with
  | nil => simp [set_insert]
  | cons a l ih =>
    rw [List.sorted_cons] at h
    unfold set_insert
    split_ifs with h1 h2
    · rw [List.sorted_cons]
      refine ⟨?_, List.sorted_cons.mpr h⟩
      intro b hb
      rcases List.mem_cons.mp hb with hb | hb
      · rw [hb]; exact h1
      · exact lt_trans h1 (h.1 b hb)
    · exact List.sorted_cons.mpr h
    · rw [List.sorted_cons]
      refine ⟨?_, ih h.2⟩
      intro b hb
      rcases (mem_set_insert v b l).mp hb with hb | hb
      · rw [hb]; omega
      · exact h.1 b hb

theorem set_insert_idem (v : Int) (l : List Int) :
    set_insert v (set_insert v l) = set_insert v l := by
  induction l with
  | nil => simp [set_insert]
  | cons a l ih =>
    by_cases h1 : v < a
    · simp [set_insert, h1]
    · by_cases h2 : v = a
      · simp [set_insert, h2]
      · simp [set_insert, h1, h2, ih]

theorem set_insert_of_mem (v : Int) (l : List Int) (h : l.Sorted (· < ·)) (hv : v ∈ l) :
    set_insert v l = l := by
  induction l with
  | nil => simp at hv
  | cons a l ih =>
    rw [List.sorted_cons] at h
    unfold set_insert
    rcases List.mem_cons.mp hv with hv | hv
    · simp [hv]
    · have := h.1 v hv
      rw [if_neg (by omega), if_neg (by omega), ih h.2 hv]

theorem set_insert_ne_nil (v : Int) (l : List Int) : set_insert v l ≠ [] := by
  cases l with
  | nil => simp [set_insert]
  | cons a l => unfold set_insert; split_ifs <;> simp

theorem feed_sorted (vs : List Int) : ∀ s : List Int, s.Sorted (· < ·) →
    (feed s vs).Sorted (· < ·) := by
  induction vs with
  | nil => intro s h; exact h
  | cons v vs ih => intro s h; exact ih _ (set_insert_sorted v s h)

theorem mem_feed (vs : List Int) : ∀ (s : List Int) (x : Int),
    x ∈ feed s vs ↔ x ∈ s ∨ x ∈ vs := by
  induction vs with
  | nil => intro s x; simp [feed]
  | cons v vs ih =>
    intro s x
    simp only [feed, add_number, ih, mem_set_insert, List.mem_cons]
    tauto

theorem feed_ne_nil (vs : List Int) (hne : vs ≠ []) (s : List Int) : feed s vs ≠ [] := by
  obtain ⟨x, hx⟩ := List.exists_mem_of_ne_nil vs hne
  intro hc
  have := (mem_feed vs s x).mpr (Or.inr hx)
  rw [hc] at this
  simp at this

theorem returned_values_getLast (vs : List Int) (hne : vs ≠ []) : ∀ s : List Int,
    (returned_values s vs).getLast? = some (mean_of_squares (feed s vs)) := by
  induction vs with
  | nil => exact absurd rfl hne
  | cons v vs ih =>
    intro s
    cases vs with
    | nil => simp [returned_values, feed, add_number]
    | cons w ws =>
      have h := ih (by simp) (add_number s v).1
      rw [returned_values, feed]
      rw [← h]
      simp [returned_values]

theorem sumsq_nonneg (l : List Int) : 0 ≤ sumsq l := by
  unfold sumsq
  apply List.sum_nonneg
  intro x hx
  obtain ⟨v, _, rfl⟩ := List.mem_map.mp hx
  exact mul_self_nonneg v

theorem sumsq_cons (a : Int) (l : List Int) : sumsq (a :: l) = a * a + sumsq l := by
  simp [sumsq]

theorem sumsq_le (l : List Int) (h : ∀ v ∈ l, 0 ≤ v ∧ v ≤ 1023) :
    sumsq l ≤ 1046529 * l.length := by
  induction l with
  | nil => simp [sumsq]
  | cons a l ih =>
    have ha := h a (List.mem_cons_self a l)
    have hl := ih (fun v hv => h v (List.mem_cons_of_mem a hv))
    rw [sumsq_cons]
    have : a * a ≤ 1046529 := by nlinarith
    rw [List.length_cons]
    push_cast
    linarith

theorem foldl_accumulate_exact (l : List Int) : ∀ (acc : Fp) (A : Int), 0 ≤ A →
    acc.toRat = A → (∀ v ∈ l, 0 ≤ v ∧ v ≤ 1023) → A + sumsq l < 2 ^ 53 →
    (l.foldl accumulate acc).toRat = ((A + sumsq l : Int) : ℚ) := by
  induction l with
  | nil => intro acc A _ hacc _ _; simp [sumsq, hacc]
  | cons a l ih =>
    intro acc A hA hacc hr hsum
    have ha := hr a (List.mem_cons_self a l)
    have hl : ∀ v ∈ l, 0 ≤ v ∧ v ≤ 1023 := fun v hv => hr v (List.mem_cons_of_mem a hv)
    rw [sumsq_cons] at hsum
    have hnn := sumsq_nonneg l
    have hsq : 0 ≤ a * a := mul_self_nonneg a
    have h1 := accumulate_exact acc a A hA (by exact_mod_cast hacc) ha.1 ha.2 (by linarith)
    have h2 := ih (accumulate acc a) (A + a * a) (by linarith) h1 hl (by linarith)
    rw [List.foldl_cons, h2, sumsq_cons]
    push_cast; ring

/-- The loop of `add_number` computes the exact sum of the squares when every member is in
`[0, 1023]` and the sum is below `2^53`. -/
theorem sum_of_squares_exact (l : List Int) (hr : ∀ v ∈ l, 0 ≤ v ∧ v ≤ 1023)
    (hsum : sumsq l < 2 ^ 53) : (sum_of_squares l).toRat = (sumsq l : ℚ) := by
  unfold sum_of_squares
  have h0 : (roundDouble ⟨0, 1⟩).toRat = ((0 : Int) : ℚ) := by
    unfold roundDouble; rw [roundTo_zero _ _ _ rfl]; simp
  have := foldl_accumulate_exact l (roundDouble ⟨0, 1⟩) 0 le_rfl h0 hr (by simpa using hsum)
  rw [this]; simp

theorem length_le_of_sorted (l : List Int) (hs : l.Sorted (· < ·))
    (hr : ∀ v ∈ l, 0 ≤ v ∧ v ≤ 1023) : l.length ≤ 1024 := by
  have hnd : l.Nodup := hs.nodup
  have hsub : l.toFinset ⊆ Finset.Icc (0 : Int) 1023 := by
    intro x hx
    rw [List.mem_toFinset] at hx
    rw [Finset.mem_Icc]
    exact hr x hx
  have hcard := Finset.card_le_card hsub
  rw [List.toFinset_card_of_nodup hnd, Int.card_Icc] at hcard
  simpa using hcard

theorem Frac.num_pos_of_toRat_pos (x : Frac) (hd : 0 < x.den) (h : 0 < x.toRat) : 0 < x.num := by
  have hd' : (0 : ℚ) < x.den := by exact_mod_cast hd
  unfold Frac.toRat at h
  rw [lt_div_iff₀ hd', zero_mul] at h
  exact_mod_cast h

theorem Frac.num_nonneg_of_toRat_nonneg (x : Frac) (hd : 0 < x.den) (h : 0 ≤ x.toRat) :
    0 ≤ x.num := by
  have hd' : (0 : ℚ) < x.den := by exact_mod_cast hd
  unfold Frac.toRat at h
  rw [le_div_iff₀ hd', zero_mul] at h
  exact_mod_cast h

/-- The value returned for a non-empty set of members of `[0, 1023]`: the rounding to `double`
of a fraction whose exact value is the sum of the squares divided by the number of members. -/
theorem mean_of_squares_spec (l : List Int) (hne : l ≠ []) (hs : l.Sorted (· < ·))
    (hr : ∀ v ∈ l, 0 ≤ v ∧ v ≤ 1023) :
    ∃ F : Frac, mean_of_squares l = roundDouble F ∧ 0 < F.den ∧
      F.toRat = (sumsq l : ℚ) / (l.length : ℚ) := by
  have hlen := length_le_of_sorted l hs hr
  have hpos : 0 < l.length := List.length_pos.mpr hne
  have hsum : sumsq l < 2 ^ 53 := by
    have := sumsq_le l hr
    have h2 : (l.length : Int) ≤ 1024 := by exact_mod_cast hlen
    norm_num; linarith
  have hS := sum_of_squares_exact l hr hsum
  have hN := roundDouble_of_nat (l.length : Int) (by positivity)
    (by have h2 : (l.length : Int) ≤ 1024 := by exact_mod_cast hlen
        norm_num; linarith)
  have hNnum : 0 < (roundDouble ⟨(l.length : Int), 1⟩).exact.num := by
    apply Frac.num_pos_of_toRat_pos _ (Fp.exact_den_pos _)
    rw [Fp.exact_toRat, hN]
    exact_mod_cast hpos
  refine ⟨Frac.div (sum_of_squares l).exact (roundDouble ⟨(l.length : Int), 1⟩).exact, ?_,
    Frac.div_den_pos _ _ (Fp.exact_den_pos _) hNnum.ne', ?_⟩
  · unfold mean_of_squares mean_from
    have : l.isEmpty = false := by
      cases l with
      | nil => exact absurd rfl hne
      | cons a t => rfl
    rw [this]
    simp only [Bool.false_eq_true, if_false]
  · rw [Frac.div_toRat _ _ (Fp.exact_den_pos _) (Fp.exact_den_pos _) hNnum, Fp.exact_toRat,
      Fp.exact_toRat, hS, hN]
    push_cast; rfl

theorem feed_toFinset (vs : List Int) : (feed [] vs).toFinset = vs.toFinset := by
  ext x
  simp [mem_feed]

/-- The exact mean of the squares of the members of the set reached from the empty set is the
mean over the distinct values that were passed. -/
theorem distinct_mean_eq (vs : List Int) :
    distinct_mean vs = (sumsq (feed [] vs) : ℚ) / ((feed [] vs).length : ℚ) := by
  have hnd : (feed [] vs).Nodup := (feed_sorted vs [] List.sorted_nil).nodup
  unfold distinct_mean sumsq
  rw [← feed_toFinset vs, List.toFinset_card_of_nodup hnd, List.sum_toFinset _ hnd]
  congr 1
  induction (feed [] vs) with
  | nil => simp
  | cons a l ih => simp [ih]

theorem mean_of_squares_bounds (l : List Int) (hne : l ≠ []) (hs : l.Sorted (· < ·))
    (hr : ∀ v ∈ l, 0 ≤ v ∧ v ≤ 1023) :
    0 ≤ (mean_of_squares l).toRat ∧ (mean_of_squares l).toRat ≤ 1046529 := by
  obtain ⟨F, hF, hd, hq⟩ := mean_of_squares_spec l hne hs hr
  have hpos : (0 : ℚ) < l.length := by exact_mod_cast List.length_pos.mpr hne
  have h0 : 0 ≤ F.toRat := by
    rw [hq]; apply div_nonneg _ hpos.le; exact_mod_cast sumsq_nonneg l
  have h1 : F.toRat ≤ ((1046529 : Nat) : ℚ) := by
    rw [hq, div_le_iff₀ hpos]
    exact_mod_cast sumsq_le l hr
  have hnum := Frac.num_nonneg_of_toRat_nonneg F hd h0
  rw [hF]
  unfold roundDouble
  refine ⟨roundTo_nonneg _ _ _ hnum, ?_⟩
  have := roundTo_le 53 (-1074) F 1046529 (by norm_num) hnum hd (by norm_num) (by norm_num) h1
  exact_mod_cast this

/-- The `float` conversion of a `double` in `[0, 1046529]` stays in `[0, 1046529]`. -/
theorem roundFloat_bounds (x : Fp) (h0 : 0 ≤ x.toRat) (h1 : x.toRat ≤ 1046529) :
    0 ≤ (roundFloat x.exact).toRat ∧ (roundFloat x.exact).toRat ≤ 1046529 := by
  have hd := Fp.exact_den_pos x
  have hnum := Frac.num_nonneg_of_toRat_nonneg x.exact hd (by rw [Fp.exact_toRat]; exact h0)
  unfold roundFloat
  refine ⟨roundTo_nonneg _ _ _ hnum, ?_⟩
  have := roundTo_le 24 (-149) x.exact 1046529 (by norm_num) hnum hd (by norm_num) (by norm_num)
    (by rw [Fp.exact_toRat]; exact_mod_cast h1)
  exact_mod_cast this

theorem mean_of_squares_error (l : List Int) (hne : l ≠ []) (hs : l.Sorted (· < ·))
    (hr : ∀ v ∈ l, 0 ≤ v ∧ v ≤ 1023) :
    |(mean_of_squares l).toRat - (sumsq l : ℚ) / (l.length : ℚ)|
      ≤ (sumsq l : ℚ) / (l.length : ℚ) / 2 ^ 53 := by
  obtain ⟨F, hF, hd, hq⟩ := mean_of_squares_spec l hne hs hr
  have hlen := length_le_of_sorted l hs hr
  have hpos : (0 : ℚ) < l.length := by exact_mod_cast List.length_pos.mpr hne
  have hlen' : (l.length : ℚ) ≤ 1024 := by exact_mod_cast hlen
  rw [hF, ← hq]
  unfold roundDouble
  rcases (sumsq_nonneg l).eq_or_lt with h0 | hS
  · have hz : F.toRat = 0 := by rw [hq, ← h0]; simp
    have hn : F.num = 0 := by
      have hd' : (F.den : ℚ) ≠ 0 := by exact_mod_cast hd.ne'
      unfold Frac.toRat at hz
      rw [div_eq_zero_iff] at hz
      rcases hz with hz | hz
      · exact_mod_cast hz
      · exact absurd hz hd'
    rw [roundTo_zero _ _ _ hn, hz]; simp
  · have hS1 : (1 : ℚ) ≤ sumsq l := by exact_mod_cast hS
    have hFpos : 0 < F.toRat := by rw [hq]; positivity
    have hnum := Frac.num_pos_of_toRat_pos F hd hFpos
    apply roundTo_error 53 (-1074) F (by norm_num) hnum hd
    have h2 : (2 : ℚ) ^ ((-1074 : Int) + ((53 : Nat) : Int) - 1) ≤ 1 / 1024 := by
      have : ((-1074 : Int) + ((53 : Nat) : Int) - 1) = -(1022 : Nat) := by norm_num
      rw [this, zpow_neg, zpow_natCast, inv_eq_one_div]
      apply one_div_le_one_div_of_le (by norm_num)
      norm_num
    refine le_trans h2 ?_
    rw [hq, div_le_div_iff₀ (by norm_num) hpos]
    nlinarith

theorem mean_of_squares_exact (l : List Int) (hne : l ≠ []) (hs : l.Sorted (· < ·))
    (hr : ∀ v ∈ l, 0 ≤ v ∧ v ≤ 1023) (M : Nat) (E : Int) (hM : M < 2 ^ 53) (hE : -1074 ≤ E)
    (hq : (sumsq l : ℚ) / (l.length : ℚ) = (M : ℚ) * 2 ^ E) :
    (mean_of_squares l).toRat = (sumsq l : ℚ) / (l.length : ℚ) := by
  obtain ⟨F, hF, hd, hFq⟩ := mean_of_squares_spec l hne hs hr
  rw [hF, ← hFq]
  unfold roundDouble
  exact roundTo_exact 53 (-1074) F M E (by norm_num) hd hM hE (by rw [hFq, hq])

/-- The value returned is a `double` (non-negative, significand below `2^53`, exponent at least
`-1074`) and no `double` is closer to the exact mean of the squares. -/
theorem mean_of_squares_nearest (l : List Int) (hne : l ≠ []) (hs : l.Sorted (· < ·))
    (hr : ∀ v ∈ l, 0 ≤ v ∧ v ≤ 1023) :
    ((mean_of_squares l).neg = false ∧ (mean_of_squares l).m < 2 ^ 53 ∧
      -1074 ≤ (mean_of_squares l).e) ∧
    ∀ M E : Int, |M| < 2 ^ 53 → -1074 ≤ E →
      |(mean_of_squares l).toRat - (sumsq l : ℚ) / (l.length : ℚ)|
        ≤ |(M : ℚ) * 2 ^ E - (sumsq l : ℚ) / (l.length : ℚ)| := by
  obtain ⟨F, hF, hd, hq⟩ := mean_of_squares_spec l hne hs hr
  have hpos : (0 : ℚ) < l.length := by exact_mod_cast List.length_pos.mpr hne
  have h0 : 0 ≤ F.toRat := by
    rw [hq]; apply div_nonneg _ hpos.le; exact_mod_cast sumsq_nonneg l
  have hnum := Frac.num_nonneg_of_toRat_nonneg F hd h0
  rw [hF, ← hq]
  unfold roundDouble
  obtain ⟨h1, h2⟩ := roundTo_repr 53 (-1074) F (by norm_num)
  refine ⟨⟨roundTo_neg 53 (-1074) F hnum, h1, h2⟩, ?_⟩
  intro M E hM hE
  exact roundTo_nearest 53 (-1074) F (by norm_num) hnum hd M E (by exact_mod_cast hM) hE

/-- The `float` conversion of a `double` of `[0, 1046529]` is a normalised `float` whose bit
pattern fits 32 bits and decodes to it. -/
theorem float_bits_roundFloat (x : Fp) (h0 : 0 ≤ x.toRat) (h1 : x.toRat ≤ 1046529) :
    float_value (float_bits (roundFloat x.exact)) = (roundFloat x.exact).toRat ∧
    float_bits (roundFloat x.exact) < 4294967296 := by
  have hd := Fp.exact_den_pos x
  have hq : x.exact.toRat = x.toRat := Fp.exact_toRat x
  have hd' : (0 : ℚ) < x.exact.den := by exact_mod_cast hd
  have hnum : 0 ≤ x.exact.num := by
    have : 0 ≤ x.exact.toRat := by rw [hq]; exact h0
    unfold Frac.toRat at this
    rw [le_div_iff₀ hd', zero_mul] at this
    exact_mod_cast this
  have hle := roundTo_le 24 (-149) x.exact 1046529 (by norm_num) hnum hd (by norm_num)
    (by norm_num) (by rw [hq]; exact_mod_cast h1)
  obtain ⟨hm, he0⟩ := roundTo_repr 24 (-149) x.exact (by norm_num)
  have hcan := roundTo_canonical 24 (-149) x.exact (by norm_num)
  have hneg := roundTo_neg 24 (-149) x.exact hnum
  unfold roundFloat
  apply float_value_float_bits _ hneg (by simpa using hm) (by simpa using hcan) he0
  rcases hcan with hc | hc
  · rw [hc]; norm_num
  · -- a full significand and a value below `2^20` bound the exponent
    by_contra hbig
    have he : (-3 : Int) ≤ (roundTo 24 (-149) x.exact).e := by omega
    have hval : (roundTo 24 (-149) x.exact).toRat
        = ((roundTo 24 (-149) x.exact).m : ℚ) * 2 ^ (roundTo 24 (-149) x.exact).e := by
      simp [Fp.toRat, hneg]
    have hm1 : (8388608 : ℚ) ≤ ((roundTo 24 (-149) x.exact).m : ℚ) := by
      have : 8388608 ≤ (roundTo 24 (-149) x.exact).m := by simpa using hc
      exact_mod_cast this
    have hp : (2 : ℚ) ^ (-3 : Int) ≤ 2 ^ (roundTo 24 (-149) x.exact).e :=
      zpow_le_zpow_right₀ (by norm_num) he
    have h3 : (2 : ℚ) ^ (-3 : Int) = 1 / 8 := by norm_num [zpow_neg]
    have : (8388608 : ℚ) * (1 / 8) ≤ (roundTo 24 (-149) x.exact).toRat := by
      rw [hval, ← h3]
      exact mul_le_mul hm1 hp (by positivity) (by positivity)
    have hle' : (roundTo 24 (-149) x.exact).toRat ≤ 1046529 := by exact_mod_cast hle
    norm_num at this
    linarith

/-! ## Claims on `Server::add_number` -/

/-- C1 (amended): for every non-empty sequence of integers of `[0, 1023]` passed one after
another to `add_number` from the empty set, the set is non-empty after the insertion (the
fallback `numbers_.empty() ? 0` is not taken, the divisor is at least 1) and the value returned
by the last call is the exact mean of the squares of the distinct values rounded to `double`: it
is a `double`, no `double` is closer to that rational, it differs from it by at most a relative
`2^-53`, and it is equal to it whenever the rational is itself a `double` (`M * 2^E` with
`M < 2^53`, `E ≥ -1074`). -/
theorem C1_last_value_is_rounded_mean (vs : List Int) (hne : vs ≠ [])
    (hr : ∀ v ∈ vs, 0 ≤ v ∧ v ≤ 1023) :
    ∃ r : Fp, (returned_values [] vs).getLast? = some r ∧
      (feed [] vs).isEmpty = false ∧ 1 ≤ vs.toFinset.card ∧
      (r.neg = false ∧ r.m < 2 ^ 53 ∧ -1074 ≤ r.e) ∧
      (∀ M E : Int, |M| < 2 ^ 53 → -1074 ≤ E →
        |r.toRat - distinct_mean vs| ≤ |(M : ℚ) * 2 ^ E - distinct_mean vs|) ∧
      |r.toRat - distinct_mean vs| ≤ distinct_mean vs / 2 ^ 53 ∧
      (∀ (M : Nat) (E : Int), M < 2 ^ 53 → -1074 ≤ E → distinct_mean vs = (M : ℚ) * 2 ^ E →
        r.toRat = distinct_mean vs) := by
  have hne' := feed_ne_nil vs hne []
  have hs := feed_sorted vs [] List.sorted_nil
  have hr' : ∀ v ∈ feed [] vs, 0 ≤ v ∧ v ≤ 1023 := by
    intro v hv
    rcases (mem_feed vs [] v).mp hv with h | h
    · simp at h
    · exact hr v h
  have hnear := mean_of_squares_nearest _ hne' hs hr'
  refine ⟨mean_of_squares (feed [] vs), returned_values_getLast vs hne [], ?_, ?_, hnear.1, ?_,
    ?_, ?_⟩
  · cases hf : feed [] vs with
    | nil => exact absurd hf hne'
    | cons a t => rfl
  · rw [← feed_toFinset vs, List.toFinset_card_of_nodup hs.nodup]
    exact List.length_pos.mpr hne'
  · rw [distinct_mean_eq]
    exact hnear.2
  · rw [distinct_mean_eq]
    exact mean_of_squares_error _ hne' hs hr'
  · intro M E hM hE hq
    rw [distinct_mean_eq] at hq ⊢
    exact mean_of_squares_exact _ hne' hs hr' M E hM hE hq

set_option maxRecDepth 100000 in
/-- Witness of C1: the sequence `1, 2`, whose last returned value is exactly `5/2`. -/
theorem C1_last_value_is_rounded_mean_witness :
    (([1, 2] : List Int) ≠ [] ∧ ∀ v ∈ ([1, 2] : List Int), 0 ≤ v ∧ v ≤ 1023) ∧
    ∃ r : Fp, (returned_values [] [1, 2]).getLast? = some r ∧
      (feed [] [1, 2]).isEmpty = false ∧ 1 ≤ ([1, 2] : List Int).toFinset.card ∧
      (r.neg = false ∧ r.m < 2 ^ 53 ∧ -1074 ≤ r.e) ∧
      (∀ M E : Int, |M| < 2 ^ 53 → -1074 ≤ E →
        |r.toRat - distinct_mean [1, 2]| ≤ |(M : ℚ) * 2 ^ E - distinct_mean [1, 2]|) ∧
      |r.toRat - distinct_mean [1, 2]| ≤ distinct_mean [1, 2] / 2 ^ 53 ∧
      (∀ (M : Nat) (E : Int), M < 2 ^ 53 → -1074 ≤ E → distinct_mean [1, 2] = (M : ℚ) * 2 ^ E →
        r.toRat = distinct_mean [1, 2]) :=
  ⟨⟨by decide, by decide⟩, C1_last_value_is_rounded_mean [1, 2] (by decide) (by decide)⟩

set_option maxRecDepth 100000 in
/-- C1 as stated fails: after `1, 2, 3` the last call returns the `double`
`5254199565265579 * 2^-50`, which is not the rational `14/3`. -/
theorem C1_counterexample :
    ∃ r : Fp, (returned_values [] [1, 2, 3]).getLast? = some r ∧
      r.toRat ≠ distinct_mean [1, 2, 3] := by
  refine ⟨⟨false, 5254199565265579, -50⟩, by decide, ?_⟩
  have h : distinct_mean [1, 2, 3] = 14 / 3 := by
    simp [distinct_mean]; norm_num
  rw [h]
  norm_num [Fp.toRat]

set_option maxRecDepth 100000 in
/-- The scenario of the specification: `1` returns `1`, then `2` returns `5/2`, and `2` again
still returns `5/2`. -/
theorem add_number_scenario :
    (returned_values [] [1, 2, 2]).map Fp.toRat = [1, 5 / 2, 5 / 2] := by
  have h : returned_values [] [1, 2, 2] =
      [⟨false, 4503599627370496, -52⟩, ⟨false, 5629499534213120, -51⟩,
        ⟨false, 5629499534213120, -51⟩] := by decide
  rw [h]
  norm_num [Fp.toRat]

/-- C2: `add_number` is idempotent. Calling it twice in a row with `v` leaves the same set as
calling it once and the second call returns the same value as the first; if `v` is already a
member of the set `S`, the call leaves `S` unchanged and returns the mean of squares of `S`. -/
theorem C2_add_number_idempotent (S : List Int) (v : Int) (hS : S.Sorted (· < ·)) :
    (add_number (add_number S v).1 v).1 = (add_number S v).1 ∧
    (add_number (add_number S v).1 v).2 = (add_number S v).2 ∧
    (v ∈ S → (add_number S v).1 = S ∧ (add_number S v).2 = mean_of_squares S) := by
  refine ⟨?_, ?_, ?_⟩
  · simp [add_number, set_insert_idem]
  · simp [add_number, set_insert_idem]
  · intro hv
    simp [add_number, set_insert_of_mem v S hS hv]

/-- Witness of C2: the set `{1, 2}` and the value `2`. -/
theorem C2_add_number_idempotent_witness :
    ([1, 2] : List Int).Sorted (· < ·) ∧
    ((add_number (add_number [1, 2] 2).1 2).1 = (add_number [1, 2] 2).1 ∧
    (add_number (add_number [1, 2] 2).1 2).2 = (add_number [1, 2] 2).2 ∧
    ((2 : Int) ∈ ([1, 2] : List Int) →
      (add_number [1, 2] 2).1 = [1, 2] ∧ (add_number [1, 2] 2).2 = mean_of_squares [1, 2])) :=
  ⟨by decide, C2_add_number_idempotent [1, 2] 2 (by decide)⟩

/-! ## The codec -/

theorem toUInt32_toInt32 (x : Nat) (h : x < 4294967296) : toUInt32 (toInt32 (x : Int)) = x := by
  unfold toUInt32 toInt32; omega

theorem toInt32_toUInt32 (x : Int) (h0 : -2147483648 ≤ x) (h1 : x < 2147483648) :
    toInt32 (toUInt32 x : Int) = x := by
  unfold toUInt32 toInt32; omega

theorem toUInt32_lt (x : Int) : toUInt32 x < 4294967296 := by
  unfold toUInt32; omega

theorem bswap32_lt (x : Nat) : bswap32 x < 4294967296 := by
  unfold bswap32; omega

theorem htonl_lt (h : Endian) (x : Nat) (hx : x < 4294967296) : htonl h x < 4294967296 := by
  cases h
  · exact bswap32_lt x
  · exact hx

theorem ntohl_lt (h : Endian) (x : Nat) (hx : x < 4294967296) : ntohl h x < 4294967296 := by
  cases h
  · exact bswap32_lt x
  · exact hx

theorem of_memory_lt (h : Endian) (b : Bytes4) : of_memory h b < 4294967296 := by
  obtain ⟨⟨b0, h0⟩, ⟨b1, h1⟩, ⟨b2, h2⟩, ⟨b3, h3⟩⟩ := b
  cases h <;> simp only [of_memory] <;> omega

theorem digits_spec (a b c d : Nat) (ha : a < 256) (hb : b < 256) (hc : c < 256)
    (hd : d < 256) :
    (a + 256 * b + 65536 * c + 16777216 * d) % 256 = a ∧
    (a + 256 * b + 65536 * c + 16777216 * d) / 256 % 256 = b ∧
    (a + 256 * b + 65536 * c + 16777216 * d) / 65536 % 256 = c ∧
    (a + 256 * b + 65536 * c + 16777216 * d) / 16777216 % 256 = d := by
  refine ⟨?_, ?_, ?_, ?_⟩ <;> omega

theorem digits_exist (x : Nat) (hx : x < 4294967296) :
    ∃ a b c d : Nat, a < 256 ∧ b < 256 ∧ c < 256 ∧ d < 256 ∧
      x = a + 256 * b + 65536 * c + 16777216 * d :=
  ⟨x % 256, x / 256 % 256, x / 65536 % 256, x / 16777216 % 256, by omega, by omega, by omega,
    by omega, by omega⟩

theorem bswap32_digits (a b c d : Nat) (ha : a < 256) (hb : b < 256) (hc : c < 256)
    (hd : d < 256) :
    bswap32 (a + 256 * b + 65536 * c + 16777216 * d) = d + 256 * c + 65536 * b + 16777216 * a := by
  obtain ⟨h0, h1, h2, h3⟩ := digits_spec a b c d ha hb hc hd
  unfold bswap32
  rw [h0, h1, h2, h3]
  ring

/-- The bytes in memory of `htonl x` are the big-endian bytes of `x`, on either host. -/
theorem to_memory_htonl (h : Endian) (x : Nat) (hx : x < 4294967296) :
    to_memory h (htonl h x) = to_memory Endian.big x := by
  cases h
  · obtain ⟨a, b, c, d, ha, hb, hc, hd, rfl⟩ := digits_exist x hx
    obtain ⟨h0, h1, h2, h3⟩ := digits_spec a b c d ha hb hc hd
    obtain ⟨g0, g1, g2, g3⟩ := digits_spec d c b a hd hc hb ha
    simp only [to_memory, htonl, byte, Bytes4.mk.injEq, Fin.mk.injEq]
    rw [bswap32_digits a b c d ha hb hc hd, g0, g1, g2, g3, h0, h1, h2, h3]
    simp
  · rfl

/-- The word `ntohl` makes of a word read from memory is the big-endian value of the bytes. -/
theorem ntohl_of_memory (h : Endian) (b : Bytes4) :
    ntohl h (of_memory h b) = of_memory Endian.big b := by
  obtain ⟨⟨b0, h0⟩, ⟨b1, h1⟩, ⟨b2, h2⟩, ⟨b3, h3⟩⟩ := b
  cases h
  · simp only [of_memory, ntohl]
    have e : b0 + b1 * 256 + b2 * 65536 + b3 * 16777216
        = b0 + 256 * b1 + 65536 * b2 + 16777216 * b3 := by ring
    rw [e, bswap32_digits b0 b1 b2 b3 h0 h1 h2 h3]
    ring
  · rfl

theorem of_to_memory (h : Endian) (x : Nat) (hx : x < 4294967296) :
    of_memory h (to_memory h x) = x := by
  cases h <;> simp only [of_memory, to_memory, byte] <;> omega

theorem to_of_memory (h : Endian) (b : Bytes4) : to_memory h (of_memory h b) = b := by
  obtain ⟨⟨b0, h0⟩, ⟨b1, h1⟩, ⟨b2, h2⟩, ⟨b3, h3⟩⟩ := b
  cases h <;> simp only [of_memory, to_memory, byte, Bytes4.mk.injEq, Fin.mk.injEq] <;>
    refine ⟨?_, ?_, ?_, ?_⟩ <;> omega

/-- The number the server decodes is the big-endian signed 32-bit value of the four bytes, on
either host. -/
theorem decode_request_eq (h : Endian) (buf : Bytes4) :
    decode_request h buf = toInt32 (of_memory Endian.big buf) := by
  unfold decode_request
  simp only
  rw [toUInt32_toInt32 _ (of_memory_lt h buf), ntohl_of_memory]

/-- The bytes the client sends are the big-endian bytes of the number, on either host. -/
theorem encode_request_eq (h : Endian) (x : Int) :
    encode_request h x = to_memory Endian.big (toUInt32 x) := by
  unfold encode_request
  simp only
  rw [toUInt32_toInt32 _ (htonl_lt h _ (toUInt32_lt x)), to_memory_htonl h _ (toUInt32_lt x)]

/-- The bytes the server sends are the big-endian bytes of the bit pattern, on either host. -/
theorem encode_float_bits_eq (h : Endian) (b : Nat) (hb : b < 4294967296) :
    encode_float_bits h b = to_memory Endian.big b := by
  unfold encode_float_bits
  simp only
  rw [toUInt32_toInt32 b hb, toUInt32_toInt32 _ (htonl_lt h _ hb), to_memory_htonl h _ hb]

/-- The bit pattern the client decodes is the big-endian value of the four bytes. -/
theorem decode_response_eq (h : Endian) (buf : Bytes4) :
    decode_response h buf = of_memory Endian.big buf := by
  unfold decode_response
  simp only
  rw [toUInt32_toInt32 _ (of_memory_lt h buf), ntohl_of_memory,
    toUInt32_toInt32 _ (of_memory_lt _ buf)]

/-- C8: codec round trip. For every signed 32-bit integer `x`, whatever the byte orders of the
client host `hc` and of the server host `hs`, the server decodes `x` from the four bytes the
client produces with `htonl(x)`, and these bytes are the big-endian two's-complement
representation of `x`; and for every 32-bit pattern `b` of a `float`, the client decodes `b`
from the four bytes the server produces. -/
theorem C8_codec_round_trip (hc hs : Endian) (x : Int) (b : Nat)
    (hx : -2147483648 ≤ x ∧ x < 2147483648) (hb : b < 4294967296) :
    decode_request hs (encode_request hc x) = x ∧
    encode_request hc x = to_memory Endian.big (toUInt32 x) ∧
    decode_response hc (encode_float_bits hs b) = b := by
  refine ⟨?_, encode_request_eq hc x, ?_⟩
  · rw [decode_request_eq, encode_request_eq, of_to_memory _ _ (toUInt32_lt x),
      toInt32_toUInt32 x hx.1 hx.2]
  · rw [decode_response_eq, encode_float_bits_eq hs b hb, of_to_memory _ _ hb]

/-- Witness of C8: the number `-2` sent from a little-endian client to a big-endian server, and
the bit pattern of `2.5f` sent back. -/
theorem C8_codec_round_trip_witness :
    ((-2147483648 : Int) ≤ -2 ∧ (-2 : Int) < 2147483648) ∧ (1075838976 < 4294967296) ∧
    (decode_request Endian.big (encode_request Endian.little (-2)) = -2 ∧
    encode_request Endian.little (-2) = to_memory Endian.big (toUInt32 (-2)) ∧
    decode_response Endian.little (encode_float_bits Endian.big 1075838976) = 1075838976) :=
  ⟨by decide, by decide,
    C8_codec_round_trip Endian.little Endian.big (-2) 1075838976 (by decide) (by decide)⟩

/-! ## Claims on the session -/

theorem read_handler_out_of_range (h : Endian) (numbers_ : List Int) (buf : Bytes4)
    (hbad : ¬ (0 ≤ be_int32 buf ∧ be_int32 buf ≤ 1023)) :
    read_handler h numbers_ false buf = (numbers_, Pending.read, [Effect.read_number]) := by
  unfold read_handler
  rw [decode_request_eq]
  unfold be_int32 at hbad
  simp [hbad]

theorem read_handler_in_range (h : Endian) (numbers_ : List Int) (buf : Bytes4)
    (hok : 0 ≤ be_int32 buf ∧ be_int32 buf ≤ 1023) :
    read_handler h numbers_ false buf =
      ((add_number numbers_ (be_int32 buf)).1,
        Pending.write (encode_response h (add_number numbers_ (be_int32 buf)).2),
        [Effect.add_number (be_int32 buf) (add_number numbers_ (be_int32 buf)).2,
          Effect.async_write (encode_response h (add_number numbers_ (be_int32 buf)).2)]) := by
  unfold read_handler
  rw [decode_request_eq]
  unfold be_int32 at hok ⊢
  simp [hok]

theorem Server.run_append (h : Endian) (a b : List Event) : ∀ s : Server,
    Server.run h s (a ++ b) =
      ((Server.run h (Server.run h s a).1 b).1,
        (Server.run h s a).2 ++ (Server.run h (Server.run h s a).1 b).2) := by
  induction a with
  | nil => intro s; simp [Server.run]
  | cons ev a ih => intro s; simp [Server.run, ih]

theorem written_append (a b : List (Nat × Effect)) : written (a ++ b) = written a ++ written b := by
  induction a with
  | nil => rfl
  | cons x a ih =>
    obtain ⟨sid, e⟩ := x
    cases e <;> simp [written, ih]

theorem list_set_self {α : Type} (l : List α) : ∀ (i : Nat) (x : α), l[i]? = some x →
    l.set i x = l := by
  induction l with
  | nil => intro i x h; simp at h
  | cons a l ih =>
    intro i x h
    cases i with
    | zero => simp at h; simp [h]
    | succ i => simp at h; simp [ih i x h]

theorem Server.step_out_of_range (h : Endian) (s : Server) (sid : Nat) (buf : Bytes4)
    (hbad : ¬ (0 ≤ be_int32 buf ∧ be_int32 buf ≤ 1023)) :
    (Server.step h s (Event.read_done sid false buf)).1 = s ∧
    written (Server.step h s (Event.read_done sid false buf)).2 = [] := by
  simp only [Server.step]
  rw [read_handler_out_of_range h s.numbers_ buf hbad]
  split
  · next hget =>
    simp only [List.map_cons, List.map_nil, written, and_true]
    rw [list_set_self s.sessions sid Pending.read hget]
  · exact ⟨rfl, rfl⟩

/-- C3: a request whose big-endian signed 32-bit decoding lies outside `[0, 1023]` is skipped.
The read handler does not call `add_number`, leaves `numbers_` unchanged, writes nothing, does not
close the session and issues the next read; consequently, on a server with any number of
sessions and for any completions before and after it, the final state and all the responses
written are the same as if that request had never been received. -/
theorem C3_out_of_range_request_skipped (h : Endian) (numbers_ : List Int) (buf : Bytes4)
    (hbad : ¬ (0 ≤ be_int32 buf ∧ be_int32 buf ≤ 1023)) :
    read_handler h numbers_ false buf = (numbers_, Pending.read, [Effect.read_number]) ∧
    ∀ (s : Server) (sid : Nat) (before after : List Event),
      (Server.run h s (before ++ Event.read_done sid false buf :: after)).1
        = (Server.run h s (before ++ after)).1 ∧
      written (Server.run h s (before ++ Event.read_done sid false buf :: after)).2
        = written (Server.run h s (before ++ after)).2 := by
  refine ⟨read_handler_out_of_range h numbers_ buf hbad, ?_⟩
  intro s sid before after
  obtain ⟨h1, h2⟩ := Server.step_out_of_range h (Server.run h s before).1 sid buf hbad
  rw [Server.run_append, Server.run_append]
  simp only [Server.run, h1, written_append, h2, List.nil_append, and_self]

/-- Witness of C3: the request `1024`. -/
theorem C3_out_of_range_request_skipped_witness :
    ¬ (0 ≤ be_int32 (to_memory Endian.big 1024) ∧ be_int32 (to_memory Endian.big 1024) ≤ 1023) ∧
    (read_handler Endian.little [] false (to_memory Endian.big 1024)
        = ([], Pending.read, [Effect.read_number]) ∧
    ∀ (s : Server) (sid : Nat) (before after : List Event),
      (Server.run Endian.little s
          (before ++ Event.read_done sid false (to_memory Endian.big 1024) :: after)).1
        = (Server.run Endian.little s (before ++ after)).1 ∧
      written (Server.run Endian.little s
          (before ++ Event.read_done sid false (to_memory Endian.big 1024) :: after)).2
        = written (Server.run Endian.little s (before ++ after)).2) :=
  ⟨by decide, C3_out_of_range_request_skipped Endian.little [] (to_memory Endian.big 1024)
    (by decide)⟩

/-! ## Claims on the snapshot -/

theorem dump_entry_eq (h : Endian) (x : Int) :
    dump_entry h x = to_memory Endian.big (toUInt32 x) := by
  unfold dump_entry
  simp only
  rw [toUInt32_toInt32 _ (htonl_lt h _ (toUInt32_lt x)), to_memory_htonl h _ (toUInt32_lt x)]

theorem dump_count_eq (h : Endian) (n : Nat) (hn : n < 2147483648) :
    dump_count h n = to_memory h n := by
  unfold dump_count
  simp only
  rw [toUInt32_toInt32 n (by omega)]

theorem be_int32_to_memory (x : Int) (h0 : -2147483648 ≤ x) (h1 : x < 2147483648) :
    be_int32 (to_memory Endian.big (toUInt32 x)) = x := by
  unfold be_int32
  rw [of_to_memory _ _ (toUInt32_lt x), toInt32_toUInt32 x h0 h1]

theorem decode_entries_append (b : Bytes4) (rest : List (Fin 256)) :
    decode_entries (b.toList ++ rest) = be_int32 b :: decode_entries rest := by
  obtain ⟨b0, b1, b2, b3⟩ := b
  rfl

theorem decode_entries_dump (h : Endian) (l : List Int)
    (hr : ∀ v ∈ l, -2147483648 ≤ v ∧ v < 2147483648) :
    decode_entries (l.map (fun num => (dump_entry h num).toList)).flatten = l ∧
    (l.map (fun num => (dump_entry h num).toList)).flatten.length = 4 * l.length := by
  induction l with
  | nil => exact ⟨rfl, rfl⟩
  | cons a l ih =>
    have ha := hr a (List.mem_cons_self a l)
    have hl := ih (fun v hv => hr v (List.mem_cons_of_mem a hv))
    rw [List.map_cons, List.flatten_cons, decode_entries_append, List.length_append, hl.1, hl.2,
      dump_entry_eq, be_int32_to_memory a ha.1 ha.2]
    refine ⟨rfl, ?_⟩
    simp only [Bytes4.toList, List.length_cons, List.length_nil]
    ring

/-- C6: a snapshot is self-consistent. For every state of the set (an ascending list of `int`
values; fewer than `2^31` of them, as in every reachable state), when the dump file opens, the
bytes written are the four bytes of the `int32_t count` as they are in the memory of the host,
where `count` is the number of members, followed by exactly four bytes per member (`4 + 4 * count`
bytes in all), and the entries, each decoded as a big-endian signed 32-bit integer, are exactly
the members of the set, each once, in strictly ascending order. -/
theorem C6_snapshot_self_consistent (h : Endian) (numbers_ : List Int)
    (hs : numbers_.Sorted (· < ·))
    (hr : ∀ v ∈ numbers_, -2147483648 ≤ v ∧ v < 2147483648)
    (hlen : numbers_.length < 2147483648) :
    ∃ entries : List (Fin 256),
      create_dump h numbers_ true = some ((to_memory h numbers_.length).toList ++ entries) ∧
      of_memory h (to_memory h numbers_.length) = numbers_.length ∧
      entries.length = 4 * numbers_.length ∧
      ((to_memory h numbers_.length).toList ++ entries).length = 4 + 4 * numbers_.length ∧
      decode_entries entries = numbers_ ∧
      (decode_entries entries).Sorted (· < ·) ∧ (decode_entries entries).Nodup := by
  obtain ⟨h1, h2⟩ := decode_entries_dump h numbers_ hr
  refine ⟨(numbers_.map (fun num => (dump_entry h num).toList)).flatten, ?_, ?_, h2, ?_, h1, ?_, ?_⟩
  · unfold create_dump
    simp only [if_true]
    rw [dump_count_eq h _ hlen]
  · exact of_to_memory h _ (by omega)
  · rw [List.length_append, h2]; rfl
  · rw [h1]; exact hs
  · rw [h1]; exact hs.nodup

/-- Witness of C6: the set `{1, 2, 1023}` on a little-endian host. -/
theorem C6_snapshot_self_consistent_witness :
    (([1, 2, 1023] : List Int).Sorted (· < ·) ∧
      (∀ v ∈ ([1, 2, 1023] : List Int), -2147483648 ≤ v ∧ v < 2147483648) ∧
      ([1, 2, 1023] : List Int).length < 2147483648) ∧
    ∃ entries : List (Fin 256),
      create_dump Endian.little [1, 2, 1023] true
        = some ((to_memory Endian.little ([1, 2, 1023] : List Int).length).toList ++ entries) ∧
      of_memory Endian.little (to_memory Endian.little ([1, 2, 1023] : List Int).length)
        = ([1, 2, 1023] : List Int).length ∧
      entries.length = 4 * ([1, 2, 1023] : List Int).length ∧
      ((to_memory Endian.little ([1, 2, 1023] : List Int).length).toList ++ entries).length
        = 4 + 4 * ([1, 2, 1023] : List Int).length ∧
      decode_entries entries = [1, 2, 1023] ∧
      (decode_entries entries).Sorted (· < ·) ∧ (decode_entries entries).Nodup :=
  ⟨⟨by decide, by decide, by decide⟩,
    C6_snapshot_self_consistent Endian.little [1, 2, 1023] (by decide) (by decide) (by decide)⟩

/-- C7 fails on the code: on a little-endian host the count field of the dump of the set `{7}`
is `01 00 00 00`, the bytes of `count` as they are in memory, while the big-endian
representation of `1`, which `htonl` gives to the entry that follows, is `00 00 00 01`. -/
theorem C7_count_written_in_host_order :
    create_dump Endian.little [7] true = some [1, 0, 0, 0, 0, 0, 0, 7] ∧
    (to_memory Endian.big 1).toList = [0, 0, 0, 1] ∧
    (create_dump Endian.little [7] true).map (List.take 4)
      ≠ some (to_memory Endian.big ([7] : List Int).length).toList := by
  decide

/-- On a big-endian host, and only there, the count field is big-endian. -/
theorem dump_count_big_endian (n : Nat) (hn : n < 2147483648) :
    dump_count Endian.big n = to_memory Endian.big n :=
  dump_count_eq Endian.big n hn

/-! ## Invariant of the reachable states -/

theorem Valid.set_insert (numbers_ : List Int) (v : Int) (hv : Valid numbers_) (h0 : 0 ≤ v)
    (h1 : v ≤ 1023) : Valid (set_insert v numbers_) := by
  refine ⟨set_insert_sorted v numbers_ hv.1, ?_⟩
  intro x hx
  rcases (mem_set_insert v x numbers_).mp hx with hx | hx
  · rw [hx]; exact ⟨h0, h1⟩
  · exact hv.2 x hx

theorem add_number_bounded (numbers_ : List Int) (v : Int) (hv : Valid numbers_) (h0 : 0 ≤ v)
    (h1 : v ≤ 1023) : Effect.bounded (Effect.add_number v (add_number numbers_ v).2) := by
  have hval := Valid.set_insert numbers_ v hv h0 h1
  have hb := mean_of_squares_bounds (set_insert v numbers_) (set_insert_ne_nil v numbers_)
    hval.1 hval.2
  have hf := roundFloat_bounds (mean_of_squares (set_insert v numbers_)) hb.1 hb.2
  exact ⟨h0, h1, hb.1, hb.2, hf.1, hf.2⟩

theorem read_handler_valid (h : Endian) (numbers_ : List Int) (ec : Bool) (buf : Bytes4)
    (hv : Valid numbers_) :
    Valid (read_handler h numbers_ ec buf).1 ∧
    ∀ e ∈ (read_handler h numbers_ ec buf).2.2, Effect.bounded e := by
  unfold read_handler
  cases ec
  · by_cases hok : 0 ≤ decode_request h buf ∧ decode_request h buf ≤ 1023
    · simp only [Bool.not_false, if_true, if_pos hok]
      refine ⟨Valid.set_insert numbers_ _ hv hok.1 hok.2, ?_⟩
      intro e he
      rcases List.mem_cons.mp he with he | he
      · rw [he]; exact add_number_bounded numbers_ _ hv hok.1 hok.2
      · rw [List.mem_singleton.mp he]; trivial
    · simp only [Bool.not_false, if_true, if_neg hok]
      refine ⟨hv, ?_⟩
      intro e he
      rw [List.mem_singleton.mp he]; trivial
  · simp only [Bool.not_true, Bool.false_eq_true, if_false]
    refine ⟨hv, ?_⟩
    intro e he
    rw [List.mem_singleton.mp he]; trivial

theorem write_handler_bounded (ec : Bool) : ∀ e ∈ (write_handler ec).2, Effect.bounded e := by
  intro e he
  cases ec <;> simp [write_handler] at he <;> rw [he] <;> trivial

theorem Server.step_valid (h : Endian) (s : Server) (ev : Event) (hv : Valid s.numbers_) :
    Valid (Server.step h s ev).1.numbers_ ∧
    ∀ x ∈ (Server.step h s ev).2, Effect.bounded x.2 := by
  cases ev with
  | accept error =>
    cases error
    · refine ⟨hv, ?_⟩
      intro x hx
      simp [Server.step] at hx
      rw [hx]; trivial
    · exact ⟨hv, by intro x hx; simp [Server.step] at hx⟩
  | read_done sid ec buf =>
    simp only [Server.step]
    split
    · obtain ⟨h1, h2⟩ := read_handler_valid h s.numbers_ ec buf hv
      refine ⟨h1, ?_⟩
      intro x hx
      obtain ⟨e, he, rfl⟩ := List.mem_map.mp hx
      exact h2 e he
    · exact ⟨hv, by intro x hx; simp at hx⟩
  | write_done sid ec =>
    simp only [Server.step]
    split
    · refine ⟨hv, ?_⟩
      intro x hx
      obtain ⟨e, he, rfl⟩ := List.mem_map.mp hx
      exact write_handler_bounded ec e he
    · exact ⟨hv, by intro x hx; simp at hx⟩

theorem Server.run_valid (h : Endian) (evs : List Event) : ∀ s : Server, Valid s.numbers_ →
    Valid (Server.run h s evs).1.numbers_ ∧
    ∀ x ∈ (Server.run h s evs).2, Effect.bounded x.2 := by
  induction evs with
  | nil => intro s hv; exact ⟨hv, by intro x hx; simp [Server.run] at hx⟩
  | cons ev evs ih =>
    intro s hv
    obtain ⟨h1, h2⟩ := Server.step_valid h s ev hv
    obtain ⟨h3, h4⟩ := ih (Server.step h s ev).1 h1
    refine ⟨h3, ?_⟩
    intro x hx
    simp only [Server.run] at hx
    rcases List.mem_append.mp hx with hx | hx
    · exact h2 x hx
    · exact h4 x hx

theorem Valid.take (l : List Int) (k : Nat) (hv : Valid l) : Valid (l.take k) :=
  ⟨hv.1.sublist (List.take_sublist k l), fun v hm => hv.2 v (List.mem_of_mem_take hm)⟩

theorem sumsq_lt_of_valid (l : List Int) (hv : Valid l) : sumsq l < 2 ^ 53 := by
  have h1 := sumsq_le l hv.2
  have h2 : (l.length : Int) ≤ 1024 := by exact_mod_cast length_le_of_sorted l hv.1 hv.2
  norm_num; linarith

/-- C9: every response is `≥ 0`. In every state reachable from the empty set through the
completion handlers (any sequence of completions, with valid or invalid requests, on any number
of sessions), every member of `numbers_` lies in `[0, 1023]` and the set has at most 1024
members; in a call of `add_number` with a number of `[0, 1023]` each product `num * num` is at
most `1046529` and does not overflow 32 bits, the accumulated sum is exact and stays below `2^53`
after every iteration, and the value returned is `≥ 0` and at most `1046529`, as is the `float`
sent; and every call of `add_number` the handlers made on the way was within these bounds. -/
theorem C9_responses_nonneg (h : Endian) (evs : List Event) (number : Int)
    (hnum : 0 ≤ number ∧ number ≤ 1023) :
    (∀ v ∈ (Server.run h Server.init evs).1.numbers_, 0 ≤ v ∧ v ≤ 1023) ∧
    (Server.run h Server.init evs).1.numbers_.length ≤ 1024 ∧
    (∀ num ∈ (add_number (Server.run h Server.init evs).1.numbers_ number).1,
      0 ≤ num * num ∧ num * num ≤ 1046529 ∧ toInt32 (num * num) = num * num) ∧
    (∀ k : Nat,
      (sum_of_squares ((add_number (Server.run h Server.init evs).1.numbers_ number).1.take k)).toRat
        = (sumsq ((add_number (Server.run h Server.init evs).1.numbers_ number).1.take k) : ℚ) ∧
      sumsq ((add_number (Server.run h Server.init evs).1.numbers_ number).1.take k) < 2 ^ 53) ∧
    0 ≤ (add_number (Server.run h Server.init evs).1.numbers_ number).2.toRat ∧
    (add_number (Server.run h Server.init evs).1.numbers_ number).2.toRat ≤ 1046529 ∧
    0 ≤ (roundFloat (add_number (Server.run h Server.init evs).1.numbers_ number).2.exact).toRat ∧
    (∀ x ∈ (Server.run h Server.init evs).2, Effect.bounded x.2) := by
  have hinit : Valid Server.init.numbers_ := ⟨List.sorted_nil, by intro v hv; simp [Server.init] at hv⟩
  obtain ⟨hv, heff⟩ := Server.run_valid h evs Server.init hinit
  have hval := Valid.set_insert _ number hv hnum.1 hnum.2
  have hb := add_number_bounded _ number hv hnum.1 hnum.2
  refine ⟨hv.2, length_le_of_sorted _ hv.1 hv.2, ?_, ?_, hb.2.2.1, hb.2.2.2.1, hb.2.2.2.2.1, heff⟩
  · intro num hmem
    have hr := hval.2 num hmem
    have h1 : 0 ≤ num * num := mul_nonneg hr.1 hr.1
    have h2 : num * num ≤ 1046529 := by nlinarith
    refine ⟨h1, h2, ?_⟩
    unfold toInt32; omega
  · intro k
    have hk := Valid.take _ k hval
    have hlt := sumsq_lt_of_valid _ hk
    exact ⟨sum_of_squares_exact _ hk.2 hlt, hlt⟩

/-- Witness of C9: a session that sent `3`, and a call with `5`. -/
theorem C9_responses_nonneg_witness :
    ((0 : Int) ≤ 5 ∧ (5 : Int) ≤ 1023) ∧
    ((∀ v ∈ (Server.run Endian.little Server.init
        [Event.accept false, Event.read_done 0 false (to_memory Endian.big 3)]).1.numbers_,
        0 ≤ v ∧ v ≤ 1023) ∧
    (Server.run Endian.little Server.init
      [Event.accept false, Event.read_done 0 false (to_memory Endian.big 3)]).1.numbers_.length
        ≤ 1024 ∧
    (∀ num ∈ (add_number (Server.run Endian.little Server.init
        [Event.accept false, Event.read_done 0 false (to_memory Endian.big 3)]).1.numbers_ 5).1,
      0 ≤ num * num ∧ num * num ≤ 1046529 ∧ toInt32 (num * num) = num * num) ∧
    (∀ k : Nat,
      (sum_of_squares ((add_number (Server.run Endian.little Server.init
        [Event.accept false, Event.read_done 0 false (to_memory Endian.big 3)]).1.numbers_
          5).1.take k)).toRat
        = (sumsq ((add_number (Server.run Endian.little Server.init
        [Event.accept false, Event.read_done 0 false (to_memory Endian.big 3)]).1.numbers_
          5).1.take k) : ℚ) ∧
      sumsq ((add_number (Server.run Endian.little Server.init
        [Event.accept false, Event.read_done 0 false (to_memory Endian.big 3)]).1.numbers_
          5).1.take k) < 2 ^ 53) ∧
    0 ≤ (add_number (Server.run Endian.little Server.init
        [Event.accept false, Event.read_done 0 false (to_memory Endian.big 3)]).1.numbers_
          5).2.toRat ∧
    (add_number (Server.run Endian.little Server.init
        [Event.accept false, Event.read_done 0 false (to_memory Endian.big 3)]).1.numbers_
          5).2.toRat ≤ 1046529 ∧
    0 ≤ (roundFloat (add_number (Server.run Endian.little Server.init
        [Event.accept false, Event.read_done 0 false (to_memory Endian.big 3)]).1.numbers_
          5).2.exact).toRat ∧
    (∀ x ∈ (Server.run Endian.little Server.init
        [Event.accept false, Event.read_done 0 false (to_memory Endian.big 3)]).2,
        Effect.bounded x.2)) :=
  ⟨by decide, C9_responses_nonneg Endian.little
    [Event.accept false, Event.read_done 0 false (to_memory Endian.big 3)] 5 (by decide)⟩

/-- In every reachable state of the server the dump is self-consistent: the hypotheses of C6 on
the set hold there. -/
theorem create_dump_reachable (h : Endian) (evs : List Event) :
    ∃ entries : List (Fin 256),
      create_dump h (Server.run h Server.init evs).1.numbers_ true
        = some ((to_memory h (Server.run h Server.init evs).1.numbers_.length).toList
            ++ entries) ∧
      entries.length = 4 * (Server.run h Server.init evs).1.numbers_.length ∧
      decode_entries entries = (Server.run h Server.init evs).1.numbers_ := by
  have hinit : Valid Server.init.numbers_ :=
    ⟨List.sorted_nil, by intro v hv; simp [Server.init] at hv⟩
  obtain ⟨hv, _⟩ := Server.run_valid h evs Server.init hinit
  have hlen := length_le_of_sorted _ hv.1 hv.2
  have hr : ∀ v ∈ (Server.run h Server.init evs).1.numbers_,
      -2147483648 ≤ v ∧ v < 2147483648 := by
    intro v hm
    have := hv.2 v hm
    omega
  obtain ⟨h1, h2⟩ := decode_entries_dump h _ hr
  refine ⟨_, ?_, h2, h1⟩
  unfold create_dump
  simp only [if_true]
  rw [dump_count_eq h _ (by omega)]

/-! ## The session against the protocol of the specification -/

/-- In a reachable state the bytes the read handler hands to `async_write` are the response of
the specification, on either host, and they decode to the `float` nearest to the mean. -/
theorem encode_response_spec (h : Endian) (numbers_ : List Int) (v : Int) (hv : Valid numbers_)
    (h0 : 0 ≤ v) (h1 : v ≤ 1023) :
    encode_response h (add_number numbers_ v).2 = spec_response (add_number numbers_ v).2 ∧
    is_response_to (add_number numbers_ v).2 (spec_response (add_number numbers_ v).2) := by
  obtain ⟨-, -, hb0, hb1, -, -⟩ := add_number_bounded numbers_ v hv h0 h1
  obtain ⟨hval, hlt⟩ := float_bits_roundFloat (add_number numbers_ v).2 hb0 hb1
  refine ⟨?_, ?_⟩
  · unfold encode_response spec_response
    exact encode_float_bits_eq h _ hlt
  · intro M E hM hE
    unfold spec_response
    rw [of_to_memory _ _ hlt, hval]
    have hd := Fp.exact_den_pos (add_number numbers_ v).2
    have hnum := Frac.num_nonneg_of_toRat_nonneg (add_number numbers_ v).2.exact hd
      (by rw [Fp.exact_toRat]; exact hb0)
    have := roundTo_nearest 24 (-149) (add_number numbers_ v).2.exact (by norm_num) hnum hd M E
      hM hE
    rw [Fp.exact_toRat] at this
    exact this

/-- One completion: the handlers of the code do what the state machine of the specification
does. -/
theorem Server.step_eq_protocol (h : Endian) (s : Server) (ev : Event) (hv : Valid s.numbers_) :
    Server.step h s ev = Protocol.step s ev := by
  cases ev with
  | accept error => cases error <;> rfl
  | read_done sid ec buf =>
    simp only [Server.step, Protocol.step]
    split
    · next hget =>
      cases ec
      · by_cases hok : 0 ≤ be_int32 buf ∧ be_int32 buf ≤ 1023
        · rw [read_handler_in_range h s.numbers_ buf hok,
            (encode_response_spec h s.numbers_ _ hv hok.1 hok.2).1]
          simp [hok]
        · rw [read_handler_out_of_range h s.numbers_ buf hok,
            list_set_self s.sessions sid Pending.read hget]
          simp [hok]
      · simp [read_handler]
    · rfl
  | write_done sid ec =>
    simp only [Server.step, Protocol.step]
    split
    · cases ec <;> simp [write_handler]
    · rfl

/-- Any sequence of completions from a reachable state: the code refines the state machine of
the specification. -/
theorem Server.run_eq_protocol (h : Endian) (evs : List Event) : ∀ s : Server,
    Valid s.numbers_ → Server.run h s evs = Protocol.run s evs := by
  induction evs with
  | nil => intro s _; rfl
  | cons ev evs ih =>
    intro s hv
    have hstep := Server.step_eq_protocol h s ev hv
    have hv' := (Server.step_valid h s ev hv).1
    simp only [Server.run, Protocol.run]
    rw [ih _ hv', hstep]

theorem Protocol.step_keeps_valid (s : Server) (ev : Event) (hv : Valid s.numbers_) :
    Valid (Protocol.step s ev).1.numbers_ := by
  rw [← Server.step_eq_protocol Endian.big s ev hv]
  exact (Server.step_valid Endian.big s ev hv).1

theorem getElem?_set_same {α : Type} (l : List α) (i : Nat) (x y : α) (h : l[i]? = some y) :
    (l.set i x)[i]? = some x := by
  have hlt : i < l.length := by
    by_contra hge
    rw [List.getElem?_eq_none (by omega)] at h
    cases h
  simp [List.getElem?_set, hlt]

theorem getElem?_set_other {α : Type} (l : List α) (i j : Nat) (x : α) (h : i ≠ j) :
    (l.set i x)[j]? = l[j]? := by
  simp [List.getElem?_set, h]

theorem getElem?_append_one_same {α : Type} (l : List α) (x : α) :
    (l ++ [x])[l.length]? = some x ∧ l[l.length]? = none := by
  simp

theorem getElem?_append_one_other {α : Type} (l : List α) (x : α) (j : Nat)
    (h : l.length ≠ j) : (l ++ [x])[j]? = l[j]? := by
  rcases Nat.lt_or_gt_of_ne h with hlt | hgt
  · rw [List.getElem?_eq_none (by simp; omega), List.getElem?_eq_none (by omega)]
  · exact List.getElem?_append_left hgt

theorem ordered_nil (o : Option Pending) : ordered (phase_of o) [] := by
  rcases o with _ | p
  · simp [phase_of, ordered]
  · cases p <;> simp [phase_of, ordered]

theorem session_effects_append (sid : Nat) (a b : List (Nat × Effect)) :
    session_effects sid (a ++ b) = session_effects sid a ++ session_effects sid b := by
  simp [session_effects, List.filterMap_append]

theorem session_effects_same (sid : Nat) (e : Effect) (t : List (Nat × Effect)) :
    session_effects sid ((sid, e) :: t) = e :: session_effects sid t := by
  simp [session_effects, List.filterMap_cons]

theorem session_effects_other (sid sid' : Nat) (e : Effect) (t : List (Nat × Effect))
    (h : sid' ≠ sid) : session_effects sid ((sid', e) :: t) = session_effects sid t := by
  simp [session_effects, List.filterMap_cons, h]

theorem session_effects_nil (sid : Nat) : session_effects sid [] = [] := rfl

theorem Protocol.step_read_in_range (s : Server) (sid : Nat) (buf : Bytes4)
    (hget : s.sessions[sid]? = some Pending.read)
    (hok : 0 ≤ be_int32 buf ∧ be_int32 buf ≤ 1023) :
    Protocol.step s (Event.read_done sid false buf) =
      (⟨(add_number s.numbers_ (be_int32 buf)).1,
          s.sessions.set sid
            (Pending.write (spec_response (add_number s.numbers_ (be_int32 buf)).2))⟩,
        [(sid, Effect.add_number (be_int32 buf) (add_number s.numbers_ (be_int32 buf)).2),
          (sid, Effect.async_write (spec_response (add_number s.numbers_ (be_int32 buf)).2))]) := by
  simp only [Protocol.step, hget, Bool.false_eq_true, if_false, if_pos hok]

theorem Protocol.step_read_out_of_range (s : Server) (sid : Nat) (buf : Bytes4)
    (hget : s.sessions[sid]? = some Pending.read)
    (hbad : ¬ (0 ≤ be_int32 buf ∧ be_int32 buf ≤ 1023)) :
    Protocol.step s (Event.read_done sid false buf) = (s, [(sid, Effect.read_number)]) := by
  simp only [Protocol.step, hget, Bool.false_eq_true, if_false, if_neg hbad]

theorem Protocol.step_read_error (s : Server) (sid : Nat) (buf : Bytes4)
    (hget : s.sessions[sid]? = some Pending.read) :
    Protocol.step s (Event.read_done sid true buf) =
      (⟨s.numbers_, s.sessions.set sid Pending.closed⟩, [(sid, Effect.handle_error)]) := by
  simp only [Protocol.step, hget, if_true]

theorem Protocol.step_read_ignored (s : Server) (sid : Nat) (ec : Bool) (buf : Bytes4)
    (hget : s.sessions[sid]? ≠ some Pending.read) :
    Protocol.step s (Event.read_done sid ec buf) = (s, []) := by
  simp only [Protocol.step]

theorem Protocol.step_write_done (s : Server) (sid : Nat) (data : Bytes4)
    (hget : s.sessions[sid]? = some (Pending.write data)) :
    Protocol.step s (Event.write_done sid false) =
      (⟨s.numbers_, s.sessions.set sid Pending.read⟩, [(sid, Effect.read_number)]) := by
  simp only [Protocol.step, hget, Bool.false_eq_true, if_false]

theorem Protocol.step_write_error (s : Server) (sid : Nat) (data : Bytes4)
    (hget : s.sessions[sid]? = some (Pending.write data)) :
    Protocol.step s (Event.write_done sid true) =
      (⟨s.numbers_, s.sessions.set sid Pending.closed⟩, [(sid, Effect.handle_error)]) := by
  simp only [Protocol.step, hget, if_true]

theorem Protocol.step_write_ignored (s : Server) (sid : Nat) (ec : Bool)
    (hget : ∀ data, s.sessions[sid]? ≠ some (Pending.write data)) :
    Protocol.step s (Event.write_done sid ec) = (s, []) := by
  simp only [Protocol.step]

theorem Protocol.step_accept (s : Server) :
    Protocol.step s (Event.accept false) =
      (⟨s.numbers_, s.sessions ++ [Pending.read]⟩, [(s.sessions.length, Effect.read_number)]) :=
  rfl

/-- The shapes a completion can take: it is ignored, or it moves one session by one of the
transitions of the state machine. -/
theorem Protocol.step_cases (s : Server) (ev : Event) :
    Protocol.step s ev = (s, []) ∨
    Protocol.step s ev =
      (⟨s.numbers_, s.sessions ++ [Pending.read]⟩, [(s.sessions.length, Effect.read_number)]) ∨
    (∃ sid, s.sessions[sid]? = some Pending.read ∧
      Protocol.step s ev = (s, [(sid, Effect.read_number)])) ∨
    (∃ sid v, s.sessions[sid]? = some Pending.read ∧ (0 ≤ v ∧ v ≤ 1023) ∧
      Protocol.step s ev =
        (⟨(add_number s.numbers_ v).1,
            s.sessions.set sid (Pending.write (spec_response (add_number s.numbers_ v).2))⟩,
          [(sid, Effect.add_number v (add_number s.numbers_ v).2),
            (sid, Effect.async_write (spec_response (add_number s.numbers_ v).2))])) ∨
    (∃ sid data, s.sessions[sid]? = some (Pending.write data) ∧
      Protocol.step s ev =
        (⟨s.numbers_, s.sessions.set sid Pending.read⟩, [(sid, Effect.read_number)])) ∨
    (∃ sid p, s.sessions[sid]? = some p ∧ p ≠ Pending.closed ∧
      Protocol.step s ev =
        (⟨s.numbers_, s.sessions.set sid Pending.closed⟩, [(sid, Effect.handle_error)])) := by
  cases ev with
  | accept error =>
    cases error
    · exact Or.inr (Or.inl rfl)
    · exact Or.inl rfl
  | read_done sid ec buf =>
    by_cases hget : s.sessions[sid]? = some Pending.read
    · cases ec
      · by_cases hok : 0 ≤ be_int32 buf ∧ be_int32 buf ≤ 1023
        · exact Or.inr (Or.inr (Or.inr (Or.inl
            ⟨sid, be_int32 buf, hget, hok, Protocol.step_read_in_range s sid buf hget hok⟩)))
        · exact Or.inr (Or.inr (Or.inl
            ⟨sid, hget, Protocol.step_read_out_of_range s sid buf hget hok⟩))
      · exact Or.inr (Or.inr (Or.inr (Or.inr (Or.inr
          ⟨sid, Pending.read, hget, by simp, Protocol.step_read_error s sid buf hget⟩))))
    · exact Or.inl (Protocol.step_read_ignored s sid ec buf hget)
  | write_done sid ec =>
    by_cases hget : ∃ data, s.sessions[sid]? = some (Pending.write data)
    · obtain ⟨data, hget⟩ := hget
      cases ec
      · exact Or.inr (Or.inr (Or.inr (Or.inr (Or.inl
          ⟨sid, data, hget, Protocol.step_write_done s sid data hget⟩))))
      · exact Or.inr (Or.inr (Or.inr (Or.inr (Or.inr
          ⟨sid, Pending.write data, hget, by simp, Protocol.step_write_error s sid data hget⟩))))
    · exact Or.inl (Protocol.step_write_ignored s sid ec (fun data h => hget ⟨data, h⟩))

/-- One completion keeps the effects of every session ordered. -/
theorem Protocol.step_ordered (s : Server) (ev : Event) (sid : Nat) (rest : List Effect)
    (hv : Valid s.numbers_)
    (hrest : ordered (phase_of (Protocol.step s ev).1.sessions[sid]?) rest) :
    ordered (phase_of s.sessions[sid]?) (session_effects sid (Protocol.step s ev).2 ++ rest) := by
  rcases Protocol.step_cases s ev with h | h | ⟨sid', hget, h⟩ | ⟨sid', v, hget, hok, h⟩ |
    ⟨sid', data, hget, h⟩ | ⟨sid', p, hget, hp, h⟩
  · rw [h] at hrest ⊢
    exact hrest
  · rw [h] at hrest ⊢
    by_cases hsid : s.sessions.length = sid
    · subst hsid
      simp only [(getElem?_append_one_same s.sessions Pending.read).1] at hrest
      rw [(getElem?_append_one_same s.sessions Pending.read).2]
      simp only [session_effects_same, session_effects_nil]
      simpa [phase_of, ordered] using hrest
    · simp only [getElem?_append_one_other _ _ _ hsid] at hrest
      simp only [session_effects_other _ _ _ _ hsid, session_effects_nil]
      exact hrest
  · rw [h] at hrest ⊢
    by_cases hsid : sid' = sid
    · subst hsid
      simp only [hget] at hrest ⊢
      simp only [session_effects_same, session_effects_nil]
      simpa [phase_of, ordered] using hrest
    · simp only [session_effects_other _ _ _ _ hsid, session_effects_nil]
      exact hrest
  · rw [h] at hrest ⊢
    by_cases hsid : sid' = sid
    · subst hsid
      simp only [getElem?_set_same _ _ _ _ hget] at hrest
      simp only [hget, session_effects_same, session_effects_nil]
      have hresp := (encode_response_spec Endian.big s.numbers_ v hv hok.1 hok.2).2
      simp only [phase_of, ordered, List.cons_append, List.nil_append] at hrest ⊢
      exact ⟨hok, ⟨hresp, trivial⟩, hrest⟩
    · simp only [getElem?_set_other _ _ _ _ hsid] at hrest
      simp only [session_effects_other _ _ _ _ hsid, session_effects_nil]
      exact hrest
  · rw [h] at hrest ⊢
    by_cases hsid : sid' = sid
    · subst hsid
      simp only [getElem?_set_same _ _ _ _ hget] at hrest
      simp only [hget, session_effects_same, session_effects_nil]
      simpa [phase_of, ordered] using hrest
    · simp only [getElem?_set_other _ _ _ _ hsid] at hrest
      simp only [session_effects_other _ _ _ _ hsid, session_effects_nil]
      exact hrest
  · rw [h] at hrest ⊢
    by_cases hsid : sid' = sid
    · subst hsid
      simp only [getElem?_set_same _ _ _ _ hget] at hrest
      simp only [hget, session_effects_same, session_effects_nil]
      cases p with
      | read => simpa [phase_of, ordered] using hrest
      | write data => simpa [phase_of, ordered] using hrest
      | closed => exact absurd rfl hp
    · simp only [getElem?_set_other _ _ _ _ hsid] at hrest
      simp only [session_effects_other _ _ _ _ hsid, session_effects_nil]
      exact hrest

/-- Any sequence of completions from a reachable state keeps the effects of every session
ordered. -/
theorem Protocol.run_ordered (evs : List Event) (sid : Nat) : ∀ s : Server, Valid s.numbers_ →
    ordered (phase_of s.sessions[sid]?) (session_effects sid (Protocol.run s evs).2) := by
  induction evs with
  | nil => intro s _; exact ordered_nil _
  | cons ev evs ih =>
    intro s hv
    simp only [Protocol.run, session_effects_append]
    exact Protocol.step_ordered s ev sid _ hv (ih _ (Protocol.step_keeps_valid s ev hv))

/-- Every call of `add_number` in a run returned the value of `add_number` on the shared set
as the previous calls, of all the sessions, left it. -/
theorem Protocol.run_means_ok (evs : List Event) : ∀ s : Server,
    means_ok s.numbers_ (Protocol.run s evs).2 := by
  induction evs with
  | nil => intro s; simp [Protocol.run, means_ok]
  | cons ev evs ih =>
    intro s
    have hih := ih (Protocol.step s ev).1
    simp only [Protocol.run]
    rcases Protocol.step_cases s ev with h | h | ⟨sid, -, h⟩ | ⟨sid, v, -, -, h⟩ |
      ⟨sid, data, -, h⟩ | ⟨sid, p, -, -, h⟩
    all_goals rw [h] at hih ⊢
    all_goals simpa [means_ok] using hih

theorem responses_of_append (sid : Nat) (a b : List (Nat × Effect)) :
    responses_of sid (a ++ b) = responses_of sid a ++ responses_of sid b := by
  simp [responses_of, written_append, List.filterMap_append]

theorem requests_of_session_events (sid : Nat) (reqs : List Bytes4) :
    requests_of sid (session_events sid reqs) = reqs := by
  induction reqs with
  | nil => rfl
  | cons buf reqs ih =>
    by_cases hok : 0 ≤ be_int32 buf ∧ be_int32 buf ≤ 1023
    · rw [session_events, if_pos hok]
      simp only [requests_of, if_true, ih]
    · rw [session_events, if_neg hok]
      simp only [requests_of, if_true, ih]

/-- A session served alone: its responses are one per in-range request, in order, each the
response to `add_number` on the set left by its previous requests. -/
theorem Protocol.run_session_events (sid : Nat) (reqs : List Bytes4) : ∀ s : Server,
    s.sessions[sid]? = some Pending.read →
    responses_of sid (Protocol.run s (session_events sid reqs)).2
      = expected_responses s.numbers_ (in_range_values reqs) := by
  induction reqs with
  | nil => intro s _; rfl
  | cons buf reqs ih =>
    intro s hget
    by_cases hok : 0 ≤ be_int32 buf ∧ be_int32 buf ≤ 1023
    · have h1 := Protocol.step_read_in_range s sid buf hget hok
      have hget1 := getElem?_set_same s.sessions sid
        (Pending.write (spec_response (add_number s.numbers_ (be_int32 buf)).2)) _ hget
      have h2 := Protocol.step_write_done
        ⟨(add_number s.numbers_ (be_int32 buf)).1, s.sessions.set sid
          (Pending.write (spec_response (add_number s.numbers_ (be_int32 buf)).2))⟩ sid _ hget1
      have hget2 := getElem?_set_same (s.sessions.set sid
        (Pending.write (spec_response (add_number s.numbers_ (be_int32 buf)).2))) sid
        Pending.read _ hget1
      have hih := ih ⟨(add_number s.numbers_ (be_int32 buf)).1, (s.sessions.set sid
        (Pending.write (spec_response (add_number s.numbers_ (be_int32 buf)).2))).set sid
          Pending.read⟩ hget2
      rw [session_events, if_pos hok, in_range_values, if_pos hok, expected_responses]
      simp only [Protocol.run, h1, h2, responses_of_append, hih]
      simp [responses_of, written]
    · have h1 := Protocol.step_read_out_of_range s sid buf hget hok
      rw [session_events, if_neg hok, in_range_values, if_neg hok]
      simp only [Protocol.run, h1, responses_of_append, ih s hget]
      simp [responses_of, written]

/-- While the write of a session is outstanding, no completion but that of this write makes the
session do anything: it starts no read and calls nothing, and it keeps waiting for the write. -/
theorem Protocol.step_while_sending (s : Server) (sid : Nat) (data : Bytes4) (ev : Event)
    (hget : s.sessions[sid]? = some (Pending.write data))
    (hev : ∀ ec, ev ≠ Event.write_done sid ec) :
    session_effects sid (Protocol.step s ev).2 = [] ∧
    (Protocol.step s ev).1.sessions[sid]? = some (Pending.write data) := by
  cases ev with
  | accept error =>
    cases error
    · have hne : s.sessions.length ≠ sid := by
        intro hsid
        rw [← hsid, (getElem?_append_one_same s.sessions Pending.read).2] at hget
        cases hget
      rw [Protocol.step_accept]
      exact ⟨by rw [session_effects_other _ _ _ _ hne, session_effects_nil],
        by simp only [getElem?_append_one_other _ _ _ hne, hget]⟩
    · exact ⟨rfl, hget⟩
  | read_done sid' ec buf =>
    by_cases hget' : s.sessions[sid']? = some Pending.read
    · have hne : sid' ≠ sid := by
        intro hsid
        rw [hsid, hget] at hget'
        cases hget'
      cases ec
      · by_cases hok : 0 ≤ be_int32 buf ∧ be_int32 buf ≤ 1023
        · rw [Protocol.step_read_in_range s sid' buf hget' hok]
          exact ⟨by rw [session_effects_other _ _ _ _ hne, session_effects_other _ _ _ _ hne,
            session_effects_nil], by simp only [getElem?_set_other _ _ _ _ hne, hget]⟩
        · rw [Protocol.step_read_out_of_range s sid' buf hget' hok]
          exact ⟨by rw [session_effects_other _ _ _ _ hne, session_effects_nil], hget⟩
      · rw [Protocol.step_read_error s sid' buf hget']
        exact ⟨by rw [session_effects_other _ _ _ _ hne, session_effects_nil],
          by simp only [getElem?_set_other _ _ _ _ hne, hget]⟩
    · rw [Protocol.step_read_ignored s sid' ec buf hget']
      exact ⟨rfl, hget⟩
  | write_done sid' ec =>
    have hne : sid' ≠ sid := by
      intro hsid
      exact hev ec (by rw [hsid])
    by_cases hget' : ∃ data', s.sessions[sid']? = some (Pending.write data')
    · obtain ⟨data', hget'⟩ := hget'
      cases ec
      · rw [Protocol.step_write_done s sid' data' hget']
        exact ⟨by rw [session_effects_other _ _ _ _ hne, session_effects_nil],
          by simp only [getElem?_set_other _ _ _ _ hne, hget]⟩
      · rw [Protocol.step_write_error s sid' data' hget']
        exact ⟨by rw [session_effects_other _ _ _ _ hne, session_effects_nil],
          by simp only [getElem?_set_other _ _ _ _ hne, hget]⟩
    · rw [Protocol.step_write_ignored s sid' ec (fun d hd => hget' ⟨d, hd⟩)]
      exact ⟨rfl, hget⟩

set_option maxRecDepth 100000 in
theorem add_number_one : add_number [] 1 = ([1], ⟨false, 4503599627370496, -52⟩) := by decide

set_option maxRecDepth 100000 in
theorem add_number_one_again : add_number [1] 1 = ([1], ⟨false, 4503599627370496, -52⟩) := by
  decide

set_option maxRecDepth 100000 in
theorem add_number_two : add_number [1] 2 = ([1, 2], ⟨false, 5629499534213120, -51⟩) := by
  decide

set_option maxRecDepth 100000 in
theorem add_number_one_after_two :
    add_number [1, 2] 1 = ([1, 2], ⟨false, 5629499534213120, -51⟩) := by
  decide

set_option maxRecDepth 100000 in
theorem spec_response_one : spec_response ⟨false, 4503599627370496, -52⟩ = ⟨0x3F, 0x80, 0, 0⟩ := by
  decide

set_option maxRecDepth 100000 in
theorem spec_response_five_halves :
    spec_response ⟨false, 5629499534213120, -51⟩ = ⟨0x40, 0x20, 0, 0⟩ := by
  decide

theorem be_int32_one : be_int32 (to_memory Endian.big 1) = 1 := by decide

theorem be_int32_two : be_int32 (to_memory Endian.big 2) = 2 := by decide

theorem be_int32_1024 : be_int32 (to_memory Endian.big 1024) = 1024 := by decide

theorem Server.init_valid : Valid Server.init.numbers_ :=
  ⟨List.sorted_nil, by intro v hv; simp [Server.init] at hv⟩

/-- The run of `two_sessions`: the responses to session 0 are `1.0f` and `2.5f`, the response to
session 1 is `2.5f`. -/
theorem two_sessions_run (h : Endian) :
    written (Server.run h Server.init two_sessions).2 =
      [(0, ⟨0x3F, 0x80, 0, 0⟩), (1, ⟨0x40, 0x20, 0, 0⟩), (0, ⟨0x40, 0x20, 0, 0⟩)] := by
  rw [Server.run_eq_protocol h _ _ Server.init_valid]
  simp [two_sessions, Protocol.run, Protocol.step, Server.init, be_int32_one, be_int32_two,
    add_number_one, add_number_two, add_number_one_after_two, spec_response_one,
    spec_response_five_halves, written]

/-- The scenario of the specification: `1024` then `1` on an empty server yields a single
response, the bytes `3F 80 00 00` of `1.0f`, and leaves the set `1`. -/
theorem skipped_request_scenario (h : Endian) :
    written (Server.run h Server.init
        [Event.accept false, Event.read_done 0 false (to_memory Endian.big 1024),
          Event.read_done 0 false (to_memory Endian.big 1), Event.write_done 0 false]).2
      = [(0, ⟨0x3F, 0x80, 0, 0⟩)] ∧
    (Server.run h Server.init
        [Event.accept false, Event.read_done 0 false (to_memory Endian.big 1024),
          Event.read_done 0 false (to_memory Endian.big 1), Event.write_done 0 false]).1.numbers_
      = [1] := by
  rw [Server.run_eq_protocol h _ _ Server.init_valid]
  simp [Protocol.run, Protocol.step, Server.init, be_int32_one, be_int32_1024,
    add_number_one, spec_response_one, written]

theorem calls_of_append (sid : Nat) (a b : List (Nat × Effect)) :
    calls_of sid (a ++ b) = calls_of sid a ++ calls_of sid b := by
  induction a with
  | nil => rfl
  | cons x a ih =>
    obtain ⟨sid', e⟩ := x
    cases e with
    | add_number v mean =>
      by_cases hsid : sid' = sid
      · simp [calls_of, hsid, ih]
      · simp [calls_of, hsid, ih]
    | async_write data => simpa [calls_of] using ih
    | read_number => simpa [calls_of] using ih
    | handle_error => simpa [calls_of] using ih

/-- One completion from a reachable state: the calls and the responses of a session follow its
in-range requests. -/
theorem Protocol.step_calls (s : Server) (ev : Event) (sid : Nat) :
    (calls_of sid (Protocol.step s ev).2).map Prod.fst
      = in_range_values (requests_of sid (if s.handles ev then [ev] else [])) ∧
    responses_of sid (Protocol.step s ev).2
      = (calls_of sid (Protocol.step s ev).2).map (fun c => spec_response c.2) := by
  cases ev with
  | accept error =>
    cases error
    · rw [Protocol.step_accept]
      simp [calls_of, responses_of, written, Server.handles, requests_of, in_range_values]
    · simp [Protocol.step, calls_of, responses_of, written, Server.handles, requests_of,
        in_range_values]
  | read_done sid' ec buf =>
    by_cases hget : s.sessions[sid']? = some Pending.read
    · have hh : s.handles (Event.read_done sid' ec buf) = true := by
        simp [Server.handles, hget]
      rw [hh, if_pos rfl]
      cases ec
      · by_cases hok : 0 ≤ be_int32 buf ∧ be_int32 buf ≤ 1023
        · rw [Protocol.step_read_in_range s sid' buf hget hok]
          by_cases hsid : sid' = sid
          · simp [calls_of, responses_of, written, requests_of, in_range_values, hsid, hok]
          · simp [calls_of, responses_of, written, requests_of, in_range_values, hsid]
        · rw [Protocol.step_read_out_of_range s sid' buf hget hok]
          by_cases hsid : sid' = sid
          · simp [calls_of, responses_of, written, requests_of, in_range_values, hsid, hok]
          · simp [calls_of, responses_of, written, requests_of, in_range_values, hsid]
      · rw [Protocol.step_read_error s sid' buf hget]
        simp [calls_of, responses_of, written, requests_of, in_range_values]
    · have hh : s.handles (Event.read_done sid' ec buf) = false := by
        simp only [Server.handles]
      rw [hh, Protocol.step_read_ignored s sid' ec buf hget]
      simp [calls_of, responses_of, written, requests_of, in_range_values]
  | write_done sid' ec =>
    by_cases hget : ∃ data, s.sessions[sid']? = some (Pending.write data)
    · obtain ⟨data, hget⟩ := hget
      have hh : s.handles (Event.write_done sid' ec) = true := by
        simp [Server.handles, hget]
      rw [hh, if_pos rfl]
      cases ec
      · rw [Protocol.step_write_done s sid' data hget]
        simp [calls_of, responses_of, written, requests_of, in_range_values]
      · rw [Protocol.step_write_error s sid' data hget]
        simp [calls_of, responses_of, written, requests_of, in_range_values]
    · have hh : s.handles (Event.write_done sid' ec) = false := by
        simp only [Server.handles]
        split
        · next data h => exact absurd ⟨data, h⟩ hget
        · rfl
      rw [hh, Protocol.step_write_ignored s sid' ec (fun d hd => hget ⟨d, hd⟩)]
      simp [calls_of, responses_of, written, requests_of, in_range_values]

theorem requests_of_append (sid : Nat) (a b : List Event) :
    requests_of sid (a ++ b) = requests_of sid a ++ requests_of sid b := by
  induction a with
  | nil => rfl
  | cons ev a ih =>
    cases ev with
    | accept error => simpa [requests_of] using ih
    | read_done sid' ec buf =>
      cases ec
      · by_cases hsid : sid' = sid
        · simp [requests_of, hsid, ih]
        · simp [requests_of, hsid, ih]
      · simpa [requests_of] using ih
    | write_done sid' ec => simpa [requests_of] using ih

theorem in_range_values_append (a b : List Bytes4) :
    in_range_values (a ++ b) = in_range_values a ++ in_range_values b := by
  induction a with
  | nil => rfl
  | cons buf a ih =>
    by_cases hok : 0 ≤ be_int32 buf ∧ be_int32 buf ≤ 1023
    · simp [in_range_values, hok, ih]
    · simp [in_range_values, hok, ih]

theorem Server.handled_cons (h : Endian) (s : Server) (ev : Event) (evs : List Event) :
    Server.handled h s (ev :: evs)
      = (if s.handles ev then [ev] else []) ++ Server.handled h (Server.step h s ev).1 evs := by
  rw [Server.handled]
  split_ifs <;> rfl

/-- Any sequence of completions from a reachable state: the arguments of the calls of
`add_number` of a session are the in-range requests it read, in order, and its responses are the
responses to the values these calls returned, in order. -/
theorem Server.run_calls (h : Endian) (sid : Nat) (evs : List Event) : ∀ s : Server,
    Valid s.numbers_ →
    (calls_of sid (Server.run h s evs).2).map Prod.fst
      = in_range_values (requests_of sid (Server.handled h s evs)) ∧
    responses_of sid (Server.run h s evs).2
      = (calls_of sid (Server.run h s evs).2).map (fun c => spec_response c.2) := by
  induction evs with
  | nil => intro s _; exact ⟨rfl, rfl⟩
  | cons ev evs ih =>
    intro s hv
    have hstep := Server.step_eq_protocol h s ev hv
    have hv' := (Server.step_valid h s ev hv).1
    obtain ⟨ih1, ih2⟩ := ih _ hv'
    obtain ⟨h1, h2⟩ := Protocol.step_calls s ev sid
    rw [Server.handled_cons, requests_of_append, in_range_values_append]
    simp only [Server.run, calls_of_append, responses_of_append, List.map_append, ih1, ih2]
    rw [hstep]
    exact ⟨by rw [h1], by rw [h2]⟩

theorem Server.handled_eq_protocol (h : Endian) (evs : List Event) : ∀ s : Server,
    Valid s.numbers_ → Server.handled h s evs = Protocol.handled s evs := by
  induction evs with
  | nil => intro s _; rfl
  | cons ev evs ih =>
    intro s hv
    have hstep := Server.step_eq_protocol h s ev hv
    have hv' := (Server.step_valid h s ev hv).1
    simp only [Server.handled, Protocol.handled]
    rw [ih _ hv', hstep]

/-- C5: within one connection requests and responses are strictly ordered. For every sequence of
completions delivered to a server started empty, with any number of sessions, on either host:
the handlers of the code do exactly what the session state machine of section 4.3 of the
specification does; the effects of every session are strictly ordered, each call of `add_number`
having its argument in `[0, 1023]` and being immediately followed by exactly one write, of four
bytes that are the big-endian IEEE-754 single-precision pattern of the `float` nearest to the
value the call returned, and a read being started only by a new session, after an out-of-range
request, or after a write; every call of `add_number` returned the value of `add_number` on the
shared set as the previous calls, of all the sessions, left it; for every session the arguments
of its calls are the in-range requests it read without error, in order, and its responses are the
responses to the values these calls returned, in order, so that there is exactly one response per
in-range request and none per out-of-range request; while the write of a session is outstanding,
no completion other than that of this write makes the session start a read or do anything; and
a session that is then served alone, no other session calling `add_number` in between, gets as
`k`-th response the response to `add_number` applied to its `k`-th in-range request on the set
left by the previous ones. The response of a write is the four bytes of `network_result` as they
are when `async_write` is called. -/
theorem C5_requests_and_responses_ordered (h : Endian) (evs : List Event) :
    Server.run h Server.init evs = Protocol.run Server.init evs ∧
    (∀ sid, ordered Phase.absent (session_effects sid (Server.run h Server.init evs).2)) ∧
    means_ok [] (Server.run h Server.init evs).2 ∧
    (∀ sid,
      (calls_of sid (Server.run h Server.init evs).2).map Prod.fst
        = in_range_values (requests_of sid (Server.handled h Server.init evs)) ∧
      responses_of sid (Server.run h Server.init evs).2
        = (calls_of sid (Server.run h Server.init evs).2).map (fun c => spec_response c.2)) ∧
    (∀ sid data ev,
      (Server.run h Server.init evs).1.sessions[sid]? = some (Pending.write data) →
      (∀ ec, ev ≠ Event.write_done sid ec) →
      session_effects sid (Server.step h (Server.run h Server.init evs).1 ev).2 = [] ∧
      (Server.step h (Server.run h Server.init evs).1 ev).1.sessions[sid]?
        = some (Pending.write data)) ∧
    (∀ sid reqs, (Server.run h Server.init evs).1.sessions[sid]? = some Pending.read →
      requests_of sid (session_events sid reqs) = reqs ∧
      responses_of sid
          (Server.run h (Server.run h Server.init evs).1 (session_events sid reqs)).2
        = expected_responses (Server.run h Server.init evs).1.numbers_
            (in_range_values reqs)) := by
  have hinit := Server.init_valid
  have hrun := Server.run_eq_protocol h evs Server.init hinit
  have hv := (Server.run_valid h evs Server.init hinit).1
  refine ⟨hrun, ?_, ?_, ?_, ?_, ?_⟩
  · intro sid
    rw [hrun]
    exact Protocol.run_ordered evs sid Server.init hinit
  · rw [hrun]
    exact Protocol.run_means_ok evs Server.init
  · intro sid
    exact Server.run_calls h sid evs Server.init hinit
  · intro sid data ev hget hev
    rw [Server.step_eq_protocol h _ ev hv]
    exact Protocol.step_while_sending _ sid data ev hget hev
  · intro sid reqs hget
    refine ⟨requests_of_session_events sid reqs, ?_⟩
    rw [Server.run_eq_protocol h _ _ hv]
    exact Protocol.run_session_events sid reqs _ hget

/-- Witness of C5: after the run of `two_sessions` session 1 is waiting for a request; served
alone with the requests `1024` and `1`, it gets the single response `2.5f`, the mean of squares of
the shared set `1, 2`. -/
theorem C5_requests_and_responses_ordered_witness :
    requests_of 1 (session_events 1 [to_memory Endian.big 1024, to_memory Endian.big 1])
      = [to_memory Endian.big 1024, to_memory Endian.big 1] ∧
    responses_of 1
        (Server.run Endian.little (Server.run Endian.little Server.init two_sessions).1
          (session_events 1 [to_memory Endian.big 1024, to_memory Endian.big 1])).2
      = expected_responses (Server.run Endian.little Server.init two_sessions).1.numbers_
          (in_range_values [to_memory Endian.big 1024, to_memory Endian.big 1]) :=
  (C5_requests_and_responses_ordered Endian.little two_sessions).2.2.2.2.2 1
    [to_memory Endian.big 1024, to_memory Endian.big 1]
    (by
      rw [Server.run_eq_protocol Endian.little _ _ Server.init_valid]
      simp [two_sessions, Protocol.run, Protocol.step, Server.init, be_int32_one, be_int32_two,
        add_number_one, add_number_two, add_number_one_after_two, spec_response_one,
        spec_response_five_halves])

/-- The claim as worded fails with two sessions: in the run of `two_sessions` session 0 reads the
requests `1` and `1`; on the set left by its own previous requests both responses would be
`1.0f`, but the second response it gets is `2.5f`, computed on the shared set in which session 1
has put `2`. -/
theorem C5_counterexample :
    requests_of 0 (Server.handled Endian.little Server.init two_sessions)
      = [to_memory Endian.big 1, to_memory Endian.big 1] ∧
    expected_responses []
        (in_range_values (requests_of 0 (Server.handled Endian.little Server.init two_sessions)))
      = [⟨0x3F, 0x80, 0, 0⟩, ⟨0x3F, 0x80, 0, 0⟩] ∧
    responses_of 0 (Server.run Endian.little Server.init two_sessions).2
      = [⟨0x3F, 0x80, 0, 0⟩, ⟨0x40, 0x20, 0, 0⟩] ∧
    responses_of 0 (Server.run Endian.little Server.init two_sessions).2
      ≠ expected_responses []
        (in_range_values (requests_of 0 (Server.handled Endian.little Server.init two_sessions))) := by
  have hreq : requests_of 0 (Server.handled Endian.little Server.init two_sessions)
      = [to_memory Endian.big 1, to_memory Endian.big 1] := by
    rw [Server.handled_eq_protocol Endian.little _ _ Server.init_valid]
    simp [two_sessions, Protocol.handled, Server.handles, Protocol.step, Server.init,
      be_int32_one, be_int32_two, add_number_one, add_number_two, add_number_one_after_two,
      spec_response_one, spec_response_five_halves, requests_of]
  have hexp : expected_responses [] (in_range_values [to_memory Endian.big 1, to_memory Endian.big 1])
      = [⟨0x3F, 0x80, 0, 0⟩, ⟨0x3F, 0x80, 0, 0⟩] := by
    simp [in_range_values, be_int32_one, expected_responses, add_number_one, add_number_one_again,
      spec_response_one]
  have hres : responses_of 0 (Server.run Endian.little Server.init two_sessions).2
      = [⟨0x3F, 0x80, 0, 0⟩, ⟨0x40, 0x20, 0, 0⟩] := by
    simp [responses_of, two_sessions_run]
  rw [hreq, hexp, hres]
  exact ⟨rfl, rfl, rfl, by decide⟩

/-! ## The dump thread -/

theorem enter_for_ne_returned (n i : Int) : enter_for n i ≠ Loc.returned := by
  unfold enter_for
  split_ifs <;> simp

/-- While the flag reads false the thread does not return, and it does not observe a true
read. -/
theorem dump_step_false (n : Int) (loc : Loc) (hloc : loc ≠ Loc.returned) :
    (dump_step n false loc).1 ≠ Loc.returned ∧ Obs.read_flag true ∉ (dump_step n false loc).2 := by
  cases loc with
  | while_cond => simp [dump_step, enter_for_ne_returned]
  | for_cond i => simp [dump_step, enter_for_ne_returned]
  | if_stop => simp [dump_step]
  | returned => exact absurd rfl hloc

/-- From the first read that returns true on, the thread only reads the flag (at most twice) and
returns. -/
theorem dump_run_stopped (n : Int) (flag : Nat → Bool) (fuel t : Nat) (loc : Loc)
    (hloc : loc ≠ Loc.returned) (h1 : flag t = true) (h2 : flag (t + 1) = true) :
    ∃ post, dump_run n flag (fuel + 2) t loc = some (Obs.read_flag true :: post) ∧
      ∀ o ∈ post, o = Obs.read_flag true := by
  cases loc with
  | while_cond => exact ⟨[], by simp [dump_run, dump_step, h1], by simp⟩
  | for_cond i =>
    exact ⟨[Obs.read_flag true], by simp [dump_run, dump_step, h1, h2], by simp⟩
  | if_stop => exact ⟨[], by simp [dump_run, dump_step, h1], by simp⟩
  | returned => exact absurd rfl hloc

theorem dump_run_stops (n : Int) (k : Nat) : ∀ (d t : Nat) (loc : Loc), loc ≠ Loc.returned →
    t + d = k →
    ∃ pre post, dump_run n (fun t => decide (k ≤ t)) (d + 2) t loc
        = some (pre ++ Obs.read_flag true :: post) ∧
      Obs.read_flag true ∉ pre ∧ ∀ o ∈ post, o = Obs.read_flag true := by
  intro d
  induction d with
  | zero =>
    intro t loc hloc ht
    obtain ⟨post, hp1, hp2⟩ := dump_run_stopped n (fun t => decide (k ≤ t)) 0 t loc hloc
      (by simp; omega) (by simp; omega)
    exact ⟨[], post, by simpa using hp1, by simp, hp2⟩
  | succ d ih =>
    intro t loc hloc ht
    have hflag : decide (k ≤ t) = false := by simp; omega
    obtain ⟨hs1, hs2⟩ := dump_step_false n loc hloc
    obtain ⟨pre, post, hr, hpre, hpost⟩ := ih (t + 1) (dump_step n false loc).1 hs1 (by omega)
    refine ⟨(dump_step n false loc).2 ++ pre, post, ?_, ?_, hpost⟩
    · cases loc with
      | returned => exact absurd rfl hloc
      | while_cond =>
        rw [show d + 1 + 2 = (d + 2) + 1 by ring, dump_run]
        · simp only [hflag, hr]; simp
        · intro hc; cases hc
      | for_cond i =>
        rw [show d + 1 + 2 = (d + 2) + 1 by ring, dump_run]
        · simp only [hflag, hr]; simp
        · intro hc; cases hc
      | if_stop =>
        rw [show d + 1 + 2 = (d + 2) + 1 by ring, dump_run]
        · simp only [hflag, hr]; simp
        · intro hc; cases hc
    · intro hmem
      rcases List.mem_append.mp hmem with hm | hm
      · exact hs2 hm
      · exact hpre hm

/-- C10: the snapshot scheduler does not begin a new sleep after stop is requested. For every
dump interval and every sequence of values read from `stop_flag_` that is false for the first `k`
reads and true from then on, `dump_thread_func` returns within `k + 2` reads, and after the first
read that returns true it starts no sleep and does not call `create_dump`: it only reads the flag
again, if at all. If the flag is true from the start, the run is that single read. -/
theorem C10_no_sleep_after_stop (dump_interval_seconds_ : Int) (k : Nat) :
    (∃ pre post,
      dump_thread_func dump_interval_seconds_ (fun t => decide (k ≤ t)) (k + 2)
        = some (pre ++ Obs.read_flag true :: post) ∧
      Obs.read_flag true ∉ pre ∧ Obs.sleep ∉ post ∧ Obs.create_dump ∉ post ∧
      ∀ o ∈ post, o = Obs.read_flag true) ∧
    dump_thread_func dump_interval_seconds_ (fun t => decide (0 ≤ t)) 2
      = some [Obs.read_flag true] := by
  constructor
  · obtain ⟨pre, post, h1, h2, h3⟩ :=
      dump_run_stops dump_interval_seconds_ k k 0 Loc.while_cond (by simp) (by omega)
    refine ⟨pre, post, h1, h2, ?_, ?_, h3⟩
    · intro hm; have := h3 _ hm; simp at this
    · intro hm; have := h3 _ hm; simp at this
  · simp [dump_thread_func, dump_run, dump_step]

/-! ## Atomicity under the mutex -/

theorem Thread.ok_of_not_critical (th : Thread) (n : List Int) (hc : th.critical = false) :
    th.ok n := by
  cases th with
  | add_number v pc => cases pc <;> simp_all [Thread.critical, Thread.ok]
  | create_dump pc => cases pc <;> simp_all [Thread.critical, Thread.ok]

theorem Thread.outcome_of_not_critical (th : Thread) (n n' : List Int)
    (hc : th.critical = false) : th.outcome n' = th.outcome n := by
  cases th with
  | add_number v pc => cases pc <;> simp_all [Thread.critical, Thread.outcome]
  | create_dump pc => cases pc <;> simp_all [Thread.critical, Thread.outcome]

theorem Shared.Inv.others_of_free (jobs : Nat → Option Int) (s : Shared) (t : Nat)
    (hinv : s.Inv jobs) (hfree : s.mutex_ = none) :
    ∀ u, u ≠ t → (s.threads u).critical = false := by
  intro u _
  by_contra hc
  have := (hinv.1 u).mp (by simpa using hc)
  rw [hfree] at this
  exact absurd this (by simp)

theorem Shared.Inv.others_of_critical (jobs : Nat → Option Int) (s : Shared) (t : Nat)
    (hinv : s.Inv jobs) (ht : (s.threads t).critical = true) :
    s.mutex_ = some t ∧ ∀ u, u ≠ t → (s.threads u).critical = false := by
  have hm := (hinv.1 t).mp ht
  refine ⟨hm, ?_⟩
  intro u hut
  by_contra hc
  have := (hinv.1 u).mp (by simpa using hc)
  rw [hm] at this
  exact hut (Option.some.inj this).symm

/-- A step of thread `t` that replaces its control state, while the other threads are out of
their critical sections: the invariant is kept, and in the atomic state only the outcome of `t`
may change. -/
theorem Shared.update_spec (jobs : Nat → Option Int) (s : Shared) (t : Nat) (th : Thread)
    (n : List Int) (m : Option Nat) (hinv : s.Inv jobs)
    (hothers : ∀ u, u ≠ t → (s.threads u).critical = false)
    (hm : (th.critical = true ∧ m = some t) ∨ (th.critical = false ∧ m = none))
    (hok : th.ok n) (hjob : th.job = jobs t) :
    Shared.Inv jobs ⟨n, m, Function.update s.threads t th⟩ ∧
    Shared.abs ⟨n, m, Function.update s.threads t th⟩
      = ⟨n, Function.update s.abs.outcome t (th.outcome n)⟩ := by
  refine ⟨⟨?_, ?_, ?_⟩, ?_⟩
  · intro u
    by_cases hut : u = t
    · subst hut
      simp only [Function.update_same]
      rcases hm with ⟨h1, h2⟩ | ⟨h1, h2⟩
      · simp [h1, h2]
      · simp [h1, h2]
    · simp only [Function.update_noteq hut, hothers u hut]
      constructor
      · intro h; exact absurd h (by simp)
      · intro h
        rcases hm with ⟨_, h2⟩ | ⟨_, h2⟩
        · rw [h2] at h; exact absurd (Option.some.inj h).symm hut
        · rw [h2] at h; exact absurd h (by simp)
  · intro u
    by_cases hut : u = t
    · subst hut
      simp only [Function.update_same]
      exact hok
    · simp only [Function.update_noteq hut]
      exact Thread.ok_of_not_critical _ _ (hothers u hut)
  · intro u
    by_cases hut : u = t
    · subst hut
      simp only [Function.update_same]
      exact hjob
    · simp only [Function.update_noteq hut]
      exact hinv.2.2 u
  · simp only [Shared.abs, Atomic.mk.injEq, true_and]
    funext u
    by_cases hut : u = t
    · subst hut
      simp only [Function.update_same]
    · simp only [Function.update_noteq hut]
      exact Thread.outcome_of_not_critical _ _ _ (hothers u hut)

theorem Atomic.update_self (a : Atomic) (t : Nat) (o : Outcome) (h : a.outcome t = o) :
    (⟨a.numbers_, Function.update a.outcome t o⟩ : Atomic) = a := by
  rw [← h, Function.update_eq_self]

theorem take_succ_of_getElem? (l : List Int) (i : Nat) (x : Int) (h : l[i]? = some x) :
    l.take (i + 1) = l.take i ++ [x] := by
  rw [List.take_succ, h]
  rfl

theorem take_of_getElem?_none (l : List Int) (i : Nat) (h : l[i]? = none) : l.take i = l := by
  rw [List.getElem?_eq_none_iff] at h
  exact List.take_of_length_le h

/-- Every step of every thread keeps the invariant, and in the atomic reading it is either no
step at all or the one indivisible step of that thread's operation. -/
theorem Shared.step_spec (jobs : Nat → Option Int) (s : Shared) (t : Nat) (hinv : s.Inv jobs) :
    (s.step t).Inv jobs ∧
    ((s.step t).abs = s.abs ∨ (s.step t).abs = Atomic.step jobs s.abs t) := by
  have hjob := hinv.2.2 t
  have hok := hinv.2.1 t
  have hout : s.abs.outcome t = (s.threads t).outcome s.numbers_ := rfl
  have hnum : s.abs.numbers_ = s.numbers_ := rfl
  unfold Shared.step
  cases hth : s.threads t with
  | add_number v pc =>
    rw [hth] at hjob hok hout
    cases pc with
    | at_lock =>
      simp only
      split_ifs with hfree
      · obtain ⟨h1, h2⟩ := Shared.update_spec jobs s t (Thread.add_number v AddPc.at_insert)
          s.numbers_ (some t) hinv (Shared.Inv.others_of_free jobs s t hinv hfree)
          (Or.inl ⟨rfl, rfl⟩) trivial hjob
        refine ⟨h1, Or.inl ?_⟩
        rw [h2]
        exact Atomic.update_self s.abs t _ hout
      · exact ⟨hinv, Or.inl rfl⟩
    | at_insert =>
      have hc : (s.threads t).critical = true := by rw [hth]; rfl
      obtain ⟨hm, ho⟩ := Shared.Inv.others_of_critical jobs s t hinv hc
      obtain ⟨h1, h2⟩ := Shared.update_spec jobs s t
        (Thread.add_number v (AddPc.at_loop 0 (roundDouble ⟨0, 1⟩)))
        (set_insert v s.numbers_) s.mutex_ hinv ho (Or.inl ⟨rfl, hm⟩) rfl hjob
      refine ⟨h1, Or.inr ?_⟩
      rw [h2]
      have hj : jobs t = some v := hjob.symm
      have hp : s.abs.outcome t = Outcome.pending := hout
      simp only [Atomic.step, hp, hj]
      rfl
    | at_loop i sum =>
      have hc : (s.threads t).critical = true := by rw [hth]; rfl
      obtain ⟨hm, ho⟩ := Shared.Inv.others_of_critical jobs s t hinv hc
      simp only
      cases hget : s.numbers_[i]? with
      | some num =>
        obtain ⟨h1, h2⟩ := Shared.update_spec jobs s t
          (Thread.add_number v (AddPc.at_loop (i + 1) (accumulate sum num)))
          s.numbers_ s.mutex_ hinv ho (Or.inl ⟨rfl, hm⟩)
          (by
            show accumulate sum num = _
            rw [take_succ_of_getElem? s.numbers_ i num hget, List.foldl_append]
            have : sum = (s.numbers_.take i).foldl accumulate (roundDouble ⟨0, 1⟩) := hok
            rw [← this]
            rfl) hjob
        refine ⟨h1, Or.inl ?_⟩
        rw [h2]
        exact Atomic.update_self s.abs t _ hout
      | none =>
        obtain ⟨h1, h2⟩ := Shared.update_spec jobs s t
          (Thread.add_number v (AddPc.at_return sum))
          s.numbers_ s.mutex_ hinv ho (Or.inl ⟨rfl, hm⟩)
          (by
            show sum = sum_of_squares s.numbers_
            have : sum = (s.numbers_.take i).foldl accumulate (roundDouble ⟨0, 1⟩) := hok
            rw [this, take_of_getElem?_none s.numbers_ i hget]
            rfl) hjob
        refine ⟨h1, Or.inl ?_⟩
        rw [h2]
        exact Atomic.update_self s.abs t _ hout
    | at_return sum =>
      have hc : (s.threads t).critical = true := by rw [hth]; rfl
      obtain ⟨_, ho⟩ := Shared.Inv.others_of_critical jobs s t hinv hc
      obtain ⟨h1, h2⟩ := Shared.update_spec jobs s t
        (Thread.add_number v (AddPc.returned (mean_from sum s.numbers_)))
        s.numbers_ none hinv ho (Or.inr ⟨rfl, rfl⟩) trivial hjob
      refine ⟨h1, Or.inl ?_⟩
      rw [h2]
      apply Atomic.update_self s.abs t _
      rw [hout]
      have : sum = sum_of_squares s.numbers_ := hok
      rw [this]
      rfl
    | returned result => exact ⟨hinv, Or.inl rfl⟩
  | create_dump pc =>
    rw [hth] at hjob hok hout
    cases pc with
    | at_lock =>
      simp only
      split_ifs with hfree
      · obtain ⟨h1, h2⟩ := Shared.update_spec jobs s t
          (Thread.create_dump (CopyPc.at_copy 0 [])) s.numbers_ (some t) hinv
          (Shared.Inv.others_of_free jobs s t hinv hfree) (Or.inl ⟨rfl, rfl⟩) rfl hjob
        refine ⟨h1, Or.inr ?_⟩
        rw [h2]
        have hj : jobs t = none := hjob.symm
        have hp : s.abs.outcome t = Outcome.pending := hout
        simp only [Atomic.step, hp, hj]
        rfl
      · exact ⟨hinv, Or.inl rfl⟩
    | at_copy i acc =>
      have hc : (s.threads t).critical = true := by rw [hth]; rfl
      obtain ⟨hm, ho⟩ := Shared.Inv.others_of_critical jobs s t hinv hc
      simp only
      cases hget : s.numbers_[i]? with
      | some num =>
        obtain ⟨h1, h2⟩ := Shared.update_spec jobs s t
          (Thread.create_dump (CopyPc.at_copy (i + 1) (acc ++ [num])))
          s.numbers_ s.mutex_ hinv ho (Or.inl ⟨rfl, hm⟩)
          (by
            show acc ++ [num] = _
            have : acc = s.numbers_.take i := hok
            rw [take_succ_of_getElem? s.numbers_ i num hget, this]) hjob
        refine ⟨h1, Or.inl ?_⟩
        rw [h2]
        exact Atomic.update_self s.abs t _ hout
      | none =>
        obtain ⟨h1, h2⟩ := Shared.update_spec jobs s t
          (Thread.create_dump (CopyPc.at_unlock acc))
          s.numbers_ s.mutex_ hinv ho (Or.inl ⟨rfl, hm⟩)
          (by
            show acc = s.numbers_
            have : acc = s.numbers_.take i := hok
            rw [this, take_of_getElem?_none s.numbers_ i hget]) hjob
        refine ⟨h1, Or.inl ?_⟩
        rw [h2]
        exact Atomic.update_self s.abs t _ hout
    | at_unlock acc =>
      have hc : (s.threads t).critical = true := by rw [hth]; rfl
      obtain ⟨_, ho⟩ := Shared.Inv.others_of_critical jobs s t hinv hc
      obtain ⟨h1, h2⟩ := Shared.update_spec jobs s t
        (Thread.create_dump (CopyPc.copied acc))
        s.numbers_ none hinv ho (Or.inr ⟨rfl, rfl⟩) trivial hjob
      refine ⟨h1, Or.inl ?_⟩
      rw [h2]
      apply Atomic.update_self s.abs t _
      rw [hout]
      have : acc = s.numbers_ := hok
      rw [this]
      rfl
    | copied acc => exact ⟨hinv, Or.inl rfl⟩

theorem Shared.init_inv (numbers_ : List Int) (jobs : Nat → Option Int) :
    (Shared.init numbers_ jobs).Inv jobs := by
  refine ⟨?_, ?_, ?_⟩
  · intro t
    simp only [Shared.init]
    cases hj : jobs t <;> simp [Thread.critical]
  · intro t
    simp only [Shared.init]
    cases hj : jobs t <;> simp [Thread.ok]
  · intro t
    simp only [Shared.init]
    cases hj : jobs t <;> simp [Thread.job]

theorem Shared.init_abs (numbers_ : List Int) (jobs : Nat → Option Int) :
    (Shared.init numbers_ jobs).abs = Atomic.init numbers_ := by
  simp only [Shared.abs, Shared.init, Atomic.init, Atomic.mk.injEq, true_and]
  funext t
  cases hj : jobs t <;> simp [Thread.outcome]

theorem Shared.run_inv (jobs : Nat → Option Int) (schedule : List Nat) : ∀ s : Shared,
    s.Inv jobs → (s.run schedule).Inv jobs := by
  induction schedule with
  | nil => intro s h; exact h
  | cons t schedule ih => intro s h; exact ih (s.step t) (Shared.step_spec jobs s t h).1

/-- Linearisation: every interleaving stands for the atomic run of the operations in the order
in which their threads made the insertion (or took the mutex, for a copy). -/
theorem Shared.run_linearizable (jobs : Nat → Option Int) (schedule : List Nat) :
    ∀ s : Shared, s.Inv jobs →
    ∃ ops : List Nat, ops.Sublist schedule ∧ (s.run schedule).abs = Atomic.run jobs s.abs ops := by
  induction schedule with
  | nil => intro s _; exact ⟨[], List.Sublist.refl _, rfl⟩
  | cons t schedule ih =>
    intro s hinv
    obtain ⟨h1, h2⟩ := Shared.step_spec jobs s t hinv
    obtain ⟨ops, hsub, hops⟩ := ih (s.step t) h1
    rcases h2 with h2 | h2
    · exact ⟨ops, List.Sublist.cons t hsub, by rw [← h2]; exact hops⟩
    · refine ⟨t :: ops, List.Sublist.cons₂ t hsub, ?_⟩
      rw [h2] at hops
      exact hops

theorem Atomic.step_outcome_ne (jobs : Nat → Option Int) (a : Atomic) (t u : Nat) (h : u ≠ t) :
    (Atomic.step jobs a t).outcome u = a.outcome u := by
  unfold Atomic.step
  split <;> simp [Function.update_noteq h]

theorem Atomic.step_of_done (jobs : Nat → Option Int) (a : Atomic) (t : Nat)
    (h : a.outcome t ≠ Outcome.pending) : Atomic.step jobs a t = a := by
  unfold Atomic.step
  split <;> simp_all

/-- An operation that has taken effect keeps its outcome. -/
theorem Atomic.run_stable (jobs : Nat → Option Int) (t : Nat) (o : Outcome)
    (ho : o ≠ Outcome.pending) (ops : List Nat) : ∀ a : Atomic, a.outcome t = o →
    (Atomic.run jobs a ops).outcome t = o := by
  induction ops with
  | nil => intro a h; exact h
  | cons u ops ih =>
    intro a h
    apply ih
    by_cases hut : u = t
    · subst hut
      rw [Atomic.step_of_done jobs a u (by rw [h]; exact ho)]
      exact h
    · rw [Atomic.step_outcome_ne jobs a u t (Ne.symm hut)]
      exact h

/-- In an atomic run, the value returned by an `observe(v)` is the value `add_number` returns on
the set left by the operations that took effect before it. -/
theorem Atomic.run_returned (jobs : Nat → Option Int) (t : Nat) (result : Fp)
    (ops : List Nat) : ∀ a : Atomic, a.outcome t = Outcome.pending →
    (Atomic.run jobs a ops).outcome t = Outcome.returned result →
    ∃ pre post v, ops = pre ++ t :: post ∧ t ∉ pre ∧ jobs t = some v ∧
      result = (add_number (Atomic.run jobs a pre).numbers_ v).2 := by
  induction ops with
  | nil => intro a h1 h2; simp only [Atomic.run, List.foldl_nil] at h2; rw [h1] at h2; cases h2
  | cons u ops ih =>
    intro a h1 h2
    by_cases hut : u = t
    · subst hut
      cases hj : jobs u with
      | some v =>
        have hstep : (Atomic.step jobs a u).outcome u
            = Outcome.returned (add_number a.numbers_ v).2 := by
          simp only [Atomic.step, h1, hj, Function.update_same]
        have := Atomic.run_stable jobs u _ (by simp) ops (Atomic.step jobs a u) hstep
        have h3 : (Atomic.run jobs a (u :: ops)).outcome u
            = Outcome.returned (add_number a.numbers_ v).2 := this
        rw [h2] at h3
        exact ⟨[], ops, v, rfl, by simp, rfl, Outcome.returned.inj h3⟩
      | none =>
        have hstep : (Atomic.step jobs a u).outcome u = Outcome.copied a.numbers_ := by
          simp only [Atomic.step, h1, hj, Function.update_same]
        have := Atomic.run_stable jobs u _ (by simp) ops (Atomic.step jobs a u) hstep
        have h3 : (Atomic.run jobs a (u :: ops)).outcome u = Outcome.copied a.numbers_ := this
        rw [h2] at h3
        cases h3
    · have hp : (Atomic.step jobs a u).outcome t = Outcome.pending := by
        rw [Atomic.step_outcome_ne jobs a u t (Ne.symm hut)]; exact h1
      obtain ⟨pre, post, v, h3, h4, h5, h6⟩ := ih (Atomic.step jobs a u) hp h2
      refine ⟨u :: pre, post, v, by rw [h3]; rfl, ?_, h5, h6⟩
      intro hm
      rcases List.mem_cons.mp hm with hm | hm
      · exact hut hm.symm
      · exact h4 hm

/-- In an atomic run, the copy taken by a `snapshot` is the set left by the operations that took
effect before it. -/
theorem Atomic.run_copied (jobs : Nat → Option Int) (t : Nat) (c : List Int)
    (ops : List Nat) : ∀ a : Atomic, a.outcome t = Outcome.pending →
    (Atomic.run jobs a ops).outcome t = Outcome.copied c →
    ∃ pre post, ops = pre ++ t :: post ∧ t ∉ pre ∧ jobs t = none ∧
      c = (Atomic.run jobs a pre).numbers_ := by
  induction ops with
  | nil => intro a h1 h2; simp only [Atomic.run, List.foldl_nil] at h2; rw [h1] at h2; cases h2
  | cons u ops ih =>
    intro a h1 h2
    by_cases hut : u = t
    · subst hut
      cases hj : jobs u with
      | some v =>
        have hstep : (Atomic.step jobs a u).outcome u
            = Outcome.returned (add_number a.numbers_ v).2 := by
          simp only [Atomic.step, h1, hj, Function.update_same]
        have := Atomic.run_stable jobs u _ (by simp) ops (Atomic.step jobs a u) hstep
        have h3 : (Atomic.run jobs a (u :: ops)).outcome u
            = Outcome.returned (add_number a.numbers_ v).2 := this
        rw [h2] at h3
        cases h3
      | none =>
        have hstep : (Atomic.step jobs a u).outcome u = Outcome.copied a.numbers_ := by
          simp only [Atomic.step, h1, hj, Function.update_same]
        have := Atomic.run_stable jobs u _ (by simp) ops (Atomic.step jobs a u) hstep
        have h3 : (Atomic.run jobs a (u :: ops)).outcome u = Outcome.copied a.numbers_ := this
        rw [h2] at h3
        exact ⟨[], ops, rfl, by simp, rfl, Outcome.copied.inj h3⟩
    · have hp : (Atomic.step jobs a u).outcome t = Outcome.pending := by
        rw [Atomic.step_outcome_ne jobs a u t (Ne.symm hut)]; exact h1
      obtain ⟨pre, post, h3, h4, h5, h6⟩ := ih (Atomic.step jobs a u) hp h2
      refine ⟨u :: pre, post, by rw [h3]; rfl, ?_, h5, h6⟩
      intro hm
      rcases List.mem_cons.mp hm with hm | hm
      · exact hut hm.symm
      · exact h4 hm

/-! ### Progress -/

theorem set_insert_length_le (v : Int) (l : List Int) :
    (set_insert v l).length ≤ l.length + 1 := by
  induction l with
  | nil => simp [set_insert]
  | cons a l ih =>
    unfold set_insert
    split_ifs
    · simp
    · simp
    · simp only [List.length_cons]; omega

theorem Shared.step_threads_ne (s : Shared) (t u : Nat) (h : u ≠ t) :
    (s.step t).threads u = s.threads u := by
  unfold Shared.step
  cases s.threads t with
  | add_number v pc =>
    cases pc with
    | at_lock => simp only; split_ifs <;> simp [Function.update_noteq h]
    | at_insert => simp [Function.update_noteq h]
    | at_loop i sum => simp only; cases s.numbers_[i]? <;> simp [Function.update_noteq h]
    | at_return sum => simp [Function.update_noteq h]
    | returned r => rfl
  | create_dump pc =>
    cases pc with
    | at_lock => simp only; split_ifs <;> simp [Function.update_noteq h]
    | at_copy i acc => simp only; cases s.numbers_[i]? <;> simp [Function.update_noteq h]
    | at_unlock acc => simp [Function.update_noteq h]
    | copied c => rfl

theorem Shared.step_of_finished (s : Shared) (t : Nat) (h : (s.threads t).finished = true) :
    s.step t = s := by
  unfold Shared.step
  cases hth : s.threads t with
  | add_number v pc => rw [hth] at h; cases pc <;> simp_all [Thread.finished]
  | create_dump pc => rw [hth] at h; cases pc <;> simp_all [Thread.finished]

theorem Shared.run_replicate_of_finished (t : Nat) (n : Nat) (s : Shared)
    (h : (s.threads t).finished = true) : s.run (List.replicate n t) = s := by
  induction n with
  | zero => rfl
  | succ n ih =>
    rw [List.replicate_succ, Shared.run, List.foldl_cons, Shared.step_of_finished s t h]
    exact ih

theorem Thread.remaining_pos (th : Thread) (n : List Int) (h : th.critical = true) :
    1 ≤ th.remaining n := by
  cases th with
  | add_number v pc => cases pc <;> simp_all [Thread.critical, Thread.remaining]
  | create_dump pc => cases pc <;> simp_all [Thread.critical, Thread.remaining]

/-- A step of a thread in its critical section brings it closer to the release of the mutex, or
is the release. -/
theorem Shared.step_of_critical (s : Shared) (t : Nat) (h : (s.threads t).critical = true) :
    (((s.step t).threads t).critical = true ∧
      ((s.step t).threads t).remaining (s.step t).numbers_ + 1
        ≤ (s.threads t).remaining s.numbers_) ∨
    (((s.step t).threads t).finished = true ∧ (s.step t).mutex_ = none) := by
  unfold Shared.step
  cases hth : s.threads t with
  | add_number v pc =>
    rw [hth] at h
    cases pc with
    | at_lock => simp [Thread.critical] at h
    | at_insert =>
      left
      have := set_insert_length_le v s.numbers_
      simp only [Function.update_same, Thread.critical, Thread.remaining, true_and]
      omega
    | at_loop i sum =>
      left
      simp only
      cases hget : s.numbers_[i]? with
      | some num =>
        have hlt : i < s.numbers_.length := by
          by_contra hc
          rw [List.getElem?_eq_none_iff.mpr (by omega)] at hget
          cases hget
        simp only [Function.update_same, Thread.critical, Thread.remaining, true_and]
        omega
      | none =>
        simp only [Function.update_same, Thread.critical, Thread.remaining, true_and]
        omega
    | at_return sum =>
      right
      simp [Thread.finished]
    | returned r => simp [Thread.critical] at h
  | create_dump pc =>
    rw [hth] at h
    cases pc with
    | at_lock => simp [Thread.critical] at h
    | at_copy i acc =>
      left
      simp only
      cases hget : s.numbers_[i]? with
      | some num =>
        have hlt : i < s.numbers_.length := by
          by_contra hc
          rw [List.getElem?_eq_none_iff.mpr (by omega)] at hget
          cases hget
        simp only [Function.update_same, Thread.critical, Thread.remaining, true_and]
        omega
      | none =>
        simp only [Function.update_same, Thread.critical, Thread.remaining, true_and]
        omega
    | at_unlock acc =>
      right
      simp [Thread.finished]
    | copied c => simp [Thread.critical] at h

/-- A thread in its critical section, scheduled often enough, leaves it and releases the mutex;
the other threads have not moved. -/
theorem Shared.finish_critical (jobs : Nat → Option Int) (t : Nat) : ∀ (n : Nat) (s : Shared),
    s.Inv jobs → (s.threads t).critical = true → (s.threads t).remaining s.numbers_ ≤ n →
    ((s.run (List.replicate n t)).threads t).finished = true ∧
    (s.run (List.replicate n t)).mutex_ = none ∧
    (s.run (List.replicate n t)).Inv jobs ∧
    ∀ u, u ≠ t → (s.run (List.replicate n t)).threads u = s.threads u := by
  intro n
  induction n with
  | zero =>
    intro s _ hc hr
    have := Thread.remaining_pos (s.threads t) s.numbers_ hc
    omega
  | succ n ih =>
    intro s hinv hc hr
    have hinv1 := (Shared.step_spec jobs s t hinv).1
    have hrun : s.run (List.replicate (n + 1) t) = (s.step t).run (List.replicate n t) := by
      rw [List.replicate_succ]; rfl
    rw [hrun]
    rcases Shared.step_of_critical s t hc with ⟨hc1, hr1⟩ | ⟨hf, hm⟩
    · obtain ⟨h1, h2, h3, h4⟩ := ih (s.step t) hinv1 hc1 (by omega)
      refine ⟨h1, h2, h3, ?_⟩
      intro u hut
      rw [h4 u hut, Shared.step_threads_ne s t u hut]
    · rw [Shared.run_replicate_of_finished t n (s.step t) hf]
      exact ⟨hf, hm, hinv1, fun u hut => Shared.step_threads_ne s t u hut⟩

theorem Shared.run_concat (s : Shared) (a b : List Nat) : s.run (a ++ b) = (s.run a).run b := by
  simp only [Shared.run, List.foldl_append]

/-- A thread waiting at its `lock_guard` while the mutex is free takes it. -/
theorem Shared.step_acquire (s : Shared) (t : Nat) (hc : (s.threads t).critical = false)
    (hf : (s.threads t).finished = false) (hm : s.mutex_ = none) :
    ((s.step t).threads t).critical = true := by
  unfold Shared.step
  cases hth : s.threads t with
  | add_number v pc =>
    rw [hth] at hc hf
    cases pc <;> simp_all [Thread.critical, Thread.finished]
  | create_dump pc =>
    rw [hth] at hc hf
    cases pc <;> simp_all [Thread.critical, Thread.finished]

/-- No deadlock: from every state of an interleaving, every thread can be brought to its end. -/
theorem Shared.progress (jobs : Nat → Option Int) (s : Shared) (hinv : s.Inv jobs) (t : Nat) :
    ∃ more : List Nat, ((s.run more).threads t).finished = true := by
  -- the case of a free mutex
  have hfree : ∀ s' : Shared, s'.Inv jobs → s'.mutex_ = none →
      (s'.threads t).finished = false →
      ∃ more : List Nat, ((s'.run more).threads t).finished = true := by
    intro s' hinv' hm hf
    have hc : (s'.threads t).critical = false := by
      by_contra hc
      have := (hinv'.1 t).mp (by simpa using hc)
      rw [hm] at this
      cases this
    have hc1 := Shared.step_acquire s' t hc hf hm
    have hinv1 := (Shared.step_spec jobs s' t hinv').1
    obtain ⟨h1, _⟩ := Shared.finish_critical jobs t _ (s'.step t) hinv1 hc1 le_rfl
    exact ⟨t :: List.replicate (((s'.step t).threads t).remaining (s'.step t).numbers_) t, h1⟩
  cases hf : (s.threads t).finished with
  | true => exact ⟨[], hf⟩
  | false =>
    cases hm : s.mutex_ with
    | none => exact hfree s hinv hm hf
    | some u =>
      have hcu : (s.threads u).critical = true := (hinv.1 u).mpr hm
      by_cases hut : u = t
      · subst hut
        obtain ⟨h1, _⟩ := Shared.finish_critical jobs u _ s hinv hcu le_rfl
        exact ⟨_, h1⟩
      · obtain ⟨_, h2, h3, h4⟩ := Shared.finish_critical jobs u _ s hinv hcu le_rfl
        have hf' : ((s.run (List.replicate ((s.threads u).remaining s.numbers_) u)).threads
            t).finished = false := by
          rw [h4 t (Ne.symm hut)]; exact hf
        obtain ⟨more, hmore⟩ := hfree _ h3 h2 hf'
        exact ⟨List.replicate ((s.threads u).remaining s.numbers_) u ++ more, by
          rw [Shared.run_concat]; exact hmore⟩

/-- C4: atomicity of `add_number` and of the copy of `create_dump`. Under every interleaving of
the steps of any number of threads that call `add_number` or copy the set for a dump, from any
set, the state stands for the atomic run of the operations in the order `ops` in which the
threads made their insertion (took the mutex, for a copy), an order taken from the schedule:
the shared set is the set of that atomic run; every call `add_number(number)` that has returned
has returned what the function returns, run alone, on the set left by the operations before it
in `ops`, that is the mean of squares of exactly the set as it was immediately after its own
insertion; every copy taken equals the set at the one instant between the operations before it
and those after it. At most one thread is between its `lock_guard` and the release of the
mutex. And no thread is stuck: every interleaving can be continued so that any given thread
returns. -/
theorem C4_add_number_atomic (numbers_ : List Int) (jobs : Nat → Option Int)
    (schedule : List Nat) :
    (∃ ops : List Nat, ops.Sublist schedule ∧
      ((Shared.init numbers_ jobs).run schedule).abs
        = Atomic.run jobs (Atomic.init numbers_) ops ∧
      ((Shared.init numbers_ jobs).run schedule).numbers_
        = (Atomic.run jobs (Atomic.init numbers_) ops).numbers_ ∧
      (∀ t number result,
        ((Shared.init numbers_ jobs).run schedule).threads t
          = Thread.add_number number (AddPc.returned result) →
        ∃ pre post, ops = pre ++ t :: post ∧ t ∉ pre ∧ jobs t = some number ∧
          result = (add_number (Atomic.run jobs (Atomic.init numbers_) pre).numbers_ number).2 ∧
          result = mean_of_squares
            (set_insert number (Atomic.run jobs (Atomic.init numbers_) pre).numbers_)) ∧
      (∀ t numbers_copy,
        ((Shared.init numbers_ jobs).run schedule).threads t
          = Thread.create_dump (CopyPc.copied numbers_copy) →
        ∃ pre post, ops = pre ++ t :: post ∧ t ∉ pre ∧ jobs t = none ∧
          numbers_copy = (Atomic.run jobs (Atomic.init numbers_) pre).numbers_)) ∧
    (∀ t u, (((Shared.init numbers_ jobs).run schedule).threads t).critical = true →
      (((Shared.init numbers_ jobs).run schedule).threads u).critical = true → t = u) ∧
    (∀ t, ∃ more : List Nat,
      (((Shared.init numbers_ jobs).run (schedule ++ more)).threads t).finished = true) := by
  have hinv := Shared.run_inv jobs schedule _ (Shared.init_inv numbers_ jobs)
  obtain ⟨ops, hsub, hops⟩ :=
    Shared.run_linearizable jobs schedule _ (Shared.init_inv numbers_ jobs)
  rw [Shared.init_abs] at hops
  refine ⟨⟨ops, hsub, hops, ?_, ?_, ?_⟩, ?_, ?_⟩
  · rw [← hops]; rfl
  · intro t number result ht
    have hout : (Atomic.run jobs (Atomic.init numbers_) ops).outcome t
        = Outcome.returned result := by
      rw [← hops]
      show (((Shared.init numbers_ jobs).run schedule).threads t).outcome _ = _
      rw [ht]; rfl
    obtain ⟨pre, post, v, h1, h2, h3, h4⟩ :=
      Atomic.run_returned jobs t result ops (Atomic.init numbers_) rfl hout
    have hjob := hinv.2.2 t
    rw [ht] at hjob
    have hv : v = number := by
      have : some number = some v := by rw [← h3]; exact hjob
      exact (Option.some.inj this).symm
    subst hv
    exact ⟨pre, post, h1, h2, h3, h4, h4⟩
  · intro t numbers_copy ht
    have hout : (Atomic.run jobs (Atomic.init numbers_) ops).outcome t
        = Outcome.copied numbers_copy := by
      rw [← hops]
      show (((Shared.init numbers_ jobs).run schedule).threads t).outcome _ = _
      rw [ht]; rfl
    exact Atomic.run_copied jobs t numbers_copy ops (Atomic.init numbers_) rfl hout
  · intro t u ht hu
    have h1 := (hinv.1 t).mp ht
    have h2 := (hinv.1 u).mp hu
    rw [h1] at h2
    exact Option.some.inj h2
  · intro t
    obtain ⟨more, hmore⟩ := Shared.progress jobs _ hinv t
    exact ⟨more, by rw [Shared.run_concat]; exact hmore⟩

set_option maxRecDepth 100000 in
/-- An interleaving of a call `add_number(2)` (thread 0) and a copy (thread 1) from the set
`{1}`: the copy, scheduled three times while the call holds the mutex, does not move; the call
returns `5/2`, the mean of squares of `{1, 2}`; the copy then taken is `{1, 2}`. -/
theorem interleaving_example :
    ((Shared.init [1] (fun t => if t = 0 then some 2 else none)).run
        [0, 1, 0, 1, 0, 0, 0, 1, 0, 1, 1, 1, 1, 1]).threads 0
      = Thread.add_number 2 (AddPc.returned ⟨false, 5629499534213120, -51⟩) ∧
    ((Shared.init [1] (fun t => if t = 0 then some 2 else none)).run
        [0, 1, 0, 1, 0, 0, 0, 1, 0, 1, 1, 1, 1, 1]).threads 1
      = Thread.create_dump (CopyPc.copied [1, 2]) ∧
    ((Shared.init [1] (fun t => if t = 0 then some 2 else none)).run
        [0, 1, 0, 1, 0, 0, 0, 1]).threads 1
      = Thread.create_dump CopyPc.at_lock ∧
    ((Shared.init [1] (fun t => if t = 0 then some 2 else none)).run
        [0, 1, 0, 1, 0, 0, 0, 1]).mutex_ = some 0 := by
  decide

/-- Witness of C4: in the interleaving of `interleaving_example` the atomic order has the call
`add_number(2)` of thread 0 at one place, where it returned `5/2`, the mean of squares of the set
right after its insertion, and the copy of thread 1 at one place, where the set was `{1, 2}`. -/
theorem C4_add_number_atomic_witness :
    ∃ ops : List Nat, ops.Sublist [0, 1, 0, 1, 0, 0, 0, 1, 0, 1, 1, 1, 1, 1] ∧
      (∃ pre post, ops = pre ++ 0 :: post ∧ 0 ∉ pre ∧
        (⟨false, 5629499534213120, -51⟩ : Fp) = mean_of_squares (set_insert 2
          (Atomic.run (fun t => if t = 0 then some 2 else none) (Atomic.init [1]) pre).numbers_)) ∧
      (∃ pre post, ops = pre ++ 1 :: post ∧ 1 ∉ pre ∧
        [1, 2] = (Atomic.run (fun t => if t = 0 then some 2 else none)
          (Atomic.init [1]) pre).numbers_) := by
  obtain ⟨⟨ops, hsub, -, -, hadd, hcopy⟩, -, -⟩ := C4_add_number_atomic [1]
    (fun t => if t = 0 then some 2 else none) [0, 1, 0, 1, 0, 0, 0, 1, 0, 1, 1, 1, 1, 1]
  obtain ⟨pre, post, h1, h2, -, -, h3⟩ := hadd 0 2 _ interleaving_example.1
  obtain ⟨pre', post', h1', h2', -, h3'⟩ := hcopy 1 _ interleaving_example.2.1
  exact ⟨ops, hsub, ⟨pre, post, h1, h2, h3⟩, ⟨pre', post', h1', h2', h3'⟩⟩

end MeanServer
